import Mathlib

/-!
Control-flow graph recovery of naken_asm_cfg (`data.go`).

A shallow embedding of the instruction model, the function discovery and the
two-pass basic block builder of `data.go`, followed by the properties proved
about them.

Conventions of the embedding.

* `uint16` values are natural numbers; every `uint16` operation of the source
  is followed by an explicit `% 65536`.  Opcode bytes are natural numbers; a
  line read by `parseInput` has four bytes below 256 (`line.wf`).
* Go maps `map[uint16]T` are total functions `Nat → Option T`; the maps
  `bStart`, `visited` and `fnGraph[addr]`, which only ever store `true`, are
  functions `Nat → Bool`.
* The `stack` type is a list whose head is the top (`Put` is cons, `Pop`
  takes the head).
* Loops take a fuel argument; running out of fuel, a nil dereference and
  `log.Fatal` are three distinct errors.
-/

namespace NakenCfg

/-! ## Instruction model -/

/-- One decoded memory word (`type line struct`): its address and the four
opcode bytes `optcode[0..3]`.  The free-text `description` plays no part in
control-flow recovery and is left out. -/
structure line where
  addr : Nat
  op0 : Nat
  op1 : Nat
  op2 : Nat
  op3 : Nat
deriving DecidableEq, Repr

/-- A line as `parseInput` builds it: a 16-bit address and four bytes. -/
def line.wf (l : line) : Prop :=
  l.addr < 65536 ∧ l.op0 < 256 ∧ l.op1 < 256 ∧ l.op2 < 256 ∧ l.op3 < 256

instance (l : line) : Decidable l.wf := by
  unfold line.wf; infer_instance

def line.isNOP (l : line) : Bool :=
  l.op0 == 0 && l.op1 == 0

def line.isRCALL (l : line) : Bool :=
  l.op0 == 0 && l.op1 == 7

def line.isBRA (l : line) : Bool :=
  l.op0 == 0 && (l.op1 &&& 0xF0) == 0x30

def line.isBRAUnconditional (l : line) : Bool :=
  l.op0 == 0x00 && l.op1 == 0x37

def line.isCALL (l : line) : Bool :=
  l.op0 == 0 && l.op1 == 0x02 && (l.op3 &&& 0x01) == 0

def line.isCALLREG (l : line) : Bool :=
  l.op0 == 0 && l.op1 == 0x01 && l.op2 == 0x00 && (l.op3 &&& 0xF0) == 0x00

def line.isGOTO (l : line) : Bool :=
  l.op0 == 0 && l.op1 == 0x04

def line.isGOTOREG (l : line) : Bool :=
  l.op0 == 0x00 && l.op1 == 0x01 && l.op2 == 0x40 && (l.op3 &&& 0xF0) == 0x00

def line.isRETURN (l : line) : Bool :=
  l.op0 == 0x00 && l.op1 == 0x06 && l.op2 == 0x00 && l.op3 == 0x00

/-- Target of a relative transfer (`relativeJumpLoc`), in `uint16`
arithmetic. -/
def line.relativeJumpLoc (l : line) : Nat :=
  let high := (l.op2 % 65536) <<< 8 % 65536
  let low := l.op3 % 65536
  let offset := ((high + low) % 65536) <<< 1 % 65536
  let dest := (l.addr + offset + 2) % 65536
  dest

/-- Target of an absolute transfer (`jumpLoc`), in `uint16` arithmetic. -/
def line.jumpLoc (l : line) : Nat :=
  let high := (l.op2 % 65536) <<< 8 % 65536
  let low := l.op3 % 65536
  let dest := (high + low) % 65536
  dest

/-- The instruction table `code : map[uint16]*line`. -/
abbrev Code := Nat → Option line

/-- The table is keyed by each instruction's own address, as `parseInput`
stores it (`code[line.addr] = &line`). -/
def Code.keyed (code : Code) : Prop :=
  ∀ a l, code a = some l → l.addr = a

/-- Store `true` under a key of a `map[uint16]bool`. -/
def setTrue (m : Nat → Bool) (k : Nat) : Nat → Bool :=
  fun x => if x = k then true else m x

/-- Store a value under a key of a map. -/
def setKey {α : Type} (m : Nat → Option α) (k : Nat) (v : α) : Nat → Option α :=
  fun x => if x = k then some v else m x

/-! ## Function discovery -/

/-- First loop of `findFunctions`: the relative target of every RCALL, in
iteration order, skipping what `fmap` already holds.  The accumulator is the
slice `functions`; `fmap` holds exactly its elements. -/
def findRCALLs : List line → List Nat → List Nat
  | [], functions => functions
  | l :: rest, functions =>
    if l.isRCALL then
      let dest := l.relativeJumpLoc
      if dest ∈ functions then findRCALLs rest functions
      else findRCALLs rest (functions ++ [dest])
    else findRCALLs rest functions

/-- Second loop of `findFunctions`: the absolute target of every CALL. -/
def findCALLs : List line → List Nat → List Nat
  | [], functions => functions
  | l :: rest, functions =>
    if l.isCALL then
      let dest := l.jumpLoc
      if dest ∈ functions then findCALLs rest functions
      else findCALLs rest (functions ++ [dest])
    else findCALLs rest functions

/-- The function `findFunctions`.  Go leaves the iteration order of
`range code` unspecified, so the two orders in which the two loops see the
table are arguments. -/
def findFunctions (order1 order2 : List line) : List Nat :=
  findCALLs order2 (findRCALLs order1 [])

/-- A list enumerates the instruction table: it holds exactly the lines the
table stores. -/
def Code.enumeratedBy (code : Code) (order : List line) : Prop :=
  ∀ l, l ∈ order ↔ ∃ a, code a = some l

/-! ## Basic block builder -/

/-- The three ways a run can stop without a result: a nil `*line` is
dereferenced (a Go panic), `log.Fatal` is called, or the fuel of the
embedding is used up. -/
inductive Err where
  | nilDeref
  | fatal
  | outOfFuel
deriving DecidableEq, Repr

/-- A basic block (`type block struct`). -/
structure block where
  addr : Nat
  lines : List line
  branches : List Nat
deriving DecidableEq, Repr

/-- The constructor `NewBlock`: fatal on a missing instruction. -/
def NewBlock (l : Option line) : Except Err block :=
  match l with
  | none => .error .fatal
  | some l => .ok { addr := l.addr, lines := [], branches := [] }

def block.addLine (b : block) (l : Option line) : block :=
  match l with
  | some l => { b with lines := b.lines ++ [l] }
  | none => b

def block.addBranch (b : block) (o : Nat) : block :=
  { b with branches := b.branches ++ [o] }

def block.isReturned (b : block) : Bool :=
  match b.lines.getLast? with
  | none => false
  | some l => l.isRETURN

/-- The variables of pass 1 of `buildGraph` for one function: the stack `s`,
the maps `bStart` and `visited`, and `calls`, the map `fnGraph[addr]` of the
function being processed. -/
structure Pass1 where
  s : List Nat
  bStart : Nat → Bool
  visited : Nat → Bool
  calls : Nat → Bool

/-- The statements `bStart[dest] = true; if !visited[dest] { s.Put(dest) }`. -/
def Pass1.mark (st : Pass1) (dest : Nat) : Pass1 :=
  { st with
    bStart := setTrue st.bStart dest
    s := if st.visited dest then st.s else dest :: st.s }

/-- The statement `fnGraph[addr][dest] = true`. -/
def Pass1.call (st : Pass1) (dest : Nat) : Pass1 :=
  { st with calls := setTrue st.calls dest }

/-- Inner loop of pass 1 (`for !code[f].isRETURN()`), from address `f`. -/
def walk1 (code : Code) : Nat → Nat → Pass1 → Except Err Pass1
  | 0, _, _ => .error .outOfFuel
  | n + 1, f, st =>
    match code f with
    | none => .error .nilDeref
    | some line =>
      if line.isRETURN then .ok st
      else if line.isBRA then
        let st := st.mark line.relativeJumpLoc
        if !line.isBRAUnconditional then .ok (st.mark ((f + 2) % 65536))
        else .ok st
      else if line.isGOTO then .ok (st.mark line.jumpLoc)
      else if line.isGOTOREG then .ok st
      else
        let st := if line.isCALL then st.call line.jumpLoc else st
        let st := if line.isRCALL then st.call line.relativeJumpLoc else st
        walk1 code n ((f + 2) % 65536) st

/-- Outer loop of pass 1 (`for !s.Empty()`); `fuel` bounds every inner loop,
the first number bounds this loop. -/
def loop1 (code : Code) (fuel : Nat) : Nat → Pass1 → Except Err Pass1
  | 0, _ => .error .outOfFuel
  | n + 1, st =>
    match st.s with
    | [] => .ok st
    | f :: rest =>
      let st := { st with s := rest, visited := setTrue st.visited f }
      match code f with
      | none => loop1 code fuel n st
      | some _ =>
        match walk1 code fuel f st with
        | .error e => .error e
        | .ok st => loop1 code fuel n st

/-- Pass 1 for the function entry `addr`, with the check that follows it
(`if !s.Empty() { log.Fatal(...) }`). -/
def pass1 (code : Code) (fuel : Nat) (addr : Nat) : Except Err Pass1 :=
  match loop1 code fuel fuel
      { s := [addr], bStart := fun _ => false, visited := fun _ => false,
        calls := fun _ => false } with
  | .error e => .error e
  | .ok st => if !st.s.isEmpty then .error .fatal else .ok st

/-- The statements `b.addBranch(dest); if blockMap[dest] == nil { s.Put(dest) }`
on the block under construction and the stack. -/
def branchTo (blockMap : Nat → Option block) (bs : block × List Nat) (dest : Nat) :
    block × List Nat :=
  (bs.1.addBranch dest, if (blockMap dest).isSome then bs.2 else dest :: bs.2)

/-- Inner loop of pass 2, from address `f`, filling the block `b`.  The map
`blockMap` is only read here (key presence); it already holds the key of the
block under construction.  Returns the block, the stack and the last value of
`f`. -/
def walk2 (code : Code) (bStart : Nat → Bool) (blockMap : Nat → Option block) :
    Nat → Nat → block → List Nat → Except Err (block × List Nat × Nat)
  | 0, _, _, _ => .error .outOfFuel
  | n + 1, f, b, s =>
    match code f with
    | none => .error .nilDeref
    | some line =>
      if line.isRETURN then .ok (b, s, f)
      else
        let b := b.addLine (some line)
        if line.isBRA then
          let bs := branchTo blockMap (b, s) line.relativeJumpLoc
          if !line.isBRAUnconditional then
            let bs := branchTo blockMap bs ((f + 2) % 65536)
            .ok (bs.1, bs.2, f)
          else .ok (bs.1, bs.2, f)
        else if line.isGOTO then
          let bs := branchTo blockMap (b, s) line.jumpLoc
          .ok (bs.1, bs.2, f)
        else if line.isGOTOREG then .ok (b, s, f)
        else if bStart ((f + 2) % 65536) then
          let bs := branchTo blockMap (b, s) ((f + 2) % 65536)
          .ok (bs.1, bs.2, f)
        else walk2 code bStart blockMap n ((f + 2) % 65536) b s

/-- The statement after the inner loop of pass 2:
`if code[f].isRETURN() && !b.isReturned() { b.addLine(code[f]) }`. -/
def closeBlock (code : Code) (f : Nat) (b : block) : Except Err block :=
  match code f with
  | none => .error .nilDeref
  | some l => if l.isRETURN && !b.isReturned then .ok (b.addLine (some l)) else .ok b

/-- Outer loop of pass 2.  `blockMap[f] = b` stores a pointer, so the entry
shows the block as it is when the walk is over; during the walk the key is
already present. -/
def loop2 (code : Code) (bStart : Nat → Bool) (fuel : Nat) :
    Nat → List Nat → (Nat → Option block) → Except Err (List Nat × (Nat → Option block))
  | 0, _, _ => .error .outOfFuel
  | _ + 1, [], blockMap => .ok ([], blockMap)
  | n + 1, f :: s, blockMap =>
    match code f with
    | none => loop2 code bStart fuel n s blockMap
    | some _ =>
      match NewBlock (code f) with
      | .error e => .error e
      | .ok b =>
        let blockMap := setKey blockMap f b
        match walk2 code bStart blockMap fuel f b s with
        | .error e => .error e
        | .ok (b, s, f1) =>
          match closeBlock code f1 b with
          | .error e => .error e
          | .ok b => loop2 code bStart fuel n s (setKey blockMap f b)

/-- The two global results of `buildGraph`. -/
structure Graph where
  blockMap : Nat → Option block
  fnGraph : Nat → Option (Nat → Bool)

/-- Body of the loop `for _, addr := range functions` of `buildGraph`. -/
def buildFunction (code : Code) (fuel : Nat) (g : Graph) (addr : Nat) : Except Err Graph :=
  match pass1 code fuel addr with
  | .error e => .error e
  | .ok p1 =>
    match loop2 code p1.bStart fuel fuel [addr] g.blockMap with
    | .error e => .error e
    | .ok (_, blockMap) =>
      .ok { blockMap := blockMap, fnGraph := setKey g.fnGraph addr p1.calls }

/-- The loop over the function entries, from a given state of the tables. -/
def buildGraphFrom (code : Code) (fuel : Nat) : List Nat → Graph → Except Err Graph
  | [], g => .ok g
  | addr :: rest, g =>
    match buildFunction code fuel g addr with
    | .error e => .error e
    | .ok g => buildGraphFrom code fuel rest g

/-- The function `buildGraph`: both tables start empty. -/
def buildGraph (code : Code) (fuel : Nat) (functions : List Nat) : Except Err Graph :=
  buildGraphFrom code fuel functions { blockMap := fun _ => none, fnGraph := fun _ => none }

/-- The graph a finished run returned (the empty one otherwise). -/
def Graph.ofRun (r : Except Err Graph) : Graph :=
  match r with
  | .ok g => g
  | .error _ => { blockMap := fun _ => none, fnGraph := fun _ => none }

/-- An instruction table given by a list of lines, each stored under its own
address; a later line replaces an earlier one at the same address. -/
def codeOf (ls : List line) : Code :=
  fun a => (ls.reverse.find? (fun l => l.addr == a))


/-! ## Specification vocabulary -/

/-- A plain instruction: none of the four classes at which the walks of
`buildGraph` stop (RETURN, BRA, GOTO, GOTO-indirect). -/
def line.isPlain (l : line) : Bool :=
  !l.isRETURN && !l.isBRA && !l.isGOTO && !l.isGOTOREG

/-- The walk of pass 1 from the entry `e`, as a relation: it follows
`addr+2` after a plain instruction, the taken target and, for a conditional
BRA, `addr+2` after a BRA, the target after a GOTO, and stops at RETURN and
GOTO-indirect. -/
inductive Reach (code : Code) (e : Nat) : Nat → Prop
  | entry : Reach code e e
  | next {x : Nat} {l : line} : Reach code e x → code x = some l → l.isPlain = true →
      Reach code e ((x + 2) % 65536)
  | taken {x : Nat} {l : line} : Reach code e x → code x = some l → l.isBRA = true →
      Reach code e l.relativeJumpLoc
  | fallthrough {x : Nat} {l : line} : Reach code e x → code x = some l → l.isBRA = true →
      l.isBRAUnconditional = false → Reach code e ((x + 2) % 65536)
  | jump {x : Nat} {l : line} : Reach code e x → code x = some l → l.isGOTO = true →
      Reach code e l.jumpLoc

/-- The straight-line run from `f`: the addresses one inner loop of pass 1
started at `f` looks at. -/
inductive Straight (code : Code) : Nat → Nat → Prop
  | here {f : Nat} : Straight code f f
  | step {f x : Nat} {l : line} : code f = some l → l.isPlain = true →
      Straight code ((f + 2) % 65536) x → Straight code f x

/-- The lines and the successors of the block that pass 2 builds from address
`f` under the block starts `bStart`: plain instructions up to the first
instruction that closes the block. -/
inductive BlockFrom (code : Code) (bStart : Nat → Bool) : Nat → List line → List Nat → Prop
  | ret {f : Nat} {l : line} : code f = some l → l.isRETURN = true →
      BlockFrom code bStart f [l] []
  | braCond {f : Nat} {l : line} : code f = some l → l.isRETURN = false → l.isBRA = true →
      l.isBRAUnconditional = false →
      BlockFrom code bStart f [l] [l.relativeJumpLoc, (f + 2) % 65536]
  | braUncond {f : Nat} {l : line} : code f = some l → l.isRETURN = false → l.isBRA = true →
      l.isBRAUnconditional = true → BlockFrom code bStart f [l] [l.relativeJumpLoc]
  | goto {f : Nat} {l : line} : code f = some l → l.isRETURN = false → l.isBRA = false →
      l.isGOTO = true → BlockFrom code bStart f [l] [l.jumpLoc]
  | gotoReg {f : Nat} {l : line} : code f = some l → l.isRETURN = false → l.isBRA = false →
      l.isGOTO = false → l.isGOTOREG = true → BlockFrom code bStart f [l] []
  | join {f : Nat} {l : line} : code f = some l → l.isPlain = true →
      bStart ((f + 2) % 65536) = true → BlockFrom code bStart f [l] [(f + 2) % 65536]
  | step {f : Nat} {l : line} {ls : List line} {br : List Nat} : code f = some l →
      l.isPlain = true → bStart ((f + 2) % 65536) = false →
      BlockFrom code bStart ((f + 2) % 65536) ls br → BlockFrom code bStart f (l :: ls) br

/-- Every block of the table is stored under the key of its first line and
has the lines and successors pass 2 builds from there, under some map of
block starts satisfying `P`. -/
def Shaped (code : Code) (P : (Nat → Bool) → Prop) (blockMap : Nat → Option block) : Prop :=
  ∀ k b, blockMap k = some b →
    ∃ l bStart, P bStart ∧ code k = some l ∧ b.addr = l.addr ∧
      BlockFrom code bStart k b.lines b.branches

/-- Every successor of a block of the table that has an instruction has a
block or waits on the stack. -/
def Closed (code : Code) (blockMap : Nat → Option block) (s : List Nat) : Prop :=
  ∀ k b, blockMap k = some b → ∀ d ∈ b.branches,
    (code d).isSome = true → (blockMap d).isSome = true ∨ d ∈ s

/-- The successors pass 2 pushes after it has built the block at `f`: those
without a block in the table, the block at `f` counted in; the last pushed is
on top. -/
def pushed (blockMap : Nat → Option block) (f : Nat) (br : List Nat) : List Nat :=
  (br.filter (fun d => !(decide (d = f) || (blockMap d).isSome))).reverse

/-- An address that a BRA or GOTO reached by the walk from `e` transfers to:
the taken target of a BRA, the fallthrough `addr+2` of a conditional BRA, the
target of a GOTO. -/
def BranchTarget (code : Code) (e d : Nat) : Prop :=
  ∃ x l, Reach code e x ∧ code x = some l ∧
    ((l.isBRA = true ∧ d = l.relativeJumpLoc)
      ∨ (l.isBRA = true ∧ l.isBRAUnconditional = false ∧ d = (x + 2) % 65536)
      ∨ (l.isGOTO = true ∧ d = l.jumpLoc))

/-- The resolved target of an RCALL or CALL reached by the walk from `e`. -/
def CallTarget (code : Code) (e d : Nat) : Prop :=
  ∃ x l, Reach code e x ∧ code x = some l ∧
    ((l.isRCALL = true ∧ l.relativeJumpLoc = d) ∨ (l.isCALL = true ∧ l.jumpLoc = d))

/-- Pass 1 only holds what the walk from `e` justifies. -/
def Sound1 (code : Code) (e : Nat) (st : Pass1) : Prop :=
  (∀ a ∈ st.s, Reach code e a)
    ∧ (∀ d, st.bStart d = true → BranchTarget code e d)
    ∧ (∀ d, st.calls d = true → CallTarget code e d)

/-- The address is marked as a block start and is visited or waits on the
stack. -/
def Seen (st : Pass1) (d : Nat) : Prop :=
  st.bStart d = true ∧ (st.visited d = true ∨ d ∈ st.s)

/-- Pass 1 has dealt with the instruction `l` at `x`. -/
def Handled (st : Pass1) (x : Nat) (l : line) : Prop :=
  (l.isBRA = true → Seen st l.relativeJumpLoc)
    ∧ (l.isBRA = true → l.isBRAUnconditional = false → Seen st ((x + 2) % 65536))
    ∧ (l.isGOTO = true → Seen st l.jumpLoc)
    ∧ (l.isCALL = true → st.calls l.jumpLoc = true)
    ∧ (l.isRCALL = true → st.calls l.relativeJumpLoc = true)

/-- The second state of pass 1 extends the first: same visited map, nothing
lost from the stack, the block starts or the calls. -/
def Extends1 (st st1 : Pass1) : Prop :=
  st1.visited = st.visited
    ∧ (∀ d, d ∈ st.s → d ∈ st1.s)
    ∧ (∀ d, st.bStart d = true → st1.bStart d = true)
    ∧ (∀ d, st.calls d = true → st1.calls d = true)

/-- Pass 1 has dealt with every instruction on the straight-line run of every
visited address. -/
def Complete1 (code : Code) (st : Pass1) : Prop :=
  ∀ v, st.visited v = true → ∀ x l, Straight code v x → code x = some l → Handled st x l

/-- The address heads the rest of a block whose successors with an instruction
all have a block in the table. -/
def Covered (code : Code) (blockMap : Nat → Option block) (x : Nat) : Prop :=
  ∃ bs ls br, BlockFrom code bs x ls br ∧
    ∀ d ∈ br, (code d).isSome = true → (blockMap d).isSome = true

/-- What the tables hold for a function entry `a` that has been processed:
its call set, a block for every block start of its pass 1 that has an
instruction, and at `a` the block built under its own block starts.  The two
bounds record that the fuel was enough for that block and for the pushes of
its successors without an instruction. -/
def Processed (code : Code) (fuel a : Nat) (g : Graph) : Prop :=
  ∃ p1, pass1 code fuel a = .ok p1 ∧ g.fnGraph a = some p1.calls ∧ 2 ≤ fuel
    ∧ (∀ d, p1.bStart d = true → (code d).isSome = true → (g.blockMap d).isSome = true)
    ∧ (∀ l, code a = some l → ∃ ls br, BlockFrom code p1.bStart a ls br ∧ ls.length ≤ fuel
        ∧ g.blockMap a = some ⟨l.addr, ls, br⟩
        ∧ (br.filter (fun d => (code d).isNone)).length + 2 ≤ fuel)

/-! ## Sign extension, as a reference -/

/-- A 16-bit field read as a signed number (two's complement). -/
def signed16 (x : Nat) : Int :=
  if x < 32768 then (x : Int) else (x : Int) - 65536

/-- The target of a relative transfer with the offset field `byte2<<8 | byte3`
sign-extended as a signed 16-bit word offset:
`(addr + 2*signed(field) + 2) mod 2^16`.  This is not in the source; it is the
reference that `relativeJumpLoc` is compared with. -/
def line.signExtendedJumpLoc (l : line) : Int :=
  ((l.addr : Int) + 2 * signed16 ((l.op2 <<< 8) ||| l.op3) + 2) % 65536

/-! ## Listing and memory image -/

/-- The globals `lines`, `code` and `mem` that `parseInput` fills. -/
structure Listing where
  lines : List line
  code : Code
  mem : Nat → Option Nat

/-- The globals as `main` creates them. -/
def Listing.empty : Listing :=
  { lines := [], code := fun _ => none, mem := fun _ => none }

/-- The statements of `parseInput` that store one parsed line.  The record `r`
carries what the tokenizing part produced: `r.addr` is the number `ParseInt`
returned for the address field and the four bytes are `opt_bytes`, whose
length was checked to be 4. -/
def storeLine (st : Listing) (r : line) : Listing :=
  let line : line := { r with addr := r.addr % 65536 }
  { lines := st.lines ++ [line]
    code := setKey st.code line.addr line
    mem := setKey (setKey st.mem line.addr line.op3) ((line.addr + 1) % 65536) line.op2 }

/-- The loop of `parseInput` over the parsed lines of the listing, in file
order. -/
def parseInput (records : List line) : Listing :=
  records.foldl storeLine Listing.empty

/-- The pointer dereference of `parseIntVector` for a row with address `addr`:
two memory cells, low byte first; a missing cell reads as 0. -/
def derefVector (mem : Nat → Option Nat) (addr : Nat) : Nat :=
  let b1 := (mem addr).getD 0
  let b2 := (mem ((addr + 1) % 65536)).getD 0
  let loc := ((b2 % 65536) <<< 8 % 65536) ||| (b1 % 65536)
  loc

/-- A record writes the memory cell `c`. -/
def writesCell (r : line) (c : Nat) : Prop :=
  r.addr % 65536 = c ∨ (r.addr % 65536 + 1) % 65536 = c

instance (r : line) (c : Nat) : Decidable (writesCell r c) := by
  unfold writesCell; infer_instance

/-- A listing of three lines; the third is stored at the address of the
first. -/
def vectorListing : List line :=
  [⟨0x0004, 0, 4, 0x12, 0x34⟩, ⟨0x0100, 0, 0, 0xAB, 0xCD⟩, ⟨0x0004, 0, 4, 0x56, 0x78⟩]

/-! ## Example tables -/

/-- The state a finished pass 1 returned (the initial one otherwise). -/
def Pass1.ofRun (r : Except Err Pass1) : Pass1 :=
  match r with
  | .ok st => st
  | .error _ =>
    { s := [], bStart := fun _ => false, visited := fun _ => false, calls := fun _ => false }

/-- Straight-line code `0x10, 0x12` ending in a RETURN at `0x14`; `0x12` is
also a function entry. -/
def overlapTable : List line :=
  [⟨0x10, 0, 0, 0, 0⟩, ⟨0x12, 0, 0, 0, 0⟩, ⟨0x14, 0, 6, 0, 0⟩]

/-- A loop `0x00, 0x02, 0x04` closed by a GOTO to `0x00`, entered at `0x02`. -/
def loopTable : List line :=
  [⟨0x00, 0, 0, 0, 0⟩, ⟨0x02, 0, 0, 0, 0⟩, ⟨0x04, 0, 4, 0, 0⟩]

/-- A CALL-indirect(reg) at `0x00`, an RCALL to `0x06` at `0x02`, a RETURN at
`0x04`. -/
def callregTable : List line :=
  [⟨0x00, 0, 1, 0, 0⟩, ⟨0x02, 0, 7, 0, 1⟩, ⟨0x04, 0, 6, 0, 0⟩]

/-- A conditional BRA at `0x00` to `0x04`, a NOP at `0x02`, a RETURN at
`0x04`. -/
def branchTable : List line :=
  [⟨0x00, 0, 0x32, 0, 1⟩, ⟨0x02, 0, 0, 0, 0⟩, ⟨0x04, 0, 6, 0, 0⟩]

/-- The result of `buildGraph` on `overlapTable` with the entries `0x10` and
`0x12`. -/
def overlapGraph : Graph :=
  Graph.ofRun (buildGraph (codeOf overlapTable) 10 [0x10, 0x12])

/-- The result of `buildGraph` on `loopTable` with the entry `0x02`. -/
def loopGraph : Graph :=
  Graph.ofRun (buildGraph (codeOf loopTable) 10 [0x02])

/-- The result of `buildGraph` on `callregTable` with the entry `0x00`. -/
def callregGraph : Graph :=
  Graph.ofRun (buildGraph (codeOf callregTable) 10 [0x00])

/-- The result of `buildGraph` on `branchTable` with the entry `0x00`. -/
def branchGraph : Graph :=
  Graph.ofRun (buildGraph (codeOf branchTable) 10 [0x00])

/-- The result of pass 1 on `branchTable` from the entry `0x00`. -/
def branchPass1 : Pass1 :=
  Pass1.ofRun (pass1 (codeOf branchTable) 10 0x00)

/-- A conditional BRA at `0x00` whose target is `0x00` itself, a RETURN at
`0x02`. -/
def selfLoopTable : List line :=
  [⟨0x00, 0, 0x32, 0x7F, 0xFF⟩, ⟨0x02, 0, 6, 0, 0⟩]

/-- The result of `buildGraph` on `selfLoopTable` with the entry `0x00`. -/
def selfLoopGraph : Graph :=
  Graph.ofRun (buildGraph (codeOf selfLoopTable) 10 [0x00])

/-- The result of pass 1 on `selfLoopTable` from the entry `0x00`. -/
def selfLoopPass1 : Pass1 :=
  Pass1.ofRun (pass1 (codeOf selfLoopTable) 10 0x00)

/-- Straight-line code `0x10, 0x12` ending in a RETURN at `0x14`, and a second
function at `0x20` that is a GOTO to `0x12`. -/
def sharedTable : List line :=
  [⟨0x10, 0, 0, 0, 0⟩, ⟨0x12, 0, 0, 0, 0⟩, ⟨0x14, 0, 6, 0, 0⟩, ⟨0x20, 0, 4, 0, 0x12⟩]

/-- The result of `buildGraph` on `sharedTable` with the entries `0x10` and
`0x20`. -/
def sharedGraph : Graph :=
  Graph.ofRun (buildGraph (codeOf sharedTable) 10 [0x10, 0x20])

/-- The result of pass 1 on `sharedTable` from the entry `0x20`. -/
def sharedPass1 : Pass1 :=
  Pass1.ofRun (pass1 (codeOf sharedTable) 10 0x20)

/-- Two RCALLs with the same target and one CALL. -/
def callTable : List line :=
  [⟨0x0100, 0, 7, 0, 5⟩, ⟨0x0102, 0, 2, 0x12, 0x34⟩, ⟨0x0104, 0, 7, 0, 3⟩]

/-- The keys of the table are `uint16` values. -/
def Code.inRange (code : Code) : Prop :=
  ∀ a l, code a = some l → a < 65536

/-- The scenario of a late join: a conditional BRA at `0x00` to `0x10`,
straight-line code from `0x02` that falls into `0x10`, a RETURN at `0x10`. -/
def joinTable : List line :=
  [⟨0x00, 0, 0x32, 0, 7⟩, ⟨0x02, 0, 0, 0, 0⟩, ⟨0x04, 0, 0, 0, 0⟩, ⟨0x06, 0, 0, 0, 0⟩,
   ⟨0x08, 0, 0, 0, 0⟩, ⟨0x0A, 0, 0, 0, 0⟩, ⟨0x0C, 0, 0, 0, 0⟩, ⟨0x0E, 0, 0, 0, 0⟩,
   ⟨0x10, 0, 6, 0, 0⟩]

/-- The result of `buildGraph` on `joinTable` with the entry `0x00`. -/
def joinGraph : Graph :=
  Graph.ofRun (buildGraph (codeOf joinTable) 12 [0x00])

/-- The result of pass 1 on `joinTable` from the entry `0x00`. -/
def joinPass1 : Pass1 :=
  Pass1.ofRun (pass1 (codeOf joinTable) 12 0x00)

/-- A GOTO at `0x00` to `0x0100`, where the table holds no instruction. -/
def missingTable : List line :=
  [⟨0x00, 0, 4, 0x01, 0x00⟩]

/-- The result of `buildGraph` on `missingTable` with the entry `0x00`. -/
def missingGraph : Graph :=
  Graph.ofRun (buildGraph (codeOf missingTable) 10 [0x00])

/-- The result of pass 1 on `missingTable` from the entry `0x00`. -/
def missingPass1 : Pass1 :=
  Pass1.ofRun (pass1 (codeOf missingTable) 10 0x00)

/-- The block of `joinGraph` that starts at `0x02`. -/
def joinBlock : block :=
  ⟨0x02, [⟨0x02, 0, 0, 0, 0⟩, ⟨0x04, 0, 0, 0, 0⟩, ⟨0x06, 0, 0, 0, 0⟩, ⟨0x08, 0, 0, 0, 0⟩,
    ⟨0x0A, 0, 0, 0, 0⟩, ⟨0x0C, 0, 0, 0, 0⟩, ⟨0x0E, 0, 0, 0, 0⟩], [0x10]⟩

/-- The table holds a plain instruction at `a`. -/
def plainAt (code : Code) (a : Nat) : Bool :=
  match code a with
  | some l => l.isPlain
  | none => false

/-- The table holds a RETURN at `a`. -/
def returnAt (code : Code) (a : Nat) : Bool :=
  match code a with
  | some l => l.isRETURN
  | none => false

/-- The walk from `e` reaches a plain instruction with no instruction at its
address + 2: the inner loops then dereference a missing instruction. -/
def Dangling (code : Code) (e : Nat) : Prop :=
  ∃ y l, Reach code e y ∧ code y = some l ∧ l.isPlain = true
    ∧ code ((y + 2) % 65536) = none

/-- The straight-line run from `f` stops within `n` instructions: it meets an
instruction that is not plain, or an address without an instruction. -/
def Stops (code : Code) : Nat → Nat → Bool
  | 0, _ => false
  | n + 1, f =>
    match code f with
    | none => true
    | some l => if l.isPlain then Stops code n ((f + 2) % 65536) else true

/-- The number of `uint16` addresses for which the predicate holds. -/
def countAddr (p : Nat → Bool) : Nat :=
  (List.range 65536).countP p

/-- The measure of the worklist of pass 1 that goes down at every round in
which the popped address was visited before. -/
def weight1 (st : Pass1) : Nat :=
  2 * st.s.countP st.visited + st.s.length

/-- The measure of the worklist of pass 2 that goes down at every round in
which the popped address had a block before. -/
def weight2 (s : List Nat) (blockMap : Nat → Option block) : Nat :=
  2 * s.countP (fun a => (blockMap a).isSome) + s.length

/-- A plain instruction at every even address: `0x0000, 0x0002, ..., 0xFFFE`. -/
def fullTable : List line :=
  (List.range 32768).map (fun i => ⟨2 * i, 0, 0, 0, 0⟩)

/-- The result of pass 1 on `loopTable` from the entry `0x02`. -/
def loopPass1 : Pass1 :=
  Pass1.ofRun (pass1 (codeOf loopTable) 10 0x02)

/-- A function at `0x00` (NOP, NOP, RETURN at `0x04`) and a function at `0x10`:
a conditional BRA at `0x10` to `0x02`, then a GOTO to `0x00` at `0x12`. -/
def lostJoinTable : List line :=
  [⟨0x00, 0, 0, 0, 0⟩, ⟨0x02, 0, 0, 0, 0⟩, ⟨0x04, 0, 6, 0, 0⟩, ⟨0x10, 0, 0x32, 0xFF, 0xF8⟩,
    ⟨0x12, 0, 4, 0, 0⟩]

/-- The result of `buildGraph` on `lostJoinTable` with the entries `0x00` and
`0x10`. -/
def lostJoinGraph : Graph :=
  Graph.ofRun (buildGraph (codeOf lostJoinTable) 10 [0x00, 0x10])

/-- The result of `buildGraph` on `lostJoinTable` with the entry `0x10` alone. -/
def lostJoinAloneGraph : Graph :=
  Graph.ofRun (buildGraph (codeOf lostJoinTable) 10 [0x10])

/-- The result of pass 1 on `lostJoinTable` from the entry `0x10`. -/
def lostJoinPass1 : Pass1 :=
  Pass1.ofRun (pass1 (codeOf lostJoinTable) 10 0x10)

/-! ## Properties: instruction model -/

theorem or_eq_add_byte (x y : Nat) (hy : y < 256) : (x <<< 8) ||| y = x <<< 8 + y := by
  have h := Nat.mul_add_lt_is_or (show y < 2 ^ 8 by simpa using hy) x
  rw [Nat.shiftLeft_eq, Nat.mul_comm x (2 ^ 8)]
  exact h.symm

/-- C5: for every address and every opcode with byte-sized `byte2` and
`byte3`, `relativeJumpLoc` is
`(addr + (((byte2<<8 | byte3) << 1) mod 2^16) + 2) mod 2^16`, the offset field
read as unsigned; opcode `[0x00,0x07,0x00,0x05]` at `0x0100` gives `0x010C`. -/
theorem relativeJumpLoc_arith (l : line) (h2 : l.op2 < 256) (h3 : l.op3 < 256) :
    l.relativeJumpLoc
        = (l.addr + ((((l.op2 <<< 8) ||| l.op3) <<< 1) % 65536) + 2) % 65536
      ∧ line.relativeJumpLoc ⟨0x0100, 0x00, 0x07, 0x00, 0x05⟩ = 0x010C := by
  have e : l.relativeJumpLoc = (l.addr + ((l.op2 * 256 + l.op3) * 2) % 65536 + 2) % 65536 := by
    unfold line.relativeJumpLoc
    simp only [Nat.shiftLeft_eq]
    have a1 : l.op2 % 65536 = l.op2 := Nat.mod_eq_of_lt (by omega)
    have a2 : l.op3 % 65536 = l.op3 := Nat.mod_eq_of_lt (by omega)
    have a3 : l.op2 * 2 ^ 8 % 65536 = l.op2 * 256 := by omega
    have a4 : (l.op2 * 256 + l.op3) % 65536 = l.op2 * 256 + l.op3 := by omega
    rw [a1, a2, a3, a4]
  refine ⟨?_, by decide⟩
  rw [e, or_eq_add_byte _ _ h3]
  simp only [Nat.shiftLeft_eq]

theorem relativeJumpLoc_arith_witness :
    (0x12 : Nat) < 256 ∧ (0x34 : Nat) < 256
      ∧ line.relativeJumpLoc ⟨0x0200, 0x00, 0x37, 0x12, 0x34⟩
          = (0x0200 + ((((0x12 <<< 8) ||| 0x34) <<< 1) % 65536) + 2) % 65536 :=
  ⟨by decide, by decide,
    (relativeJumpLoc_arith ⟨0x0200, 0x00, 0x37, 0x12, 0x34⟩ (by decide) (by decide)).1⟩

/-- C6: for every instruction with byte-sized `byte2` and `byte3`, `jumpLoc`
is `byte2*256 + byte3`; it does not depend on the address nor on bytes 0 and 1;
opcode `[0x00,0x04,0x12,0x34]` gives `0x1234` at any address. -/
theorem jumpLoc_arith (l : line) (h2 : l.op2 < 256) (h3 : l.op3 < 256) :
    l.jumpLoc = l.op2 * 256 + l.op3
      ∧ (∀ a b0 b1, line.jumpLoc ⟨a, b0, b1, l.op2, l.op3⟩ = l.jumpLoc)
      ∧ (∀ a, line.jumpLoc ⟨a, 0x00, 0x04, 0x12, 0x34⟩ = 0x1234) := by
  refine ⟨?_, fun _ _ _ => rfl, fun _ => rfl⟩
  unfold line.jumpLoc
  simp only [Nat.shiftLeft_eq]
  omega

theorem jumpLoc_arith_witness :
    (0xAB : Nat) < 256 ∧ (0xCD : Nat) < 256
      ∧ line.jumpLoc ⟨0x0300, 0x00, 0x02, 0xAB, 0xCD⟩ = 0xAB * 256 + 0xCD :=
  ⟨by decide, by decide,
    (jumpLoc_arith ⟨0x0300, 0x00, 0x02, 0xAB, 0xCD⟩ (by decide) (by decide)).1⟩

/-- C7: for every opcode at most one of the eight class predicates holds,
each predicate holds exactly on its bit pattern of the classification table,
and `isBRAUnconditional` implies `isBRA`. -/
theorem classification_exclusive (l : line) :
    ([l.isNOP, l.isRCALL, l.isBRA, l.isCALL, l.isCALLREG, l.isGOTO, l.isGOTOREG,
        l.isRETURN].count true ≤ 1)
      ∧ (l.isNOP = true ↔ l.op0 = 0 ∧ l.op1 = 0)
      ∧ (l.isRCALL = true ↔ l.op0 = 0 ∧ l.op1 = 0x07)
      ∧ (l.isBRA = true ↔ l.op0 = 0 ∧ l.op1 &&& 0xF0 = 0x30)
      ∧ (l.isBRAUnconditional = true ↔ l.op0 = 0 ∧ l.op1 = 0x37)
      ∧ (l.isCALL = true ↔ l.op0 = 0 ∧ l.op1 = 0x02 ∧ l.op3 &&& 0x01 = 0)
      ∧ (l.isCALLREG = true ↔ l.op0 = 0 ∧ l.op1 = 0x01 ∧ l.op2 = 0x00 ∧ l.op3 &&& 0xF0 = 0)
      ∧ (l.isGOTO = true ↔ l.op0 = 0 ∧ l.op1 = 0x04)
      ∧ (l.isGOTOREG = true ↔ l.op0 = 0 ∧ l.op1 = 0x01 ∧ l.op2 = 0x40 ∧ l.op3 &&& 0xF0 = 0)
      ∧ (l.isRETURN = true ↔ l.op0 = 0 ∧ l.op1 = 0x06 ∧ l.op2 = 0 ∧ l.op3 = 0)
      ∧ (l.isBRAUnconditional = true → l.isBRA = true) := by
  rcases l with ⟨a, b0, b1, b2, b3⟩
  refine ⟨?_, ?_, ?_, ?_, ?_, ?_, ?_, ?_, ?_, ?_, ?_⟩
  · simp only [line.isNOP, line.isRCALL, line.isBRA, line.isCALL, line.isCALLREG, line.isGOTO,
      line.isGOTOREG, line.isRETURN]
    by_cases h0 : b0 = 0
    · subst h0
      by_cases h1 : b1 = 0
      · subst h1; simp
      by_cases h7 : b1 = 7
      · subst h7; simp
      by_cases h2 : b1 = 2
      · subst h2; simp [List.count_cons]; split <;> simp
      by_cases h4 : b1 = 4
      · subst h4; simp
      by_cases h6 : b1 = 6
      · subst h6; simp [List.count_cons]; split <;> simp
      by_cases h1 : b1 = 1
      · subst h1
        by_cases hb : b2 = 0
        · subst hb; simp [List.count_cons]; split <;> simp
        · by_cases hc : b2 = 64
          · subst hc; simp [List.count_cons]; split <;> simp
          · simp [hb, hc]
      · simp [*, List.count_cons]; split <;> simp
    · have : (b0 == 0) = false := by simpa using h0
      simp [this]
  all_goals simp [line.isNOP, line.isRCALL, line.isBRA, line.isCALL, line.isCALLREG, line.isGOTO,
      line.isGOTOREG, line.isRETURN, line.isBRAUnconditional, and_assoc]
  intro h0 h1
  subst h1
  exact ⟨h0, by decide⟩

/-! ## Properties: tables given by a list of lines -/

theorem codeOf_some {ls : List line} {a : Nat} {l : line} (h : codeOf ls a = some l) :
    l ∈ ls ∧ l.addr = a := by
  unfold codeOf at h
  refine ⟨List.mem_reverse.1 (List.mem_of_find?_eq_some h), ?_⟩
  simpa using List.find?_some h

theorem codeOf_keyed (ls : List line) : (codeOf ls).keyed :=
  fun _ _ h => (codeOf_some h).2

theorem codeOf_of_mem {ls : List line} (hnd : (ls.map line.addr).Nodup) {l : line}
    (hl : l ∈ ls) : codeOf ls l.addr = some l := by
  cases hf : codeOf ls l.addr with
  | none =>
    unfold codeOf at hf
    rw [List.find?_eq_none] at hf
    have := hf l (List.mem_reverse.2 hl)
    simp at this
  | some l1 =>
    obtain ⟨hm, ha⟩ := codeOf_some hf
    rw [List.inj_on_of_nodup_map hnd hm hl ha]

theorem codeOf_enumeratedBy {ls order : List line} (hnd : (ls.map line.addr).Nodup)
    (hp : order.Perm ls) : (codeOf ls).enumeratedBy order := by
  intro l
  rw [hp.mem_iff]
  constructor
  · intro hl
    exact ⟨l.addr, codeOf_of_mem hnd hl⟩
  · rintro ⟨a, ha⟩
    exact (codeOf_some ha).1

/-! ## Properties: function discovery -/

theorem findRCALLs_mem (ls : List line) (acc : List Nat) (d : Nat) :
    d ∈ findRCALLs ls acc ↔ d ∈ acc ∨ ∃ l ∈ ls, l.isRCALL = true ∧ l.relativeJumpLoc = d := by
  induction ls generalizing acc with
  | nil => simp [findRCALLs]
  | cons l rest ih =>
    unfold findRCALLs
    by_cases hr : l.isRCALL = true
    · by_cases hm : l.relativeJumpLoc ∈ acc
      · simp only [hr, hm, if_true, ih]
        constructor
        · rintro (h | ⟨x, hx, hx1, hx2⟩)
          · exact Or.inl h
          · exact Or.inr ⟨x, List.mem_cons_of_mem _ hx, hx1, hx2⟩
        · rintro (h | ⟨x, hx, hx1, hx2⟩)
          · exact Or.inl h
          · rcases List.mem_cons.1 hx with rfl | hx
            · exact Or.inl (hx2 ▸ hm)
            · exact Or.inr ⟨x, hx, hx1, hx2⟩
      · simp only [hr, hm, if_true, if_false, ih, List.mem_append, List.mem_singleton]
        constructor
        · rintro ((h | h) | ⟨x, hx, hx1, hx2⟩)
          · exact Or.inl h
          · exact Or.inr ⟨l, List.mem_cons_self _ _, hr, h.symm⟩
          · exact Or.inr ⟨x, List.mem_cons_of_mem _ hx, hx1, hx2⟩
        · rintro (h | ⟨x, hx, hx1, hx2⟩)
          · exact Or.inl (Or.inl h)
          · rcases List.mem_cons.1 hx with rfl | hx
            · exact Or.inl (Or.inr hx2.symm)
            · exact Or.inr ⟨x, hx, hx1, hx2⟩
    · simp only [hr, if_false, ih, Bool.false_eq_true]
      constructor
      · rintro (h | ⟨x, hx, hx1, hx2⟩)
        · exact Or.inl h
        · exact Or.inr ⟨x, List.mem_cons_of_mem _ hx, hx1, hx2⟩
      · rintro (h | ⟨x, hx, hx1, hx2⟩)
        · exact Or.inl h
        · rcases List.mem_cons.1 hx with rfl | hx
          · exact absurd hx1 hr
          · exact Or.inr ⟨x, hx, hx1, hx2⟩

theorem findRCALLs_nodup (ls : List line) (acc : List Nat) (h : acc.Nodup) :
    (findRCALLs ls acc).Nodup := by
  induction ls generalizing acc with
  | nil => simpa [findRCALLs] using h
  | cons l rest ih =>
    unfold findRCALLs
    by_cases hr : l.isRCALL = true
    · by_cases hm : l.relativeJumpLoc ∈ acc
      · simp only [hr, hm, if_true]; exact ih acc h
      · simp only [hr, hm, if_true, if_false]
        apply ih
        rw [List.nodup_append]
        refine ⟨h, List.nodup_singleton _, ?_⟩
        intro x hx hx1
        rw [List.mem_singleton] at hx1
        exact hm (hx1 ▸ hx)
    · simp only [hr, if_false, Bool.false_eq_true]; exact ih acc h

theorem findCALLs_mem (ls : List line) (acc : List Nat) (d : Nat) :
    d ∈ findCALLs ls acc ↔ d ∈ acc ∨ ∃ l ∈ ls, l.isCALL = true ∧ l.jumpLoc = d := by
  induction ls generalizing acc with
  | nil => simp [findCALLs]
  | cons l rest ih =>
    unfold findCALLs
    by_cases hr : l.isCALL = true
    · by_cases hm : l.jumpLoc ∈ acc
      · simp only [hr, hm, if_true, ih]
        constructor
        · rintro (h | ⟨x, hx, hx1, hx2⟩)
          · exact Or.inl h
          · exact Or.inr ⟨x, List.mem_cons_of_mem _ hx, hx1, hx2⟩
        · rintro (h | ⟨x, hx, hx1, hx2⟩)
          · exact Or.inl h
          · rcases List.mem_cons.1 hx with rfl | hx
            · exact Or.inl (hx2 ▸ hm)
            · exact Or.inr ⟨x, hx, hx1, hx2⟩
      · simp only [hr, hm, if_true, if_false, ih, List.mem_append, List.mem_singleton]
        constructor
        · rintro ((h | h) | ⟨x, hx, hx1, hx2⟩)
          · exact Or.inl h
          · exact Or.inr ⟨l, List.mem_cons_self _ _, hr, h.symm⟩
          · exact Or.inr ⟨x, List.mem_cons_of_mem _ hx, hx1, hx2⟩
        · rintro (h | ⟨x, hx, hx1, hx2⟩)
          · exact Or.inl (Or.inl h)
          · rcases List.mem_cons.1 hx with rfl | hx
            · exact Or.inl (Or.inr hx2.symm)
            · exact Or.inr ⟨x, hx, hx1, hx2⟩
    · simp only [hr, if_false, ih, Bool.false_eq_true]
      constructor
      · rintro (h | ⟨x, hx, hx1, hx2⟩)
        · exact Or.inl h
        · exact Or.inr ⟨x, List.mem_cons_of_mem _ hx, hx1, hx2⟩
      · rintro (h | ⟨x, hx, hx1, hx2⟩)
        · exact Or.inl h
        · rcases List.mem_cons.1 hx with rfl | hx
          · exact absurd hx1 hr
          · exact Or.inr ⟨x, hx, hx1, hx2⟩

theorem findCALLs_nodup (ls : List line) (acc : List Nat) (h : acc.Nodup) :
    (findCALLs ls acc).Nodup := by
  induction ls generalizing acc with
  | nil => simpa [findCALLs] using h
  | cons l rest ih =>
    unfold findCALLs
    by_cases hr : l.isCALL = true
    · by_cases hm : l.jumpLoc ∈ acc
      · simp only [hr, hm, if_true]; exact ih acc h
      · simp only [hr, hm, if_true, if_false]
        apply ih
        rw [List.nodup_append]
        refine ⟨h, List.nodup_singleton _, ?_⟩
        intro x hx hx1
        rw [List.mem_singleton] at hx1
        exact hm (hx1 ▸ hx)
    · simp only [hr, if_false, Bool.false_eq_true]; exact ih acc h

/-- C8: whatever the two iteration orders of the instruction table, the list
returned by `findFunctions` holds no address twice, and holds an address
exactly when it is the relative target of some RCALL of the table or the
absolute target of some CALL of the table. -/
theorem findFunctions_spec (code : Code) (order1 order2 : List line)
    (h1 : code.enumeratedBy order1) (h2 : code.enumeratedBy order2) :
    (findFunctions order1 order2).Nodup
      ∧ ∀ d, d ∈ findFunctions order1 order2 ↔
          ∃ a l, code a = some l ∧
            ((l.isRCALL = true ∧ l.relativeJumpLoc = d) ∨ (l.isCALL = true ∧ l.jumpLoc = d)) := by
  refine ⟨findCALLs_nodup _ _ (findRCALLs_nodup _ _ List.nodup_nil), ?_⟩
  intro d
  unfold findFunctions
  rw [findCALLs_mem, findRCALLs_mem]
  constructor
  · rintro ((h | ⟨l, hl, hr, hd⟩) | ⟨l, hl, hc, hd⟩)
    · cases h
    · obtain ⟨a, ha⟩ := (h1 l).1 hl
      exact ⟨a, l, ha, Or.inl ⟨hr, hd⟩⟩
    · obtain ⟨a, ha⟩ := (h2 l).1 hl
      exact ⟨a, l, ha, Or.inr ⟨hc, hd⟩⟩
  · rintro ⟨a, l, ha, (⟨hr, hd⟩ | ⟨hc, hd⟩)⟩
    · exact Or.inl (Or.inr ⟨l, (h1 l).2 ⟨a, ha⟩, hr, hd⟩)
    · exact Or.inr ⟨l, (h2 l).2 ⟨a, ha⟩, hc, hd⟩

theorem findFunctions_spec_witness :
    (codeOf callTable).enumeratedBy callTable
      ∧ (codeOf callTable).enumeratedBy callTable.reverse
      ∧ findFunctions callTable callTable.reverse = [0x010C, 0x1234]
      ∧ (findFunctions callTable callTable.reverse).Nodup :=
  ⟨codeOf_enumeratedBy (by decide) (List.Perm.refl _),
    codeOf_enumeratedBy (by decide) (List.reverse_perm _),
    by decide,
    (findFunctions_spec (codeOf callTable) callTable callTable.reverse
      (codeOf_enumeratedBy (by decide) (List.Perm.refl _))
      (codeOf_enumeratedBy (by decide) (List.reverse_perm _))).1⟩

/-! ## Properties: classes of instructions -/

theorem isBRA_not_isRETURN {l : line} (h : l.isBRA = true) : l.isRETURN = false := by
  rcases l with ⟨a, b0, b1, b2, b3⟩
  simp only [line.isBRA, line.isRETURN] at *
  by_cases h6 : b1 = 6
  · subst h6; simp at h
  · simp [h6]

theorem isGOTO_not_isRETURN {l : line} (h : l.isGOTO = true) : l.isRETURN = false := by
  rcases l with ⟨a, b0, b1, b2, b3⟩
  simp only [line.isGOTO, line.isRETURN] at *
  by_cases h6 : b1 = 6
  · subst h6; simp at h
  · simp [h6]

theorem isGOTO_not_isBRA {l : line} (h : l.isGOTO = true) : l.isBRA = false := by
  rcases l with ⟨a, b0, b1, b2, b3⟩
  simp only [line.isGOTO, line.isBRA] at *
  by_cases h4 : b1 = 4
  · subst h4; simp
  · simp [h4] at h

theorem isPlain_iff {l : line} : l.isPlain = true ↔
    l.isRETURN = false ∧ l.isBRA = false ∧ l.isGOTO = false ∧ l.isGOTOREG = false := by
  simp [line.isPlain, and_assoc]

theorem isCALLREG_isPlain {l : line} (h : l.isCALLREG = true) : l.isPlain = true := by
  rcases l with ⟨a, b0, b1, b2, b3⟩
  simp only [line.isCALLREG, line.isPlain, line.isRETURN, line.isBRA, line.isGOTO,
    line.isGOTOREG] at *
  simp only [Bool.and_eq_true, beq_iff_eq] at h
  obtain ⟨⟨⟨h0, h1⟩, h2⟩, h3⟩ := h
  subst h0 h1 h2
  simp

theorem isCALLREG_not_call {l : line} (h : l.isCALLREG = true) :
    l.isCALL = false ∧ l.isRCALL = false := by
  rcases l with ⟨a, b0, b1, b2, b3⟩
  simp only [line.isCALLREG, line.isCALL, line.isRCALL] at *
  simp only [Bool.and_eq_true, beq_iff_eq] at h
  obtain ⟨⟨⟨h0, h1⟩, h2⟩, h3⟩ := h
  subst h0 h1 h2
  simp

/-! ## Properties: pass 2, one block -/

theorem addLine_isReturned (b : block) {l : line} (h : l.isRETURN = false) :
    (b.addLine (some l)).isReturned = false := by
  simp [block.addLine, block.isReturned, h]

theorem walk2_shape {code : Code} {bs : Nat → Bool} {bm : Nat → Option block} :
    ∀ (n f : Nat) (b : block) (s : List Nat) (b1 : block) (s1 : List Nat) (f1 : Nat),
      b.isReturned = false →
      walk2 code bs bm n f b s = .ok (b1, s1, f1) →
      ∃ ls br, BlockFrom code bs f ls br
        ∧ closeBlock code f1 b1 = .ok ⟨b.addr, b.lines ++ ls, b.branches ++ br⟩
        ∧ s1 = (br.filter (fun d => !(bm d).isSome)).reverse ++ s
        ∧ ls.length ≤ n := by
  intro n
  induction n with
  | zero => intro f b s b1 s1 f1 _ h; simp [walk2] at h
  | succ n ih =>
    intro f b s b1 s1 f1 hb h
    unfold walk2 at h
    cases hc : code f with
    | none => simp [hc] at h
    | some l =>
      simp only [hc] at h
      by_cases hret : l.isRETURN = true
      · simp only [hret, if_true, Except.ok.injEq, Prod.mk.injEq] at h
        obtain ⟨rfl, rfl, rfl⟩ := h
        refine ⟨[l], [], BlockFrom.ret hc hret, ?_, by simp, by simp⟩
        simp [closeBlock, hc, hret, hb, block.addLine]
      · have hret : l.isRETURN = false := by simpa using hret
        simp only [hret, Bool.false_eq_true, if_false] at h
        have hcl : ∀ b2 : block, closeBlock code f b2 = .ok b2 := by
          intro b2; simp [closeBlock, hc, hret]
        by_cases hbra : l.isBRA = true
        · by_cases hu : l.isBRAUnconditional = true
          · simp only [hbra, hu, if_true, Bool.not_true, Bool.false_eq_true, if_false,
              Except.ok.injEq, Prod.mk.injEq] at h
            obtain ⟨rfl, rfl, rfl⟩ := h
            refine ⟨[l], [l.relativeJumpLoc], BlockFrom.braUncond hc hret hbra hu, ?_, ?_,
              by simp⟩
            · rw [hcl]; simp [branchTo, block.addLine, block.addBranch]
            · cases hm : bm l.relativeJumpLoc <;> simp [branchTo, hm, List.filter_cons]
          · have hu : l.isBRAUnconditional = false := by simpa using hu
            simp only [hbra, hu, if_true, Bool.not_false, Except.ok.injEq, Prod.mk.injEq] at h
            obtain ⟨rfl, rfl, rfl⟩ := h
            refine ⟨[l], [l.relativeJumpLoc, (f + 2) % 65536],
              BlockFrom.braCond hc hret hbra hu, ?_, ?_, by simp⟩
            · rw [hcl]; simp [branchTo, block.addLine, block.addBranch]
            · cases hm : bm l.relativeJumpLoc <;> cases hm2 : bm ((f + 2) % 65536) <;>
                simp [branchTo, hm, hm2, List.filter_cons]
        · have hbra : l.isBRA = false := by simpa using hbra
          simp only [hbra, Bool.false_eq_true, if_false] at h
          by_cases hg : l.isGOTO = true
          · simp only [hg, if_true, Except.ok.injEq, Prod.mk.injEq] at h
            obtain ⟨rfl, rfl, rfl⟩ := h
            refine ⟨[l], [l.jumpLoc], BlockFrom.goto hc hret hbra hg, ?_, ?_, by simp⟩
            · rw [hcl]; simp [branchTo, block.addLine, block.addBranch]
            · cases hm : bm l.jumpLoc <;> simp [branchTo, hm, List.filter_cons]
          · have hg : l.isGOTO = false := by simpa using hg
            simp only [hg, Bool.false_eq_true, if_false] at h
            by_cases hgr : l.isGOTOREG = true
            · simp only [hgr, if_true, Except.ok.injEq, Prod.mk.injEq] at h
              obtain ⟨rfl, rfl, rfl⟩ := h
              refine ⟨[l], [], BlockFrom.gotoReg hc hret hbra hg hgr, ?_, by simp, by simp⟩
              rw [hcl]; simp [block.addLine]
            · have hgr : l.isGOTOREG = false := by simpa using hgr
              have hpl : l.isPlain = true := isPlain_iff.2 ⟨hret, hbra, hg, hgr⟩
              simp only [hgr, Bool.false_eq_true, if_false] at h
              by_cases hj : bs ((f + 2) % 65536) = true
              · simp only [hj, if_true, Except.ok.injEq, Prod.mk.injEq] at h
                obtain ⟨rfl, rfl, rfl⟩ := h
                refine ⟨[l], [(f + 2) % 65536], BlockFrom.join hc hpl hj, ?_, ?_, by simp⟩
                · rw [hcl]; simp [branchTo, block.addLine, block.addBranch]
                · cases hm : bm ((f + 2) % 65536) <;> simp [branchTo, hm, List.filter_cons]
              · have hj : bs ((f + 2) % 65536) = false := by simpa using hj
                simp only [hj, Bool.false_eq_true, if_false] at h
                obtain ⟨ls, br, hbf, hclose, hs, hlen⟩ :=
                  ih _ _ _ _ _ _ (addLine_isReturned b hret) h
                refine ⟨l :: ls, br, BlockFrom.step hc hpl hj hbf, ?_, hs, by simpa using hlen⟩
                rw [hclose]; simp [block.addLine]

/-- The converse of `walk2_shape`: with fuel for every line, the inner loop of
pass 2 builds the block. -/
theorem walk2_build {code : Code} {bs : Nat → Bool} {bm : Nat → Option block}
    {f : Nat} {ls : List line} {br : List Nat} (h : BlockFrom code bs f ls br) :
    ∀ (n : Nat) (b : block) (s : List Nat), ls.length ≤ n → b.isReturned = false →
      ∃ b1 s1 f1, walk2 code bs bm n f b s = .ok (b1, s1, f1)
        ∧ closeBlock code f1 b1 = .ok ⟨b.addr, b.lines ++ ls, b.branches ++ br⟩
        ∧ s1 = (br.filter (fun d => !(bm d).isSome)).reverse ++ s := by
  induction h with
  | @ret f l hc hr =>
    intro n b s hn hb
    obtain ⟨m, rfl⟩ : ∃ m, n = m + 1 := ⟨n - 1, by simp at hn; omega⟩
    refine ⟨b, s, f, by simp [walk2, hc, hr], ?_, by simp⟩
    simp [closeBlock, hc, hr, hb, block.addLine]
  | @braCond f l hc hr hb hu =>
    intro n b s hn _
    obtain ⟨m, rfl⟩ : ∃ m, n = m + 1 := ⟨n - 1, by simp at hn; omega⟩
    refine ⟨_, _, f, by simp only [walk2, hc, hr, hb, hu]; rfl, ?_, ?_⟩
    · simp [closeBlock, hc, hr, branchTo, block.addLine, block.addBranch]
    · cases hm : bm l.relativeJumpLoc <;> cases hm2 : bm ((f + 2) % 65536) <;>
        simp [branchTo, hm, hm2, List.filter_cons]
  | @braUncond f l hc hr hb hu =>
    intro n b s hn _
    obtain ⟨m, rfl⟩ : ∃ m, n = m + 1 := ⟨n - 1, by simp at hn; omega⟩
    refine ⟨_, _, f, by simp only [walk2, hc, hr, hb, hu]; rfl, ?_, ?_⟩
    · simp [closeBlock, hc, hr, branchTo, block.addLine, block.addBranch]
    · cases hm : bm l.relativeJumpLoc <;> simp [branchTo, hm, List.filter_cons]
  | @goto f l hc hr hb hg =>
    intro n b s hn _
    obtain ⟨m, rfl⟩ : ∃ m, n = m + 1 := ⟨n - 1, by simp at hn; omega⟩
    refine ⟨_, _, f, by simp only [walk2, hc, hr, hb, hg]; rfl, ?_, ?_⟩
    · simp [closeBlock, hc, hr, branchTo, block.addLine, block.addBranch]
    · cases hm : bm l.jumpLoc <;> simp [branchTo, hm, List.filter_cons]
  | @gotoReg f l hc hr hb hg hgr =>
    intro n b s hn _
    obtain ⟨m, rfl⟩ : ∃ m, n = m + 1 := ⟨n - 1, by simp at hn; omega⟩
    refine ⟨_, _, f, by simp only [walk2, hc, hr, hb, hg, hgr]; rfl, ?_, by simp⟩
    simp [closeBlock, hc, hr, block.addLine]
  | @join f l hc hp hj =>
    intro n b s hn _
    obtain ⟨h1, h2, h3, h4⟩ := isPlain_iff.1 hp
    obtain ⟨m, rfl⟩ : ∃ m, n = m + 1 := ⟨n - 1, by simp at hn; omega⟩
    refine ⟨_, _, f, by simp only [walk2, hc, h1, h2, h3, h4, hj]; rfl, ?_, ?_⟩
    · simp [closeBlock, hc, h1, branchTo, block.addLine, block.addBranch]
    · cases hm : bm ((f + 2) % 65536) <;> simp [branchTo, hm, List.filter_cons]
  | @step f l ls br hc hp hj _ ih =>
    intro n b s hn _
    obtain ⟨h1, h2, h3, h4⟩ := isPlain_iff.1 hp
    obtain ⟨m, rfl⟩ : ∃ m, n = m + 1 := ⟨n - 1, by simp at hn; omega⟩
    obtain ⟨b1, s1, f1, hw, hcl, hs⟩ :=
      ih m (b.addLine (some l)) s (by simpa using hn) (addLine_isReturned b h1)
    refine ⟨b1, s1, f1, ?_, ?_, hs⟩
    · simp only [walk2, hc, h1, h2, h3, h4, hj]
      exact hw
    · rw [hcl]; simp [block.addLine]

/-! ## Properties: pass 2, the worklist -/

theorem setKey_same {α : Type} (m : Nat → Option α) (k : Nat) (v : α) :
    setKey m k v k = some v := by
  simp [setKey]

theorem setKey_other {α : Type} (m : Nat → Option α) {k x : Nat} (v : α) (h : x ≠ k) :
    setKey m k v x = m x := by
  simp [setKey, h]

theorem setKey_setKey {α : Type} (m : Nat → Option α) (k : Nat) (v w : α) :
    setKey (setKey m k v) k w = setKey m k w := by
  funext x
  by_cases h : x = k <;> simp [setKey, h]

theorem setKey_isSome {α : Type} (m : Nat → Option α) (k : Nat) (v : α) (x : Nat) :
    (setKey m k v x).isSome = (decide (x = k) || (m x).isSome) := by
  by_cases h : x = k <;> simp [setKey, h]

theorem loop2_nil {code : Code} {bs : Nat → Bool} {fuel n : Nat} {bm : Nat → Option block} :
    loop2 code bs fuel (n + 1) [] bm = .ok ([], bm) := by
  simp [loop2]

theorem loop2_skip {code : Code} {bs : Nat → Bool} {fuel n f : Nat} {s : List Nat}
    {bm : Nat → Option block} (hc : code f = none) :
    loop2 code bs fuel (n + 1) (f :: s) bm = loop2 code bs fuel n s bm := by
  simp [loop2, hc]

theorem loop2_step {code : Code} {bs : Nat → Bool} {fuel n f : Nat} {s : List Nat}
    {bm : Nat → Option block} {l : line} {r : List Nat × (Nat → Option block)}
    (hc : code f = some l) (h : loop2 code bs fuel (n + 1) (f :: s) bm = .ok r) :
    ∃ ls br, BlockFrom code bs f ls br ∧ ls.length ≤ fuel
      ∧ loop2 code bs fuel n (pushed bm f br ++ s) (setKey bm f ⟨l.addr, ls, br⟩) = .ok r := by
  simp only [loop2, hc, NewBlock] at h
  cases hw : walk2 code bs (setKey bm f ⟨l.addr, [], []⟩) fuel f ⟨l.addr, [], []⟩ s with
  | error e => simp [hw] at h
  | ok res =>
    obtain ⟨b1, s1, f1⟩ := res
    simp only [hw] at h
    obtain ⟨ls, br, hbf, hcl, hs, hlen⟩ :=
      walk2_shape _ _ _ _ _ _ _ (by simp [block.isReturned]) hw
    simp only [hcl, List.nil_append, setKey_setKey] at h
    refine ⟨ls, br, hbf, hlen, ?_⟩
    rw [hs] at h
    have : pushed bm f br
        = (br.filter (fun d => !(setKey bm f ⟨l.addr, [], []⟩ d).isSome)).reverse := by
      unfold pushed
      congr 2
      funext d
      rw [setKey_isSome]
    rw [this]
    exact h

theorem mem_pushed {bm : Nat → Option block} {f d : Nat} {br : List Nat} :
    d ∈ pushed bm f br ↔ d ∈ br ∧ d ≠ f ∧ bm d = none := by
  simp [pushed, and_assoc]

/-- Invariant rule for the worklist of pass 2. -/
theorem loop2_induct {code : Code} {bs : Nat → Bool} {fuel : Nat}
    (I : List Nat → (Nat → Option block) → Prop)
    (hskip : ∀ f s bm, code f = none → I (f :: s) bm → I s bm)
    (hstep : ∀ f s bm l ls br, code f = some l → BlockFrom code bs f ls br → I (f :: s) bm →
      I (pushed bm f br ++ s) (setKey bm f ⟨l.addr, ls, br⟩)) :
    ∀ n s bm r, loop2 code bs fuel n s bm = .ok r → I s bm → r.1 = [] ∧ I [] r.2 := by
  intro n
  induction n with
  | zero => intro s bm r h; simp [loop2] at h
  | succ n ih =>
    intro s bm r h hI
    cases s with
    | nil =>
      rw [loop2_nil] at h
      cases h
      exact ⟨rfl, hI⟩
    | cons f s =>
      cases hc : code f with
      | none =>
        rw [loop2_skip hc] at h
        exact ih _ _ _ h (hskip _ _ _ hc hI)
      | some l =>
        obtain ⟨ls, br, hbf, _, h2⟩ := loop2_step hc h
        exact ih _ _ _ h2 (hstep _ _ _ _ _ _ hc hbf hI)

theorem loop2_shaped {code : Code} {bs : Nat → Bool} {fuel n : Nat} {P : (Nat → Bool) → Prop}
    {s : List Nat} {bm : Nat → Option block} {r : List Nat × (Nat → Option block)}
    (hP : P bs) (h : loop2 code bs fuel n s bm = .ok r) (hI : Shaped code P bm) :
    Shaped code P r.2 := by
  refine (loop2_induct (fun _ m => Shaped code P m) (fun _ _ _ _ h => h) ?_ n s bm r h hI).2
  intro f s bm l ls br hc hbf hS k b hk
  by_cases hkf : k = f
  · subst hkf
    rw [setKey_same] at hk
    cases hk
    exact ⟨l, bs, hP, hc, rfl, hbf⟩
  · rw [setKey_other _ _ hkf] at hk
    exact hS k b hk

theorem loop2_closed {code : Code} {bs : Nat → Bool} {fuel n : Nat}
    {s : List Nat} {bm : Nat → Option block} {r : List Nat × (Nat → Option block)}
    (h : loop2 code bs fuel n s bm = .ok r) (hI : Closed code bm s) :
    r.1 = [] ∧ Closed code r.2 [] := by
  refine loop2_induct (fun s m => Closed code m s) ?_ ?_ n s bm r h hI
  · intro f s bm hc hC k b hk d hd hcd
    rcases hC k b hk d hd hcd with h1 | h1
    · exact Or.inl h1
    · rcases List.mem_cons.1 h1 with rfl | h1
      · rw [hc] at hcd; cases hcd
      · exact Or.inr h1
  · intro f s bm l ls br hc hbf hC k b hk d hd hcd
    by_cases hdf : d = f
    · left; rw [hdf, setKey_same]; rfl
    by_cases hkf : k = f
    · subst hkf
      rw [setKey_same] at hk
      cases hk
      cases hbd : bm d with
      | none => exact Or.inr (List.mem_append_left _ (mem_pushed.2 ⟨hd, hdf, hbd⟩))
      | some v => left; rw [setKey_other _ _ hdf, hbd]; rfl
    · rw [setKey_other _ _ hkf] at hk
      rcases hC k b hk d hd hcd with h1 | h1
      · left; rw [setKey_other _ _ hdf]; exact h1
      · rcases List.mem_cons.1 h1 with h1 | h1
        · exact absurd h1 hdf
        · exact Or.inr (List.mem_append_right _ h1)

theorem loop2_keep {code : Code} {bs : Nat → Bool} {fuel n : Nat}
    {s : List Nat} {bm : Nat → Option block} {r : List Nat × (Nat → Option block)}
    (h : loop2 code bs fuel n s bm = .ok r) {k : Nat} (hk : (bm k).isSome = true)
    (hs : k ∉ s) : r.2 k = bm k := by
  refine (loop2_induct (fun s m => k ∉ s ∧ m k = bm k) ?_ ?_ n s bm r h ⟨hs, rfl⟩).2.2
  · intro f s m _ hI
    exact ⟨fun hm => hI.1 (List.mem_cons_of_mem _ hm), hI.2⟩
  · intro f s m l ls br _ _ hI
    have hkf : k ≠ f := fun e => hI.1 (e ▸ List.mem_cons_self _ _)
    refine ⟨?_, by rw [setKey_other _ _ hkf]; exact hI.2⟩
    intro hm
    rcases List.mem_append.1 hm with hm | hm
    · have := (mem_pushed.1 hm).2.2
      rw [hI.2] at this
      rw [this] at hk
      cases hk
    · exact hI.1 (List.mem_cons_of_mem _ hm)

theorem loop2_mono {code : Code} {bs : Nat → Bool} {fuel n : Nat}
    {s : List Nat} {bm : Nat → Option block} {r : List Nat × (Nat → Option block)}
    (h : loop2 code bs fuel n s bm = .ok r) {k : Nat} (hk : (bm k).isSome = true) :
    (r.2 k).isSome = true := by
  refine (loop2_induct (fun _ m => (m k).isSome = true) (fun _ _ _ _ h => h) ?_ n s bm r h hk).2
  intro f s m l ls br _ _ hI
  rw [setKey_isSome, hI, Bool.or_true]

theorem loop2_created {code : Code} {bs : Nat → Bool} {fuel n : Nat}
    {s : List Nat} {bm : Nat → Option block} {r : List Nat × (Nat → Option block)}
    (h : loop2 code bs fuel n s bm = .ok r) {k : Nat} (hk : k ∈ s)
    (hc : (code k).isSome = true) : (r.2 k).isSome = true := by
  have := (loop2_induct (fun s m => (m k).isSome = true ∨ k ∈ s) ?_ ?_ n s bm r h (Or.inr hk)).2
  · rcases this with h1 | h1
    · exact h1
    · cases h1
  · intro f s m hf hI
    rcases hI with h1 | h1
    · exact Or.inl h1
    · rcases List.mem_cons.1 h1 with rfl | h1
      · rw [hf] at hc; cases hc
      · exact Or.inr h1
  · intro f s m l ls br _ _ hI
    by_cases hkf : k = f
    · left; rw [hkf, setKey_same]; rfl
    rcases hI with h1 | h1
    · left; rw [setKey_other _ _ hkf]; exact h1
    · rcases List.mem_cons.1 h1 with h1 | h1
      · exact absurd h1 hkf
      · exact Or.inr (List.mem_append_right _ h1)

/-! ## Properties: the loop over the function entries -/

theorem pass1_ok {code : Code} {fuel addr : Nat} {p1 : Pass1}
    (h : pass1 code fuel addr = .ok p1) :
    loop1 code fuel fuel
        { s := [addr], bStart := fun _ => false, visited := fun _ => false,
          calls := fun _ => false } = .ok p1 ∧ p1.s = [] := by
  unfold pass1 at h
  split at h
  · cases h
  · rename_i st hst
    by_cases he : st.s.isEmpty = true
    · simp only [he, Bool.not_true, Bool.false_eq_true, if_false, Except.ok.injEq] at h
      subst h
      exact ⟨hst, List.isEmpty_iff.1 he⟩
    · simp [he] at h

theorem buildFunction_ok {code : Code} {fuel addr : Nat} {g g1 : Graph}
    (h : buildFunction code fuel g addr = .ok g1) :
    ∃ p1 r, pass1 code fuel addr = .ok p1
      ∧ loop2 code p1.bStart fuel fuel [addr] g.blockMap = .ok r
      ∧ g1 = { blockMap := r.2, fnGraph := setKey g.fnGraph addr p1.calls } := by
  unfold buildFunction at h
  cases hp : pass1 code fuel addr with
  | error e => simp [hp] at h
  | ok p1 =>
    simp only [hp] at h
    cases hl : loop2 code p1.bStart fuel fuel [addr] g.blockMap with
    | error e => simp [hl] at h
    | ok r =>
      obtain ⟨s, bm⟩ := r
      simp only [hl, Except.ok.injEq] at h
      exact ⟨p1, (s, bm), rfl, hl, h.symm⟩

theorem buildGraphFrom_inv {code : Code} {fuel : Nat} (J : Graph → Prop)
    (hstep : ∀ g a g1, J g → buildFunction code fuel g a = .ok g1 → J g1) :
    ∀ fs g g1, buildGraphFrom code fuel fs g = .ok g1 → J g → J g1 := by
  intro fs
  induction fs with
  | nil => intro g g1 h hJ; simp only [buildGraphFrom, Except.ok.injEq] at h; exact h ▸ hJ
  | cons a rest ih =>
    intro g g1 h hJ
    unfold buildGraphFrom at h
    cases hb : buildFunction code fuel g a with
    | error e => simp [hb] at h
    | ok g2 =>
      simp only [hb] at h
      exact ih _ _ h (hstep _ _ _ hJ hb)

/-- The invariant of the block table between two function entries. -/
theorem buildFunction_tables {code : Code} {fuel addr : Nat} {g g1 : Graph}
    (h : buildFunction code fuel g addr = .ok g1)
    (hI : Shaped code (fun _ => True) g.blockMap ∧ Closed code g.blockMap []) :
    Shaped code (fun _ => True) g1.blockMap ∧ Closed code g1.blockMap [] := by
  obtain ⟨p1, r, _, hl, rfl⟩ := buildFunction_ok h
  refine ⟨loop2_shaped trivial hl hI.1, (loop2_closed hl ?_).2⟩
  intro k b hk d hd hcd
  rcases hI.2 k b hk d hd hcd with h1 | h1
  · exact Or.inl h1
  · cases h1

theorem buildGraph_tables {code : Code} {fuel : Nat} {fs : List Nat} {g : Graph}
    (h : buildGraph code fuel fs = .ok g) :
    Shaped code (fun _ => True) g.blockMap ∧ Closed code g.blockMap [] := by
  refine buildGraphFrom_inv
    (fun g => Shaped code (fun _ => True) g.blockMap ∧ Closed code g.blockMap [])
    (fun _ _ _ hJ hb => buildFunction_tables hb hJ) fs _ g h ⟨?_, ?_⟩
  · intro k b hk; cases hk
  · intro k b hk; cases hk

/-! ## Properties: the blocks of the final table -/

theorem isBRAUnconditional_isBRA {l : line} (h : l.isBRAUnconditional = true) :
    l.isBRA = true := by
  rcases l with ⟨a, b0, b1, b2, b3⟩
  simp only [line.isBRAUnconditional, line.isBRA, Bool.and_eq_true, beq_iff_eq] at *
  obtain ⟨h0, h1⟩ := h
  subst h0 h1
  exact ⟨rfl, by decide⟩

theorem isGOTOREG_not_isRETURN {l : line} (h : l.isGOTOREG = true) : l.isRETURN = false := by
  rcases l with ⟨a, b0, b1, b2, b3⟩
  simp only [line.isGOTOREG, line.isRETURN, Bool.and_eq_true, beq_iff_eq] at *
  obtain ⟨⟨⟨h0, h1⟩, h2⟩, h3⟩ := h
  subst h0 h1 h2
  simp

/-- What closes a block decides its successors. -/
theorem BlockFrom_last {code : Code} {bs : Nat → Bool} {f : Nat} {ls : List line}
    {br : List Nat} (h : BlockFrom code bs f ls br) :
    ∃ a l, code a = some l ∧ ls.getLast? = some l
      ∧ (l.isBRA = true → l.isBRAUnconditional = false →
          br = [l.relativeJumpLoc, (a + 2) % 65536])
      ∧ (l.isBRAUnconditional = true → br = [l.relativeJumpLoc])
      ∧ (l.isGOTO = true → br = [l.jumpLoc])
      ∧ (l.isRETURN = true ∨ l.isGOTOREG = true → br = [])
      ∧ (l.isPlain = true → br = [(a + 2) % 65536] ∧ bs ((a + 2) % 65536) = true) := by
  induction h with
  | @ret f l hc hr =>
    refine ⟨f, l, hc, rfl, ?_, ?_, ?_, fun _ => rfl, ?_⟩
    · intro hb; rw [isBRA_not_isRETURN hb] at hr; cases hr
    · intro hb; rw [isBRA_not_isRETURN (isBRAUnconditional_isBRA hb)] at hr; cases hr
    · intro hg; rw [isGOTO_not_isRETURN hg] at hr; cases hr
    · intro hp; rw [(isPlain_iff.1 hp).1] at hr; cases hr
  | @braCond f l hc hr hb hu =>
    refine ⟨f, l, hc, rfl, fun _ _ => rfl, ?_, ?_, ?_, ?_⟩
    · intro hu1; rw [hu] at hu1; cases hu1
    · intro hg; rw [isGOTO_not_isBRA hg] at hb; cases hb
    · rintro (h1 | h1)
      · rw [hr] at h1; cases h1
      · rcases l with ⟨a, b0, b1, b2, b3⟩
        simp only [line.isGOTOREG, line.isBRA, Bool.and_eq_true, beq_iff_eq] at h1 hb
        obtain ⟨⟨⟨h0, h1⟩, h2⟩, h3⟩ := h1
        subst h1
        simp at hb
    · intro hp; rw [(isPlain_iff.1 hp).2.1] at hb; cases hb
  | @braUncond f l hc hr hb hu =>
    refine ⟨f, l, hc, rfl, ?_, fun _ => rfl, ?_, ?_, ?_⟩
    · intro _ hu1; rw [hu] at hu1; cases hu1
    · intro hg; rw [isGOTO_not_isBRA hg] at hb; cases hb
    · rintro (h1 | h1)
      · rw [hr] at h1; cases h1
      · rcases l with ⟨a, b0, b1, b2, b3⟩
        simp only [line.isGOTOREG, line.isBRA, Bool.and_eq_true, beq_iff_eq] at h1 hb
        obtain ⟨⟨⟨h0, h1⟩, h2⟩, h3⟩ := h1
        subst h1
        simp at hb
    · intro hp; rw [(isPlain_iff.1 hp).2.1] at hb; cases hb
  | @goto f l hc hr hb hg =>
    refine ⟨f, l, hc, rfl, ?_, ?_, fun _ => rfl, ?_, ?_⟩
    · intro hb1; rw [hb] at hb1; cases hb1
    · intro hu; rw [isBRAUnconditional_isBRA hu] at hb; cases hb
    · rintro (h1 | h1)
      · rw [hr] at h1; cases h1
      · rcases l with ⟨a, b0, b1, b2, b3⟩
        simp only [line.isGOTOREG, line.isGOTO, Bool.and_eq_true, beq_iff_eq] at h1 hg
        obtain ⟨⟨⟨h0, h1⟩, h2⟩, h3⟩ := h1
        subst h1
        simp at hg
    · intro hp; rw [(isPlain_iff.1 hp).2.2.1] at hg; cases hg
  | @gotoReg f l hc hr hb hg hgr =>
    refine ⟨f, l, hc, rfl, ?_, ?_, ?_, fun _ => rfl, ?_⟩
    · intro hb1; rw [hb] at hb1; cases hb1
    · intro hu; rw [isBRAUnconditional_isBRA hu] at hb; cases hb
    · intro hg1; rw [hg] at hg1; cases hg1
    · intro hp; rw [(isPlain_iff.1 hp).2.2.2] at hgr; cases hgr
  | @join f l hc hp hj =>
    obtain ⟨h1, h2, h3, h4⟩ := isPlain_iff.1 hp
    refine ⟨f, l, hc, rfl, ?_, ?_, ?_, ?_, fun _ => ⟨rfl, hj⟩⟩
    · intro hb1; rw [h2] at hb1; cases hb1
    · intro hu; rw [isBRAUnconditional_isBRA hu] at h2; cases h2
    · intro hg1; rw [h3] at hg1; cases hg1
    · rintro (h | h)
      · rw [h1] at h; cases h
      · rw [h4] at h; cases h
  | @step f l ls br hc hp hj hbf ih =>
    obtain ⟨a, l1, hc1, hl1, rest⟩ := ih
    refine ⟨a, l1, hc1, ?_, rest⟩
    cases ls with
    | nil => cases hl1
    | cons x xs => rw [List.getLast?_cons_cons]; exact hl1

/-- C3: in the final block table the successor list of every block is decided
by the class of its last instruction, at address `a`: a conditional BRA gives
`[relativeJumpLoc, a+2]`, an unconditional BRA `[relativeJumpLoc]`, a GOTO
`[jumpLoc]`, a RETURN or a GOTO-indirect the empty list. -/
theorem successors_match_last (code : Code) (fuel : Nat) (fs : List Nat) (g : Graph)
    (hkey : code.keyed) (hrun : buildGraph code fuel fs = .ok g)
    (k : Nat) (b : block) (l : line) (hb : g.blockMap k = some b)
    (hl : b.lines.getLast? = some l) :
    (l.isBRA = true → l.isBRAUnconditional = false →
        b.branches = [l.relativeJumpLoc, (l.addr + 2) % 65536])
      ∧ (l.isBRAUnconditional = true → b.branches = [l.relativeJumpLoc])
      ∧ (l.isGOTO = true → b.branches = [l.jumpLoc])
      ∧ (l.isRETURN = true ∨ l.isGOTOREG = true → b.branches = []) := by
  obtain ⟨_, bs, _, _, _, hbf⟩ := (buildGraph_tables hrun).1 k b hb
  obtain ⟨a, l1, hc1, hl1, h1, h2, h3, h4, _⟩ := BlockFrom_last hbf
  rw [hl] at hl1
  cases hl1
  rw [hkey a l hc1]
  exact ⟨h1, h2, h3, h4⟩

/-! ## Properties: pass 1 -/

theorem isCALL_isPlain {l : line} (h : l.isCALL = true) : l.isPlain = true := by
  rcases l with ⟨a, b0, b1, b2, b3⟩
  simp only [line.isCALL, Bool.and_eq_true, beq_iff_eq] at h
  obtain ⟨⟨h0, h1⟩, h3⟩ := h
  subst h0 h1
  simp [line.isPlain, line.isRETURN, line.isBRA, line.isGOTO, line.isGOTOREG]

theorem isRCALL_isPlain {l : line} (h : l.isRCALL = true) : l.isPlain = true := by
  rcases l with ⟨a, b0, b1, b2, b3⟩
  simp only [line.isRCALL, Bool.and_eq_true, beq_iff_eq] at h
  obtain ⟨h0, h1⟩ := h
  subst h0 h1
  simp [line.isPlain, line.isRETURN, line.isBRA, line.isGOTO, line.isGOTOREG]

theorem setTrue_same (m : Nat → Bool) (k : Nat) : setTrue m k k = true := by
  simp [setTrue]

theorem setTrue_mono (m : Nat → Bool) (k : Nat) {x : Nat} (h : m x = true) :
    setTrue m k x = true := by
  simp [setTrue, h]

theorem setTrue_true {m : Nat → Bool} {k x : Nat} (h : setTrue m k x = true) :
    x = k ∨ m x = true := by
  unfold setTrue at h
  by_cases hx : x = k
  · exact Or.inl hx
  · rw [if_neg hx] at h; exact Or.inr h

theorem BranchTarget.reach {code : Code} {e d : Nat} (h : BranchTarget code e d) :
    Reach code e d := by
  obtain ⟨x, l, hr, hc, (⟨hb, rfl⟩ | ⟨hb, hu, rfl⟩ | ⟨hg, rfl⟩)⟩ := h
  · exact Reach.taken hr hc hb
  · exact Reach.fallthrough hr hc hb hu
  · exact Reach.jump hr hc hg

theorem mark_sound {code : Code} {e d : Nat} {st : Pass1} (h : Sound1 code e st)
    (hd : BranchTarget code e d) : Sound1 code e (st.mark d) := by
  obtain ⟨h1, h2, h3⟩ := h
  refine ⟨?_, ?_, h3⟩
  · intro a ha
    simp only [Pass1.mark] at ha
    split at ha
    · exact h1 a ha
    · rcases List.mem_cons.1 ha with rfl | ha
      · exact hd.reach
      · exact h1 a ha
  · intro x hx
    rcases setTrue_true hx with rfl | hx
    · exact hd
    · exact h2 x hx

theorem call_sound {code : Code} {e d : Nat} {st : Pass1} (h : Sound1 code e st)
    (hd : CallTarget code e d) : Sound1 code e (st.call d) := by
  obtain ⟨h1, h2, h3⟩ := h
  refine ⟨h1, h2, ?_⟩
  intro x hx
  rcases setTrue_true hx with rfl | hx
  · exact hd
  · exact h3 x hx

theorem walk1_sound {code : Code} {e : Nat} :
    ∀ (n f : Nat) (st st1 : Pass1), walk1 code n f st = .ok st1 → Reach code e f →
      Sound1 code e st → Sound1 code e st1 := by
  intro n
  induction n with
  | zero => intro f st st1 h; simp [walk1] at h
  | succ n ih =>
    intro f st st1 h hr hS
    unfold walk1 at h
    cases hc : code f with
    | none => simp [hc] at h
    | some l =>
      simp only [hc] at h
      by_cases hret : l.isRETURN = true
      · simp only [hret, if_true, Except.ok.injEq] at h
        exact h ▸ hS
      have hret : l.isRETURN = false := by simpa using hret
      simp only [hret, Bool.false_eq_true, if_false] at h
      by_cases hbra : l.isBRA = true
      · have t1 : BranchTarget code e l.relativeJumpLoc := ⟨f, l, hr, hc, Or.inl ⟨hbra, rfl⟩⟩
        by_cases hu : l.isBRAUnconditional = true
        · simp only [hbra, hu, if_true, Bool.not_true, Bool.false_eq_true, if_false,
            Except.ok.injEq] at h
          exact h ▸ mark_sound hS t1
        · have hu : l.isBRAUnconditional = false := by simpa using hu
          simp only [hbra, hu, if_true, Bool.not_false, Except.ok.injEq] at h
          exact h ▸ mark_sound (mark_sound hS t1) ⟨f, l, hr, hc, Or.inr (Or.inl ⟨hbra, hu, rfl⟩)⟩
      have hbra : l.isBRA = false := by simpa using hbra
      simp only [hbra, Bool.false_eq_true, if_false] at h
      by_cases hg : l.isGOTO = true
      · simp only [hg, if_true, Except.ok.injEq] at h
        exact h ▸ mark_sound hS ⟨f, l, hr, hc, Or.inr (Or.inr ⟨hg, rfl⟩)⟩
      have hg : l.isGOTO = false := by simpa using hg
      simp only [hg, Bool.false_eq_true, if_false] at h
      by_cases hgr : l.isGOTOREG = true
      · simp only [hgr, if_true, Except.ok.injEq] at h
        exact h ▸ hS
      have hgr : l.isGOTOREG = false := by simpa using hgr
      simp only [hgr, Bool.false_eq_true, if_false] at h
      have hpl : l.isPlain = true := isPlain_iff.2 ⟨hret, hbra, hg, hgr⟩
      refine ih _ _ _ h (Reach.next hr hc hpl) ?_
      have hS1 : Sound1 code e (if l.isCALL = true then st.call l.jumpLoc else st) := by
        split
        · rename_i hcall
          exact call_sound hS ⟨f, l, hr, hc, Or.inr ⟨hcall, rfl⟩⟩
        · exact hS
      split
      · rename_i hrc
        exact call_sound hS1 ⟨f, l, hr, hc, Or.inl ⟨hrc, rfl⟩⟩
      · exact hS1

theorem Extends1.refl (st : Pass1) : Extends1 st st :=
  ⟨rfl, fun _ h => h, fun _ h => h, fun _ h => h⟩

theorem Extends1.trans {a b c : Pass1} (h1 : Extends1 a b) (h2 : Extends1 b c) :
    Extends1 a c :=
  ⟨h2.1.trans h1.1, fun d h => h2.2.1 d (h1.2.1 d h), fun d h => h2.2.2.1 d (h1.2.2.1 d h),
    fun d h => h2.2.2.2 d (h1.2.2.2 d h)⟩

theorem mark_extends (st : Pass1) (d : Nat) : Extends1 st (st.mark d) := by
  refine ⟨rfl, ?_, fun x h => setTrue_mono _ _ h, fun _ h => h⟩
  intro x hx
  simp only [Pass1.mark]
  split
  · exact hx
  · exact List.mem_cons_of_mem _ hx

theorem call_extends (st : Pass1) (d : Nat) : Extends1 st (st.call d) :=
  ⟨rfl, fun _ h => h, fun _ h => h, fun _ h => setTrue_mono _ _ h⟩

theorem ite_call_extends (c : Bool) (st : Pass1) (d : Nat) :
    Extends1 st (if c = true then st.call d else st) := by
  cases c
  · exact Extends1.refl _
  · exact call_extends _ _

theorem mark_seen (st : Pass1) (d : Nat) : Seen (st.mark d) d := by
  refine ⟨setTrue_same _ _, ?_⟩
  simp only [Pass1.mark]
  by_cases hv : st.visited d = true
  · exact Or.inl hv
  · right; rw [if_neg hv]; exact List.mem_cons_self _ _

theorem Seen.mono_ext {st st1 : Pass1} {d : Nat} (h : Seen st d) (he : Extends1 st st1) :
    Seen st1 d := by
  refine ⟨he.2.2.1 d h.1, ?_⟩
  rcases h.2 with h2 | h2
  · left; rw [he.1]; exact h2
  · exact Or.inr (he.2.1 d h2)

theorem Handled.weaken {st st1 : Pass1} {x : Nat} {l : line} (h : Handled st x l)
    (he : Extends1 st st1) : Handled st1 x l :=
  ⟨fun a => (h.1 a).mono_ext he, fun a b => (h.2.1 a b).mono_ext he,
    fun a => (h.2.2.1 a).mono_ext he,
    fun a => he.2.2.2 _ (h.2.2.2.1 a), fun a => he.2.2.2 _ (h.2.2.2.2 a)⟩

/-- A straight-line run does not go past an instruction that is not plain. -/
theorem Straight.stop {code : Code} {f y : Nat} {l : line} (h : Straight code f y)
    (hc : code f = some l) (hp : l.isPlain = false) : y = f := by
  cases h with
  | here => rfl
  | step hc1 hp1 _ =>
    rw [hc] at hc1
    cases hc1
    rw [hp] at hp1
    cases hp1

theorem walk1_complete {code : Code} :
    ∀ (n f : Nat) (st st1 : Pass1), walk1 code n f st = .ok st1 →
      Extends1 st st1 ∧ ∀ x l, Straight code f x → code x = some l → Handled st1 x l := by
  intro n
  induction n with
  | zero => intro f st st1 h; simp [walk1] at h
  | succ n ih =>
    intro f st st1 h
    unfold walk1 at h
    cases hc : code f with
    | none => simp [hc] at h
    | some l =>
      simp only [hc] at h
      have notcall : l.isPlain = false → l.isCALL = false ∧ l.isRCALL = false := by
        intro hp
        constructor
        · cases hx : l.isCALL
          · rfl
          · rw [isCALL_isPlain hx] at hp; cases hp
        · cases hx : l.isRCALL
          · rfl
          · rw [isRCALL_isPlain hx] at hp; cases hp
      by_cases hret : l.isRETURN = true
      · simp only [hret, if_true, Except.ok.injEq] at h
        subst h
        have hp : l.isPlain = false := by simp [line.isPlain, hret]
        refine ⟨Extends1.refl _, ?_⟩
        intro x l1 hs hx
        have := hs.stop hc hp
        subst this
        rw [hc] at hx
        cases hx
        refine ⟨?_, ?_, ?_, ?_, ?_⟩
        · intro hb; rw [isBRA_not_isRETURN hb] at hret; cases hret
        · intro hb; rw [isBRA_not_isRETURN hb] at hret; cases hret
        · intro hg; rw [isGOTO_not_isRETURN hg] at hret; cases hret
        · intro hx; rw [(notcall hp).1] at hx; cases hx
        · intro hx; rw [(notcall hp).2] at hx; cases hx
      have hret : l.isRETURN = false := by simpa using hret
      simp only [hret, Bool.false_eq_true, if_false] at h
      by_cases hbra : l.isBRA = true
      · have hp : l.isPlain = false := by simp [line.isPlain, hbra]
        have hgo : l.isGOTO = false := by
          cases hx : l.isGOTO
          · rfl
          · rw [isGOTO_not_isBRA hx] at hbra; cases hbra
        by_cases hu : l.isBRAUnconditional = true
        · simp only [hbra, hu, if_true, Bool.not_true, Bool.false_eq_true, if_false,
            Except.ok.injEq] at h
          subst h
          refine ⟨mark_extends _ _, ?_⟩
          intro x l1 hs hx
          have := hs.stop hc hp
          subst this
          rw [hc] at hx
          cases hx
          refine ⟨fun _ => mark_seen _ _, ?_, ?_, ?_, ?_⟩
          · intro _ hu1; rw [hu] at hu1; cases hu1
          · intro hg; rw [hgo] at hg; cases hg
          · intro hx; rw [(notcall hp).1] at hx; cases hx
          · intro hx; rw [(notcall hp).2] at hx; cases hx
        · have hu : l.isBRAUnconditional = false := by simpa using hu
          simp only [hbra, hu, if_true, Bool.not_false, Except.ok.injEq] at h
          subst h
          refine ⟨(mark_extends _ _).trans (mark_extends _ _), ?_⟩
          intro x l1 hs hx
          have := hs.stop hc hp
          subst this
          rw [hc] at hx
          cases hx
          refine ⟨fun _ => (mark_seen _ _).mono_ext (mark_extends _ _), fun _ _ => mark_seen _ _,
            ?_, ?_, ?_⟩
          · intro hg; rw [hgo] at hg; cases hg
          · intro hx; rw [(notcall hp).1] at hx; cases hx
          · intro hx; rw [(notcall hp).2] at hx; cases hx
      have hbra : l.isBRA = false := by simpa using hbra
      simp only [hbra, Bool.false_eq_true, if_false] at h
      by_cases hg : l.isGOTO = true
      · have hp : l.isPlain = false := by simp [line.isPlain, hg]
        simp only [hg, if_true, Except.ok.injEq] at h
        subst h
        refine ⟨mark_extends _ _, ?_⟩
        intro x l1 hs hx
        have := hs.stop hc hp
        subst this
        rw [hc] at hx
        cases hx
        refine ⟨?_, ?_, fun _ => mark_seen _ _, ?_, ?_⟩
        · intro hb; rw [hbra] at hb; cases hb
        · intro hb; rw [hbra] at hb; cases hb
        · intro hx; rw [(notcall hp).1] at hx; cases hx
        · intro hx; rw [(notcall hp).2] at hx; cases hx
      have hg : l.isGOTO = false := by simpa using hg
      simp only [hg, Bool.false_eq_true, if_false] at h
      by_cases hgr : l.isGOTOREG = true
      · have hp : l.isPlain = false := by simp [line.isPlain, hgr]
        simp only [hgr, if_true, Except.ok.injEq] at h
        subst h
        refine ⟨Extends1.refl _, ?_⟩
        intro x l1 hs hx
        have := hs.stop hc hp
        subst this
        rw [hc] at hx
        cases hx
        refine ⟨?_, ?_, ?_, ?_, ?_⟩
        · intro hb; rw [hbra] at hb; cases hb
        · intro hb; rw [hbra] at hb; cases hb
        · intro hx; rw [hg] at hx; cases hx
        · intro hx; rw [(notcall hp).1] at hx; cases hx
        · intro hx; rw [(notcall hp).2] at hx; cases hx
      have hgr : l.isGOTOREG = false := by simpa using hgr
      simp only [hgr, Bool.false_eq_true, if_false] at h
      obtain ⟨hext, hfacts⟩ := ih _ _ _ h
      have e1 : Extends1 st (if l.isCALL = true then st.call l.jumpLoc else st) :=
        ite_call_extends _ _ _
      have e2 : Extends1 (if l.isCALL = true then st.call l.jumpLoc else st)
          (if l.isRCALL = true then
            (if l.isCALL = true then st.call l.jumpLoc else st).call l.relativeJumpLoc
           else (if l.isCALL = true then st.call l.jumpLoc else st)) :=
        ite_call_extends _ _ _
      refine ⟨(e1.trans e2).trans hext, ?_⟩
      intro x l1 hs hx
      cases hs with
      | here =>
        rw [hc] at hx
        cases hx
        refine ⟨?_, ?_, ?_, ?_, ?_⟩
        · intro hb; rw [hbra] at hb; cases hb
        · intro hb; rw [hbra] at hb; cases hb
        · intro hx; rw [hg] at hx; cases hx
        · intro hx
          apply hext.2.2.2
          apply e2.2.2.2
          rw [if_pos hx]
          exact setTrue_same _ _
        · intro hx
          apply hext.2.2.2
          rw [if_pos hx]
          exact setTrue_same _ _
      | step hc1 hp1 hs1 => exact hfacts x l1 hs1 hx

/-- Invariant rule for the worklist of pass 1. -/
theorem loop1_induct {code : Code} {fuel : Nat} (I : Pass1 → Prop)
    (hnone : ∀ (st : Pass1) f rest, st.s = f :: rest → code f = none → I st →
      I { st with s := rest, visited := setTrue st.visited f })
    (hsome : ∀ (st : Pass1) f rest l st1, st.s = f :: rest → code f = some l →
      walk1 code fuel f { st with s := rest, visited := setTrue st.visited f } = .ok st1 →
      I st → I st1) :
    ∀ n st st1, loop1 code fuel n st = .ok st1 → I st → I st1 ∧ st1.s = [] := by
  intro n
  induction n with
  | zero => intro st st1 h; simp [loop1] at h
  | succ n ih =>
    intro st st1 h hI
    unfold loop1 at h
    cases hs : st.s with
    | nil =>
      simp only [hs, Except.ok.injEq] at h
      subst h
      exact ⟨hI, hs⟩
    | cons f rest =>
      simp only [hs] at h
      cases hc : code f with
      | none =>
        simp only [hc] at h
        exact ih _ _ h (hnone st f rest hs hc hI)
      | some l =>
        simp only [hc] at h
        cases hw : walk1 code fuel f { st with s := rest, visited := setTrue st.visited f } with
        | error e => simp [hw] at h
        | ok st2 =>
          simp only [hw] at h
          exact ih _ _ h (hsome st f rest l st2 hs hc hw hI)

theorem loop1_sound {code : Code} {fuel e n : Nat} {st st1 : Pass1}
    (h : loop1 code fuel n st = .ok st1) (hS : Sound1 code e st) : Sound1 code e st1 := by
  refine (loop1_induct (Sound1 code e) ?_ ?_ n st st1 h hS).1
  · intro st f rest hs _ hI
    exact ⟨fun a ha => hI.1 a (hs ▸ List.mem_cons_of_mem _ ha), hI.2.1, hI.2.2⟩
  · intro st f rest l st2 hs _ hw hI
    refine walk1_sound _ _ _ _ hw (hI.1 f (hs ▸ List.mem_cons_self _ _)) ?_
    exact ⟨fun a ha => hI.1 a (hs ▸ List.mem_cons_of_mem _ ha), hI.2.1, hI.2.2⟩

theorem Handled.pop {st : Pass1} {f x : Nat} {rest : List Nat} {l : line}
    (h : Handled st x l) (hs : st.s = f :: rest) :
    Handled { st with s := rest, visited := setTrue st.visited f } x l := by
  have key : ∀ d, Seen st d → Seen { st with s := rest, visited := setTrue st.visited f } d := by
    intro d hd
    refine ⟨hd.1, ?_⟩
    rcases hd.2 with h2 | h2
    · exact Or.inl (setTrue_mono _ _ h2)
    · rw [hs] at h2
      rcases List.mem_cons.1 h2 with rfl | h2
      · exact Or.inl (setTrue_same _ _)
      · exact Or.inr h2
  exact ⟨fun a => key _ (h.1 a), fun a b => key _ (h.2.1 a b), fun a => key _ (h.2.2.1 a),
    h.2.2.2.1, h.2.2.2.2⟩

theorem loop1_complete {code : Code} {fuel e n : Nat} {st st1 : Pass1}
    (h : loop1 code fuel n st = .ok st1) (hC : Complete1 code st)
    (he : st.visited e = true ∨ e ∈ st.s) :
    Complete1 code st1 ∧ st1.visited e = true ∧ st1.s = [] := by
  have := loop1_induct (fun st => Complete1 code st ∧ (st.visited e = true ∨ e ∈ st.s))
    ?_ ?_ n st st1 h ⟨hC, he⟩
  · obtain ⟨⟨h1, h2⟩, h3⟩ := this
    refine ⟨h1, ?_, h3⟩
    rcases h2 with h2 | h2
    · exact h2
    · rw [h3] at h2; cases h2
  · intro st f rest hs hc hI
    constructor
    · intro v hv x l hst hx
      rcases setTrue_true hv with rfl | hv
      · cases hst with
        | here => rw [hc] at hx; cases hx
        | step hc1 _ _ => rw [hc] at hc1; cases hc1
      · exact (hI.1 v hv x l hst hx).pop hs
    · rcases hI.2 with h2 | h2
      · exact Or.inl (setTrue_mono _ _ h2)
      · rw [hs] at h2
        rcases List.mem_cons.1 h2 with rfl | h2
        · exact Or.inl (setTrue_same _ _)
        · exact Or.inr h2
  · intro st f rest l st2 hs hc hw hI
    obtain ⟨hext, hfacts⟩ := walk1_complete _ _ _ _ hw
    constructor
    · intro v hv x l1 hst hx
      rw [hext.1] at hv
      rcases setTrue_true hv with rfl | hv
      · exact hfacts x l1 hst hx
      · exact ((hI.1 v hv x l1 hst hx).pop hs).weaken hext
    · rcases hI.2 with h2 | h2
      · left; rw [hext.1]; exact setTrue_mono _ _ h2
      · rw [hs] at h2
        rcases List.mem_cons.1 h2 with rfl | h2
        · left; rw [hext.1]; exact setTrue_same _ _
        · exact Or.inr (hext.2.1 _ h2)

theorem Straight.snoc {code : Code} {v x : Nat} {l : line} (h : Straight code v x)
    (hc : code x = some l) (hp : l.isPlain = true) : Straight code v ((x + 2) % 65536) := by
  induction h with
  | here => exact Straight.step hc hp Straight.here
  | step hc1 hp1 _ ih => exact Straight.step hc1 hp1 (ih hc)

/-- What pass 1 returns: the block starts are exactly the branch targets of
the walk, the calls exactly its call targets. -/
theorem pass1_spec {code : Code} {fuel e : Nat} {p1 : Pass1}
    (h : pass1 code fuel e = .ok p1) :
    (∀ d, p1.bStart d = true ↔ BranchTarget code e d)
      ∧ (∀ d, p1.calls d = true ↔ CallTarget code e d) := by
  obtain ⟨hl, hs⟩ := pass1_ok h
  have hS : Sound1 code e p1 := by
    refine loop1_sound hl ⟨?_, ?_, ?_⟩
    · intro a ha
      rcases List.mem_singleton.1 ha with rfl
      exact Reach.entry
    · intro d hd; simp at hd
    · intro d hd; simp at hd
  obtain ⟨hC, hve, _⟩ := loop1_complete (e := e) hl
    (by intro v hv; simp at hv) (Or.inr (List.mem_singleton.2 rfl))
  have seen : ∀ d, Seen p1 d → p1.visited d = true := by
    intro d hd
    rcases hd.2 with h2 | h2
    · exact h2
    · rw [hs] at h2; cases h2
  have cover : ∀ x, Reach code e x → ∃ v, p1.visited v = true ∧ Straight code v x := by
    intro x hx
    induction hx with
    | entry => exact ⟨e, hve, Straight.here⟩
    | next _ hc hp ih =>
      obtain ⟨v, hv, hst⟩ := ih
      exact ⟨v, hv, hst.snoc hc hp⟩
    | taken _ hc hb ih =>
      obtain ⟨v, hv, hst⟩ := ih
      exact ⟨_, seen _ ((hC v hv _ _ hst hc).1 hb), Straight.here⟩
    | fallthrough _ hc hb hu ih =>
      obtain ⟨v, hv, hst⟩ := ih
      exact ⟨_, seen _ ((hC v hv _ _ hst hc).2.1 hb hu), Straight.here⟩
    | jump _ hc hg ih =>
      obtain ⟨v, hv, hst⟩ := ih
      exact ⟨_, seen _ ((hC v hv _ _ hst hc).2.2.1 hg), Straight.here⟩
  constructor
  · intro d
    refine ⟨hS.2.1 d, ?_⟩
    rintro ⟨x, l, hr, hc, (⟨hb, rfl⟩ | ⟨hb, hu, rfl⟩ | ⟨hg, rfl⟩)⟩
    · obtain ⟨v, hv, hst⟩ := cover x hr
      exact ((hC v hv _ _ hst hc).1 hb).1
    · obtain ⟨v, hv, hst⟩ := cover x hr
      exact ((hC v hv _ _ hst hc).2.1 hb hu).1
    · obtain ⟨v, hv, hst⟩ := cover x hr
      exact ((hC v hv _ _ hst hc).2.2.1 hg).1
  · intro d
    refine ⟨hS.2.2 d, ?_⟩
    rintro ⟨x, l, hr, hc, (⟨hb, rfl⟩ | ⟨hb, rfl⟩)⟩
    · obtain ⟨v, hv, hst⟩ := cover x hr
      exact (hC v hv _ _ hst hc).2.2.2.2 hb
    · obtain ⟨v, hv, hst⟩ := cover x hr
      exact (hC v hv _ _ hst hc).2.2.2.1 hb

/-! ## Properties: fuel of the worklist of pass 2 -/

theorem loop2_build {code : Code} {bs : Nat → Bool} {fuel n f : Nat} {s : List Nat}
    {bm : Nat → Option block} {l : line} {ls : List line} {br : List Nat}
    (hc : code f = some l) (hbf : BlockFrom code bs f ls br) (hlen : ls.length ≤ fuel) :
    loop2 code bs fuel (n + 1) (f :: s) bm
      = loop2 code bs fuel n (pushed bm f br ++ s) (setKey bm f ⟨l.addr, ls, br⟩) := by
  obtain ⟨b1, s1, f1, hw, hcl, hs⟩ :=
    @walk2_build code bs (setKey bm f ⟨l.addr, [], []⟩) f ls br hbf fuel ⟨l.addr, [], []⟩ s hlen
      (by simp [block.isReturned])
  simp only [loop2, hc, NewBlock, hw, hcl, List.nil_append, setKey_setKey]
  rw [hs]
  have : pushed bm f br
      = (br.filter (fun d => !(setKey bm f ⟨l.addr, [], []⟩ d).isSome)).reverse := by
    unfold pushed
    congr 2
    funext d
    rw [setKey_isSome]
  rw [this]

theorem loop2_length {code : Code} {bs : Nat → Bool} {fuel : Nat} :
    ∀ n s bm r, loop2 code bs fuel n s bm = .ok r → s.length < n := by
  intro n
  induction n with
  | zero => intro s bm r h; simp [loop2] at h
  | succ n ih =>
    intro s bm r h
    cases s with
    | nil => simp
    | cons f s =>
      cases hc : code f with
      | none =>
        rw [loop2_skip hc] at h
        have := ih _ _ _ h
        simp only [List.length_cons]
        omega
      | some l =>
        obtain ⟨ls, br, _, _, h2⟩ := loop2_step hc h
        have := ih _ _ _ h2
        simp only [List.length_append, List.length_cons] at *
        omega

theorem loop2_codeless {code : Code} {bs : Nat → Bool} {fuel : Nat} :
    ∀ n s bm, s.length < n → (∀ d ∈ s, code d = none) →
      loop2 code bs fuel n s bm = .ok ([], bm) := by
  intro n
  induction n with
  | zero => intro s bm h; cases h
  | succ n ih =>
    intro s bm h hs
    cases s with
    | nil => exact loop2_nil
    | cons f s =>
      rw [loop2_skip (hs f (List.mem_cons_self _ _))]
      exact ih _ _ (by simpa using h) (fun d hd => hs d (List.mem_cons_of_mem _ hd))

/-! ## Properties: block starts have blocks -/

/-- The first line of a block decides how the block goes on. -/
theorem BlockFrom_head {code : Code} {bs : Nat → Bool} {x : Nat} {ls : List line}
    {br : List Nat} {l : line} (h : BlockFrom code bs x ls br) (hc : code x = some l) :
    (l.isBRA = true → l.relativeJumpLoc ∈ br
        ∧ (l.isBRAUnconditional = false → (x + 2) % 65536 ∈ br))
      ∧ (l.isGOTO = true → l.jumpLoc ∈ br)
      ∧ (l.isPlain = true → br = [(x + 2) % 65536]
          ∨ ∃ ls1, BlockFrom code bs ((x + 2) % 65536) ls1 br) := by
  cases h with
  | ret hc1 hr =>
    rw [hc] at hc1; cases hc1
    refine ⟨?_, ?_, ?_⟩
    · intro hb; rw [isBRA_not_isRETURN hb] at hr; cases hr
    · intro hg; rw [isGOTO_not_isRETURN hg] at hr; cases hr
    · intro hp; rw [(isPlain_iff.1 hp).1] at hr; cases hr
  | braCond hc1 hr hb hu =>
    rw [hc] at hc1; cases hc1
    refine ⟨fun _ => ⟨by simp, fun _ => by simp⟩, ?_, ?_⟩
    · intro hg; rw [isGOTO_not_isBRA hg] at hb; cases hb
    · intro hp; rw [(isPlain_iff.1 hp).2.1] at hb; cases hb
  | braUncond hc1 hr hb hu =>
    rw [hc] at hc1; cases hc1
    refine ⟨fun _ => ⟨by simp, fun hu1 => by rw [hu] at hu1; cases hu1⟩, ?_, ?_⟩
    · intro hg; rw [isGOTO_not_isBRA hg] at hb; cases hb
    · intro hp; rw [(isPlain_iff.1 hp).2.1] at hb; cases hb
  | goto hc1 hr hb hg =>
    rw [hc] at hc1; cases hc1
    refine ⟨?_, fun _ => by simp, ?_⟩
    · intro hb1; rw [hb] at hb1; cases hb1
    · intro hp; rw [(isPlain_iff.1 hp).2.2.1] at hg; cases hg
  | gotoReg hc1 hr hb hg hgr =>
    rw [hc] at hc1; cases hc1
    refine ⟨?_, ?_, ?_⟩
    · intro hb1; rw [hb] at hb1; cases hb1
    · intro hg1; rw [hg] at hg1; cases hg1
    · intro hp; rw [(isPlain_iff.1 hp).2.2.2] at hgr; cases hgr
  | join hc1 hp hj =>
    rw [hc] at hc1; cases hc1
    refine ⟨?_, ?_, fun _ => Or.inl rfl⟩
    · intro hb1; rw [(isPlain_iff.1 hp).2.1] at hb1; cases hb1
    · intro hg1; rw [(isPlain_iff.1 hp).2.2.1] at hg1; cases hg1
  | step hc1 hp hj hbf =>
    rw [hc] at hc1; cases hc1
    refine ⟨?_, ?_, fun _ => Or.inr ⟨_, hbf⟩⟩
    · intro hb1; rw [(isPlain_iff.1 hp).2.1] at hb1; cases hb1
    · intro hg1; rw [(isPlain_iff.1 hp).2.2.1] at hg1; cases hg1

theorem covered_of_block {code : Code} {P : (Nat → Bool) → Prop} {bm : Nat → Option block}
    (hS : Shaped code P bm) (hC : Closed code bm []) {x : Nat}
    (hx : (bm x).isSome = true) : Covered code bm x := by
  obtain ⟨b, hb⟩ := Option.isSome_iff_exists.1 hx
  obtain ⟨l, bs, _, _, _, hbf⟩ := hS x b hb
  refine ⟨bs, b.lines, b.branches, hbf, ?_⟩
  intro d hd hcd
  rcases hC x b hb d hd hcd with h | h
  · exact h
  · cases h

/-- Every address the walk of pass 1 reaches lies in a block of a table that
is closed and holds a block at the entry. -/
theorem reach_covered {code : Code} {P : (Nat → Bool) → Prop} {bm : Nat → Option block}
    (hS : Shaped code P bm) (hC : Closed code bm []) {e : Nat}
    (he : (code e).isSome = true → (bm e).isSome = true) :
    ∀ x, Reach code e x → (code x).isSome = true → Covered code bm x := by
  intro x hx
  induction hx with
  | entry => intro hc; exact covered_of_block hS hC (he hc)
  | @next x l _ hc hp ih =>
    intro hc2
    obtain ⟨bs, ls, br, hbf, hcl⟩ := ih (by rw [hc]; rfl)
    rcases (BlockFrom_head hbf hc).2.2 hp with h | ⟨ls1, h⟩
    · exact covered_of_block hS hC (hcl _ (by rw [h]; simp) hc2)
    · exact ⟨bs, ls1, br, h, hcl⟩
  | @taken x l _ hc hb ih =>
    intro hc2
    obtain ⟨bs, ls, br, hbf, hcl⟩ := ih (by rw [hc]; rfl)
    exact covered_of_block hS hC (hcl _ ((BlockFrom_head hbf hc).1 hb).1 hc2)
  | @fallthrough x l _ hc hb hu ih =>
    intro hc2
    obtain ⟨bs, ls, br, hbf, hcl⟩ := ih (by rw [hc]; rfl)
    exact covered_of_block hS hC (hcl _ (((BlockFrom_head hbf hc).1 hb).2 hu) hc2)
  | @jump x l _ hc hg ih =>
    intro hc2
    obtain ⟨bs, ls, br, hbf, hcl⟩ := ih (by rw [hc]; rfl)
    exact covered_of_block hS hC (hcl _ ((BlockFrom_head hbf hc).2.1 hg) hc2)

theorem target_has_block {code : Code} {P : (Nat → Bool) → Prop} {bm : Nat → Option block}
    (hS : Shaped code P bm) (hC : Closed code bm []) {e : Nat}
    (he : (code e).isSome = true → (bm e).isSome = true) {d : Nat}
    (hd : BranchTarget code e d) (hcd : (code d).isSome = true) : (bm d).isSome = true := by
  obtain ⟨x, l, hr, hc, hcase⟩ := hd
  obtain ⟨bs, ls, br, hbf, hcl⟩ := reach_covered hS hC he x hr (by rw [hc]; rfl)
  rcases hcase with ⟨hb, rfl⟩ | ⟨hb, hu, rfl⟩ | ⟨hg, rfl⟩
  · exact hcl _ ((BlockFrom_head hbf hc).1 hb).1 hcd
  · exact hcl _ (((BlockFrom_head hbf hc).1 hb).2 hu) hcd
  · exact hcl _ ((BlockFrom_head hbf hc).2.1 hg) hcd

/-! ## Properties: processed function entries -/

theorem buildFunction_processed {code : Code} {fuel a : Nat} {g g1 : Graph}
    (hI : Shaped code (fun _ => True) g.blockMap ∧ Closed code g.blockMap [])
    (h : buildFunction code fuel g a = .ok g1) : Processed code fuel a g1 := by
  have hI1 := buildFunction_tables h hI
  obtain ⟨p1, r, hp, hl, rfl⟩ := buildFunction_ok h
  have hlen := loop2_length _ _ _ _ hl
  simp only [List.length_singleton] at hlen
  refine ⟨p1, hp, setKey_same _ _ _, hlen, ?_, ?_⟩
  · intro d hd hcd
    refine target_has_block hI1.1 hI1.2 ?_ ((pass1_spec hp).1 d |>.1 hd) hcd
    intro hca
    exact loop2_created hl (List.mem_singleton.2 rfl) hca
  · intro l hc
    obtain ⟨n, rfl⟩ : ∃ n, fuel = n + 1 := ⟨fuel - 1, by omega⟩
    obtain ⟨ls, br, hbf, hlen2, h2⟩ := loop2_step hc hl
    refine ⟨ls, br, hbf, hlen2, ?_, ?_⟩
    · have hk := loop2_keep h2 (k := a) (by rw [setKey_same]; rfl)
        (by
          intro hm
          rcases List.mem_append.1 hm with hm | hm
          · exact (mem_pushed.1 hm).2.1 rfl
          · cases hm)
      show r.2 a = _
      rw [hk, setKey_same]
    · have hl3 := loop2_length _ _ _ _ h2
      simp only [List.append_nil, pushed, List.length_reverse] at hl3
      have hle : (br.filter (fun d => (code d).isNone)).length
          ≤ (br.filter (fun d => !(decide (d = a) || (g.blockMap d).isSome))).length := by
        rw [← List.countP_eq_length_filter, ← List.countP_eq_length_filter]
        apply List.countP_mono_left
        intro d _ hd
        have hcn : code d = none := by simpa using hd
        have hda : d ≠ a := by
          intro e; rw [e, hc] at hcn; cases hcn
        have hbn : g.blockMap d = none := by
          cases hb : g.blockMap d with
          | none => rfl
          | some b =>
            obtain ⟨l1, _, _, hc1, _⟩ := hI.1 d b hb
            rw [hcn] at hc1; cases hc1
        simp [hda, hbn]
      omega

theorem processed_keep {code : Code} {fuel a f : Nat} {g g1 : Graph}
    (hP : Processed code fuel a g) (hne : a ≠ f)
    (h : buildFunction code fuel g f = .ok g1) : Processed code fuel a g1 := by
  obtain ⟨p1, hp, hfn, h2, hcov, hblk⟩ := hP
  obtain ⟨q1, r, _, hl, rfl⟩ := buildFunction_ok h
  refine ⟨p1, hp, ?_, h2, ?_, ?_⟩
  · show setKey g.fnGraph f q1.calls a = _
    rw [setKey_other _ _ hne]; exact hfn
  · intro d hd hcd
    exact loop2_mono hl (hcov d hd hcd)
  · intro l hc
    obtain ⟨ls, br, hbf, hlen, hb, hcl⟩ := hblk l hc
    refine ⟨ls, br, hbf, hlen, ?_, hcl⟩
    show r.2 a = _
    rw [loop2_keep hl (by rw [hb]; rfl) (by simpa using hne)]
    exact hb

theorem buildGraphFrom_processed {code : Code} {fuel : Nat} :
    ∀ fs g g1, buildGraphFrom code fuel fs g = .ok g1 →
      Shaped code (fun _ => True) g.blockMap ∧ Closed code g.blockMap [] →
      (∀ a, Processed code fuel a g → Processed code fuel a g1)
        ∧ (∀ a ∈ fs, Processed code fuel a g1) := by
  intro fs
  induction fs with
  | nil =>
    intro g g1 h _
    simp only [buildGraphFrom, Except.ok.injEq] at h
    subst h
    exact ⟨fun _ h => h, fun a ha => by cases ha⟩
  | cons f rest ih =>
    intro g g1 h hI
    unfold buildGraphFrom at h
    cases hb : buildFunction code fuel g f with
    | error e => simp [hb] at h
    | ok g2 =>
      simp only [hb] at h
      obtain ⟨ih1, ih2⟩ := ih g2 g1 h (buildFunction_tables hb hI)
      have step : ∀ a, Processed code fuel a g → Processed code fuel a g2 := by
        intro a ha
        by_cases haf : a = f
        · subst haf; exact buildFunction_processed hI hb
        · exact processed_keep ha haf hb
      refine ⟨fun a ha => ih1 a (step a ha), ?_⟩
      intro a ha
      rcases List.mem_cons.1 ha with rfl | ha
      · exact ih1 a (buildFunction_processed hI hb)
      · exact ih2 a ha

theorem buildGraph_processed {code : Code} {fuel : Nat} {fs : List Nat} {g : Graph}
    (h : buildGraph code fuel fs = .ok g) {a : Nat} (ha : a ∈ fs) :
    Processed code fuel a g := by
  refine (buildGraphFrom_processed fs _ g h ⟨?_, ?_⟩).2 a ha
  · intro k b hk; cases hk
  · intro k b hk; cases hk

/-! ## Properties: block starts and the call graph -/

/-- C10: after `buildGraph`, for every function entry `e` of the list,
`fnGraph[e]` is exactly the set of the resolved targets (`relativeJumpLoc` of
an RCALL, `jumpLoc` of a CALL) of the call instructions that the pass-1 walk
from `e` reaches. -/
theorem callgraph_complete (code : Code) (fuel : Nat) (fs : List Nat) (g : Graph)
    (hrun : buildGraph code fuel fs = .ok g) (e : Nat) (he : e ∈ fs) :
    ∃ calls, g.fnGraph e = some calls ∧
      ∀ d, calls d = true ↔
        ∃ x l, Reach code e x ∧ code x = some l ∧
          ((l.isRCALL = true ∧ l.relativeJumpLoc = d) ∨ (l.isCALL = true ∧ l.jumpLoc = d)) := by
  obtain ⟨p1, hp, hfn, _⟩ := buildGraph_processed hrun he
  exact ⟨p1.calls, hfn, (pass1_spec hp).2⟩

/-- C2: after `buildGraph` finishes, every address that pass 1 of some
function of the list marked as a block start and that has an instruction has a
block in the final table, with that address as its `addr`. -/
theorem boundary_complete (code : Code) (fuel : Nat) (fs : List Nat) (g : Graph)
    (hkey : code.keyed) (hrun : buildGraph code fuel fs = .ok g) (e : Nat) (he : e ∈ fs)
    (p1 : Pass1) (hp : pass1 code fuel e = .ok p1) (d : Nat) (hd : p1.bStart d = true)
    (l : line) (hc : code d = some l) :
    ∃ b, g.blockMap d = some b ∧ b.addr = d := by
  obtain ⟨q1, hq, _, _, hcov, _⟩ := buildGraph_processed hrun he
  rw [hp] at hq
  cases hq
  obtain ⟨b, hb⟩ := Option.isSome_iff_exists.1 (hcov d hd (by rw [hc]; rfl))
  obtain ⟨l1, _, _, hc1, ha, _⟩ := (buildGraph_tables hrun).1 d b hb
  exact ⟨b, hb, by rw [ha, hkey d l1 hc1]⟩

/-! ## Properties: processing an entry again -/

theorem buildGraphFrom_append {code : Code} {fuel a : Nat} :
    ∀ fs g, buildGraphFrom code fuel (fs ++ [a]) g =
      match buildGraphFrom code fuel fs g with
      | .error e => .error e
      | .ok g1 => buildFunction code fuel g1 a := by
  intro fs
  induction fs with
  | nil =>
    intro g
    simp only [List.nil_append, buildGraphFrom]
    cases buildFunction code fuel g a <;> rfl
  | cons f rest ih =>
    intro g
    simp only [List.cons_append, buildGraphFrom]
    cases buildFunction code fuel g f with
    | error e => rfl
    | ok g2 => exact ih g2

theorem buildFunction_again {code : Code} {fuel a : Nat} {g : Graph}
    (hP : Processed code fuel a g) (hC : Closed code g.blockMap []) :
    ∃ g1, buildFunction code fuel g a = .ok g1
      ∧ (∀ k, g1.blockMap k = g.blockMap k) ∧ (∀ k, g1.fnGraph k = g.fnGraph k) := by
  obtain ⟨p1, hp, hfn, h2, _, hblk⟩ := hP
  obtain ⟨n, rfl⟩ : ∃ n, fuel = n + 1 := ⟨fuel - 1, by omega⟩
  have hfn2 : ∀ k, setKey g.fnGraph a p1.calls k = g.fnGraph k := by
    intro k
    by_cases hk : k = a
    · rw [hk, setKey_same, hfn]
    · rw [setKey_other _ _ hk]
  cases hc : code a with
  | none =>
    have hl : loop2 code p1.bStart (n + 1) (n + 1) [a] g.blockMap = .ok ([], g.blockMap) := by
      rw [loop2_skip hc]
      exact loop2_codeless _ _ _ (by simp; omega) (fun d hd => by cases hd)
    refine ⟨⟨g.blockMap, setKey g.fnGraph a p1.calls⟩, ?_, fun _ => rfl, hfn2⟩
    simp [buildFunction, hp, hl]
  | some l =>
    obtain ⟨ls, br, hbf, hlen, hb, hcl⟩ := hblk l hc
    have hcodeless : ∀ d ∈ pushed g.blockMap a br, code d = none := by
      intro d hd
      obtain ⟨hd1, _, hd3⟩ := mem_pushed.1 hd
      cases hcd : code d with
      | none => rfl
      | some l1 =>
        rcases hC a _ hb d hd1 (by rw [hcd]; rfl) with h | h
        · rw [hd3] at h; cases h
        · cases h
    have hcount : (pushed g.blockMap a br).length
        ≤ (br.filter (fun d => (code d).isNone)).length := by
      unfold pushed
      rw [List.length_reverse, ← List.countP_eq_length_filter, ← List.countP_eq_length_filter]
      apply List.countP_mono_left
      intro d hd hq
      have hm : d ∈ pushed g.blockMap a br := by
        rw [mem_pushed]
        simp only [Bool.not_eq_true', Bool.or_eq_false_iff, decide_eq_false_iff_not] at hq
        refine ⟨hd, hq.1, ?_⟩
        cases hbd : g.blockMap d with
        | none => rfl
        | some v => rw [hbd] at hq; cases hq.2
      rw [hcodeless d hm]
      rfl
    have hl : loop2 code p1.bStart (n + 1) (n + 1) [a] g.blockMap
        = .ok ([], setKey g.blockMap a ⟨l.addr, ls, br⟩) := by
      rw [loop2_build hc hbf hlen]
      apply loop2_codeless
      · simp only [List.append_nil]; omega
      · simpa using hcodeless
    refine ⟨⟨setKey g.blockMap a ⟨l.addr, ls, br⟩, setKey g.fnGraph a p1.calls⟩, ?_, ?_, hfn2⟩
    · simp [buildFunction, hp, hl]
    · intro k
      show setKey g.blockMap a ⟨l.addr, ls, br⟩ k = _
      by_cases hk : k = a
      · rw [hk, setKey_same, hb]
      · rw [setKey_other _ _ hk]

/-- C9: if `buildGraph` finishes on `fs` and `a` occurs in `fs`, then
`buildGraph` on `fs` followed by a second occurrence of `a` finishes with the
same fuel and gives the same block table and the same call graph. -/
theorem idempotent_reprocessing (code : Code) (fuel : Nat) (fs : List Nat) (g : Graph)
    (a : Nat) (hrun : buildGraph code fuel fs = .ok g) (ha : a ∈ fs) :
    ∃ g1, buildGraph code fuel (fs ++ [a]) = .ok g1
      ∧ (∀ k, g1.blockMap k = g.blockMap k) ∧ (∀ k, g1.fnGraph k = g.fnGraph k) := by
  obtain ⟨g1, h1, h2, h3⟩ :=
    buildFunction_again (buildGraph_processed hrun ha) (buildGraph_tables hrun).2
  refine ⟨g1, ?_, h2, h3⟩
  unfold buildGraph at hrun ⊢
  rw [buildGraphFrom_append, hrun]
  exact h1

/-! ## Properties: blocks of one function -/

theorem relativeJumpLoc_lt (l : line) : l.relativeJumpLoc < 65536 :=
  Nat.mod_lt _ (by decide)

theorem jumpLoc_lt (l : line) : l.jumpLoc < 65536 :=
  Nat.mod_lt _ (by decide)

theorem bStart_lt {code : Code} {fuel e : Nat} {p1 : Pass1}
    (h : pass1 code fuel e = .ok p1) {d : Nat} (hd : p1.bStart d = true) : d < 65536 := by
  obtain ⟨x, l, _, _, (⟨_, rfl⟩ | ⟨_, _, rfl⟩ | ⟨_, rfl⟩)⟩ := ((pass1_spec h).1 d).1 hd
  · exact relativeJumpLoc_lt l
  · exact Nat.mod_lt _ (by decide)
  · exact jumpLoc_lt l

/-- The line at position `i` of a block from `f` is the instruction at
`f + 2*i`, and no position but the first is a block start. -/
theorem BlockFrom_get {code : Code} {bs : Nat → Bool} {f : Nat} {ls : List line}
    {br : List Nat} (h : BlockFrom code bs f ls br) (hf : f < 65536) :
    ∀ i l, ls[i]? = some l →
      code ((f + 2 * i) % 65536) = some l ∧ (0 < i → bs ((f + 2 * i) % 65536) = false) := by
  have single : ∀ (f : Nat) (l0 : line), f < 65536 → code f = some l0 →
      ∀ i l, [l0][i]? = some l →
        code ((f + 2 * i) % 65536) = some l ∧ (0 < i → bs ((f + 2 * i) % 65536) = false) := by
    intro f l0 hf hc i l hi
    cases i with
    | zero =>
      simp only [List.getElem?_cons_zero, Option.some.injEq] at hi
      subst hi
      refine ⟨?_, fun h => absurd h (by decide)⟩
      rw [Nat.mul_zero, Nat.add_zero, Nat.mod_eq_of_lt hf]
      exact hc
    | succ i => simp at hi
  induction h with
  | ret hc _ => exact single _ _ hf hc
  | braCond hc _ _ _ => exact single _ _ hf hc
  | braUncond hc _ _ _ => exact single _ _ hf hc
  | goto hc _ _ _ => exact single _ _ hf hc
  | gotoReg hc _ _ _ _ => exact single _ _ hf hc
  | join hc _ _ => exact single _ _ hf hc
  | @step f l0 ls br hc hp hj hbf ih =>
    intro i l hi
    cases i with
    | zero =>
      simp only [List.getElem?_cons_zero, Option.some.injEq] at hi
      subst hi
      refine ⟨?_, fun h => absurd h (by decide)⟩
      rw [Nat.mul_zero, Nat.add_zero, Nat.mod_eq_of_lt hf]
      exact hc
    | succ i =>
      simp only [List.getElem?_cons_succ] at hi
      have e : ((f + 2) % 65536 + 2 * i) % 65536 = (f + 2 * (i + 1)) % 65536 := by omega
      obtain ⟨h1, h2⟩ := ih (Nat.mod_lt _ (by decide)) i l hi
      rw [e] at h1 h2
      refine ⟨h1, fun _ => ?_⟩
      cases i with
      | zero => simpa using hj
      | succ i => exact h2 (Nat.succ_pos _)

theorem buildGraph_single_shaped {code : Code} {fuel e : Nat} {g : Graph} {p1 : Pass1}
    (hrun : buildGraph code fuel [e] = .ok g) (hp : pass1 code fuel e = .ok p1) :
    Shaped code (fun bs => bs = p1.bStart) g.blockMap := by
  unfold buildGraph buildGraphFrom at hrun
  cases hb : buildFunction code fuel { blockMap := fun _ => none, fnGraph := fun _ => none } e with
  | error err => simp [hb] at hrun
  | ok g2 =>
    simp only [hb, buildGraphFrom, Except.ok.injEq] at hrun
    subst hrun
    obtain ⟨q1, r, hq, hl, rfl⟩ := buildFunction_ok hb
    rw [hp] at hq
    cases hq
    exact loop2_shaped (P := fun bs => bs = p1.bStart) rfl hl (by intro k b hk; cases hk)

/-- The successors of a block built from an address the walk of pass 1
reaches are reached too, and each is a branch target or a block start. -/
theorem BlockFrom_branches {code : Code} {bs : Nat → Bool} {e f : Nat} {ls : List line}
    {br : List Nat} (h : BlockFrom code bs f ls br) (hr : Reach code e f) :
    ∀ d ∈ br, Reach code e d ∧ (BranchTarget code e d ∨ bs d = true) := by
  induction h with
  | ret _ _ => intro d hd; cases hd
  | @braCond f l hc _ hb hu =>
    intro d hd
    rcases List.mem_cons.1 hd with rfl | hd
    · exact ⟨Reach.taken hr hc hb, Or.inl ⟨f, l, hr, hc, Or.inl ⟨hb, rfl⟩⟩⟩
    · rcases List.mem_singleton.1 hd with rfl
      exact ⟨Reach.fallthrough hr hc hb hu,
        Or.inl ⟨f, l, hr, hc, Or.inr (Or.inl ⟨hb, hu, rfl⟩)⟩⟩
  | @braUncond f l hc _ hb _ =>
    intro d hd
    rcases List.mem_singleton.1 hd with rfl
    exact ⟨Reach.taken hr hc hb, Or.inl ⟨f, l, hr, hc, Or.inl ⟨hb, rfl⟩⟩⟩
  | @goto f l hc _ _ hg =>
    intro d hd
    rcases List.mem_singleton.1 hd with rfl
    exact ⟨Reach.jump hr hc hg, Or.inl ⟨f, l, hr, hc, Or.inr (Or.inr ⟨hg, rfl⟩)⟩⟩
  | gotoReg _ _ _ _ _ => intro d hd; cases hd
  | @join f l hc hp hj =>
    intro d hd
    rcases List.mem_singleton.1 hd with rfl
    exact ⟨Reach.next hr hc hp, Or.inr hj⟩
  | @step f l ls br hc hp _ _ ih => exact ih (Reach.next hr hc hp)

/-- For a single function entry every block starts at the entry or at an
address pass 1 marked. -/
theorem buildGraph_single_keys {code : Code} {fuel e : Nat} {g : Graph} {p1 : Pass1}
    (hrun : buildGraph code fuel [e] = .ok g) (hp : pass1 code fuel e = .ok p1) :
    ∀ k, (g.blockMap k).isSome = true → k = e ∨ p1.bStart k = true := by
  unfold buildGraph buildGraphFrom at hrun
  cases hb : buildFunction code fuel { blockMap := fun _ => none, fnGraph := fun _ => none } e with
  | error err => simp [hb] at hrun
  | ok g2 =>
    simp only [hb, buildGraphFrom, Except.ok.injEq] at hrun
    subst hrun
    obtain ⟨q1, r, hq, hl, rfl⟩ := buildFunction_ok hb
    rw [hp] at hq
    cases hq
    have key := (loop2_induct
      (fun s bm => (∀ a ∈ s, Reach code e a ∧ (a = e ∨ p1.bStart a = true))
        ∧ (∀ k, (bm k).isSome = true → k = e ∨ p1.bStart k = true))
      ?_ ?_ fuel [e] _ r hl ⟨?_, ?_⟩).2.2
    · exact key
    · intro f s bm _ hI
      exact ⟨fun a ha => hI.1 a (List.mem_cons_of_mem _ ha), hI.2⟩
    · intro f s bm l ls br _ hbf hI
      obtain ⟨hrf, hkf⟩ := hI.1 f (List.mem_cons_self _ _)
      constructor
      · intro a ha
        rcases List.mem_append.1 ha with ha | ha
        · obtain ⟨h1, h2⟩ := BlockFrom_branches hbf hrf a (mem_pushed.1 ha).1
          refine ⟨h1, Or.inr ?_⟩
          rcases h2 with h2 | h2
          · exact ((pass1_spec hp).1 a).2 h2
          · exact h2
        · exact hI.1 a (List.mem_cons_of_mem _ ha)
      · intro k hk
        by_cases hkf2 : k = f
        · rw [hkf2]; exact hkf
        · rw [setKey_other _ _ hkf2] at hk
          exact hI.2 k hk
    · intro a ha
      rcases List.mem_singleton.1 ha with rfl
      exact ⟨Reach.entry, Or.inl rfl⟩
    · intro k hk
      cases hk

/-- Disjointness at the marked block starts of one function: for `buildGraph`
on a single function entry `e`, two blocks of the final table with different
start addresses share no instruction address, unless one of them is the block
at the entry `e` and pass 1 did not mark `e` as a block start. -/
theorem no_overlap_marked (code : Code) (fuel e : Nat) (g : Graph) (p1 : Pass1)
    (hkey : code.keyed) (hrun : buildGraph code fuel [e] = .ok g)
    (hp : pass1 code fuel e = .ok p1) (k1 k2 : Nat) (b1 b2 : block)
    (h1 : g.blockMap k1 = some b1) (h2 : g.blockMap k2 = some b2)
    (hne : b1.addr ≠ b2.addr)
    (hm : b1.addr = e ∨ b2.addr = e → p1.bStart e = true)
    (l1 l2 : line) (hl1 : l1 ∈ b1.lines) (hl2 : l2 ∈ b2.lines) : l1.addr ≠ l2.addr := by
  have hS := buildGraph_single_shaped hrun hp
  have hK := buildGraph_single_keys hrun hp
  obtain ⟨m1, bs1, rfl, hc1, ha1, hbf1⟩ := hS k1 b1 h1
  obtain ⟨m2, bs2, hbs2, hc2, ha2, hbf2⟩ := hS k2 b2 h2
  subst hbs2
  rw [hkey _ _ hc1] at ha1
  rw [hkey _ _ hc2] at ha2
  rw [ha1, ha2] at hne hm
  have hs1 : p1.bStart k1 = true := by
    rcases hK k1 (by rw [h1]; rfl) with h | h
    · rw [h]; exact hm (Or.inl h)
    · exact h
  have hs2 : p1.bStart k2 = true := by
    rcases hK k2 (by rw [h2]; rfl) with h | h
    · rw [h]; exact hm (Or.inr h)
    · exact h
  have hk1 := bStart_lt hp hs1
  have hk2 := bStart_lt hp hs2
  obtain ⟨i, hi⟩ := List.getElem?_of_mem hl1
  obtain ⟨j, hj⟩ := List.getElem?_of_mem hl2
  have g1 := BlockFrom_get hbf1 hk1
  have g2 := BlockFrom_get hbf2 hk2
  have e1 := hkey _ _ (g1 i l1 hi).1
  have e2 := hkey _ _ (g2 j l2 hj).1
  intro heq
  rw [e1, e2] at heq
  have hilt : i < b1.lines.length := (List.getElem?_eq_some.1 hi).1
  have hjlt : j < b2.lines.length := (List.getElem?_eq_some.1 hj).1
  rcases Nat.lt_trichotomy i j with hij | hij | hij
  · have hpos : j - i < b2.lines.length := by omega
    have hm := (g2 (j - i) _ (List.getElem?_eq_getElem hpos)).2 (by omega)
    have : (k2 + 2 * (j - i)) % 65536 = k1 := by omega
    rw [this, hs1] at hm
    cases hm
  · subst hij
    apply hne
    omega
  · have hpos : i - j < b1.lines.length := by omega
    have hm := (g1 (i - j) _ (List.getElem?_eq_getElem hpos)).2 (by omega)
    have : (k1 + 2 * (i - j)) % 65536 = k2 := by omega
    rw [this, hs2] at hm
    cases hm

/-- C4, as amended: `buildGraph` never tests `isCALLREG`; an indirect call via
register is walked like any plain instruction.  Pass 1 goes on at `addr+2`
without a mark or a call edge for it; pass 2 adds it to the block and goes on
at `addr+2`, closing the block after it only when `addr+2` is a block start;
a block of the final table that ends with it has the single successor
`addr+2`. -/
theorem callreg_is_plain (code : Code) (fuel : Nat) (fs : List Nat) (g : Graph)
    (hkey : code.keyed) (hrun : buildGraph code fuel fs = .ok g) (f : Nat) (l : line)
    (hc : code f = some l) (hcr : l.isCALLREG = true) :
    (∀ n st, walk1 code (n + 1) f st = walk1 code n ((f + 2) % 65536) st)
      ∧ (∀ bs bm n b s, walk2 code bs bm (n + 1) f b s =
          if bs ((f + 2) % 65536) = true then
            .ok ((b.addLine (some l)).addBranch ((f + 2) % 65536),
              (if (bm ((f + 2) % 65536)).isSome = true then s else (f + 2) % 65536 :: s), f)
          else walk2 code bs bm n ((f + 2) % 65536) (b.addLine (some l)) s)
      ∧ (∀ k b, g.blockMap k = some b → b.lines.getLast? = some l →
          b.branches = [(l.addr + 2) % 65536]) := by
  obtain ⟨h1, h2, h3, h4⟩ := isPlain_iff.1 (isCALLREG_isPlain hcr)
  obtain ⟨h5, h6⟩ := isCALLREG_not_call hcr
  refine ⟨?_, ?_, ?_⟩
  · intro n st
    simp [walk1, hc, h1, h2, h3, h4, h5, h6]
  · intro bs bm n b s
    simp only [walk2, hc, h1, h2, h3, h4, branchTo]
    rfl
  · intro k b hb hl
    obtain ⟨_, bs, _, _, _, hbf⟩ := (buildGraph_tables hrun).1 k b hb
    obtain ⟨a, l1, hc1, hl1, _, _, _, _, h7⟩ := BlockFrom_last hbf
    rw [hl] at hl1
    cases hl1
    rw [hkey a _ hc1]
    exact (h7 (isCALLREG_isPlain hcr)).1

/-! ## Counterexamples and instances -/

/-- C1: the code breaks the claim at these inputs.  With the entries `0x10`
and `0x12` over straight-line code the blocks at `0x10` and `0x12` both hold
the instructions at `0x12` and `0x14`.  With the single entry `0x02` inside a
loop, pass 1 marks `0x00` but never the entry itself, and the block at `0x00`
runs over the block at `0x02`.  With the entries `0x00` and `0x10`, where the
BRA at `0x10` joins the first function at `0x02`, pass 1 of the second
function marks `0x02`, yet the block at `0x00` built for the first function
stays whole and overlaps the block at `0x02`; with the entry `0x10` alone the
block at `0x00` is cut before `0x02`. -/
theorem no_overlap_violated :
    (codeOf overlapTable).keyed
      ∧ buildGraph (codeOf overlapTable) 10 [0x10, 0x12] = .ok overlapGraph
      ∧ overlapGraph.blockMap 0x10
          = some ⟨0x10, [⟨0x10, 0, 0, 0, 0⟩, ⟨0x12, 0, 0, 0, 0⟩, ⟨0x14, 0, 6, 0, 0⟩], []⟩
      ∧ overlapGraph.blockMap 0x12
          = some ⟨0x12, [⟨0x12, 0, 0, 0, 0⟩, ⟨0x14, 0, 6, 0, 0⟩], []⟩
      ∧ (codeOf loopTable).keyed
      ∧ buildGraph (codeOf loopTable) 10 [0x02] = .ok loopGraph
      ∧ pass1 (codeOf loopTable) 10 0x02 = .ok loopPass1
      ∧ loopPass1.bStart 0x00 = true
      ∧ loopPass1.bStart 0x02 = false
      ∧ loopGraph.blockMap 0x00
          = some ⟨0x00, [⟨0x00, 0, 0, 0, 0⟩, ⟨0x02, 0, 0, 0, 0⟩, ⟨0x04, 0, 4, 0, 0⟩], [0x00]⟩
      ∧ loopGraph.blockMap 0x02
          = some ⟨0x02, [⟨0x02, 0, 0, 0, 0⟩, ⟨0x04, 0, 4, 0, 0⟩], [0x00]⟩
      ∧ (codeOf lostJoinTable).keyed
      ∧ buildGraph (codeOf lostJoinTable) 10 [0x00, 0x10] = .ok lostJoinGraph
      ∧ pass1 (codeOf lostJoinTable) 10 0x10 = .ok lostJoinPass1
      ∧ lostJoinPass1.bStart 0x02 = true
      ∧ lostJoinGraph.blockMap 0x00
          = some ⟨0x00, [⟨0x00, 0, 0, 0, 0⟩, ⟨0x02, 0, 0, 0, 0⟩, ⟨0x04, 0, 6, 0, 0⟩], []⟩
      ∧ lostJoinGraph.blockMap 0x02
          = some ⟨0x02, [⟨0x02, 0, 0, 0, 0⟩, ⟨0x04, 0, 6, 0, 0⟩], []⟩
      ∧ buildGraph (codeOf lostJoinTable) 10 [0x10] = .ok lostJoinAloneGraph
      ∧ lostJoinAloneGraph.blockMap 0x00 = some ⟨0x00, [⟨0x00, 0, 0, 0, 0⟩], [0x02]⟩
      ∧ lostJoinAloneGraph.blockMap 0x02
          = some ⟨0x02, [⟨0x02, 0, 0, 0, 0⟩, ⟨0x04, 0, 6, 0, 0⟩], []⟩ :=
  ⟨codeOf_keyed _, rfl, by decide, by decide, codeOf_keyed _, rfl, rfl, by decide, by decide,
    by decide, by decide, codeOf_keyed _, rfl, rfl, by decide, by decide, by decide, rfl,
    by decide, by decide⟩

theorem no_overlap_marked_witness :
    (codeOf selfLoopTable).keyed
      ∧ buildGraph (codeOf selfLoopTable) 10 [0x00] = .ok selfLoopGraph
      ∧ pass1 (codeOf selfLoopTable) 10 0x00 = .ok selfLoopPass1
      ∧ selfLoopGraph.blockMap 0x00
          = some ⟨0x00, [⟨0x00, 0, 0x32, 0x7F, 0xFF⟩], [0x00, 0x02]⟩
      ∧ selfLoopGraph.blockMap 0x02 = some ⟨0x02, [⟨0x02, 0, 6, 0, 0⟩], []⟩
      ∧ selfLoopPass1.bStart 0x00 = true
      ∧ (⟨0x00, 0, 0x32, 0x7F, 0xFF⟩ : line).addr ≠ (⟨0x02, 0, 6, 0, 0⟩ : line).addr :=
  ⟨codeOf_keyed _, rfl, rfl, by decide, by decide, by decide,
    no_overlap_marked (codeOf selfLoopTable) 10 0x00 selfLoopGraph selfLoopPass1
      (codeOf_keyed _) rfl rfl 0x00 0x02
      ⟨0x00, [⟨0x00, 0, 0x32, 0x7F, 0xFF⟩], [0x00, 0x02]⟩ ⟨0x02, [⟨0x02, 0, 6, 0, 0⟩], []⟩
      (by decide) (by decide) (by decide) (fun _ => by decide)
      ⟨0x00, 0, 0x32, 0x7F, 0xFF⟩ ⟨0x02, 0, 6, 0, 0⟩ (by decide) (by decide)⟩

theorem boundary_complete_witness :
    (codeOf sharedTable).keyed
      ∧ buildGraph (codeOf sharedTable) 10 [0x10, 0x20] = .ok sharedGraph
      ∧ 0x20 ∈ [0x10, 0x20]
      ∧ pass1 (codeOf sharedTable) 10 0x20 = .ok sharedPass1
      ∧ sharedPass1.bStart 0x12 = true
      ∧ codeOf sharedTable 0x12 = some ⟨0x12, 0, 0, 0, 0⟩
      ∧ ∃ b, sharedGraph.blockMap 0x12 = some b ∧ b.addr = 0x12 :=
  ⟨codeOf_keyed _, rfl, by decide, rfl, by decide, by decide,
    boundary_complete (codeOf sharedTable) 10 [0x10, 0x20] sharedGraph (codeOf_keyed _) rfl
      0x20 (by decide) sharedPass1 rfl 0x12 (by decide) ⟨0x12, 0, 0, 0, 0⟩ (by decide)⟩

theorem successors_match_last_witness :
    (codeOf branchTable).keyed
      ∧ buildGraph (codeOf branchTable) 10 [0x00] = .ok branchGraph
      ∧ branchGraph.blockMap 0x00 = some ⟨0x00, [⟨0x00, 0, 0x32, 0, 1⟩], [0x04, 0x02]⟩
      ∧ [(⟨0x00, 0, 0x32, 0, 1⟩ : line)].getLast? = some ⟨0x00, 0, 0x32, 0, 1⟩
      ∧ line.isBRA ⟨0x00, 0, 0x32, 0, 1⟩ = true
      ∧ line.isBRAUnconditional ⟨0x00, 0, 0x32, 0, 1⟩ = false
      ∧ [0x04, 0x02]
          = [line.relativeJumpLoc ⟨0x00, 0, 0x32, 0, 1⟩, (0x00 + 2) % 65536] :=
  ⟨codeOf_keyed _, rfl, by decide, by decide, by decide, by decide,
    (successors_match_last (codeOf branchTable) 10 [0x00] branchGraph (codeOf_keyed _) rfl 0x00
      ⟨0x00, [⟨0x00, 0, 0x32, 0, 1⟩], [0x04, 0x02]⟩ ⟨0x00, 0, 0x32, 0, 1⟩ (by decide)
      (by decide)).1 (by decide) (by decide)⟩

/-- C4 fails as stated.  The CALL-indirect(reg) at `0x00` is the first of three
lines of its block, whose last line is the RETURN at `0x04`, and pass 1 walked
past it: the RCALL at `0x02`, reached only through it, gave the call edge to
`0x06`. -/
theorem callreg_counterexample :
    buildGraph (codeOf callregTable) 10 [0x00] = .ok callregGraph
      ∧ line.isCALLREG ⟨0x00, 0, 1, 0, 0⟩ = true
      ∧ callregGraph.blockMap 0x00
          = some ⟨0x00, [⟨0x00, 0, 1, 0, 0⟩, ⟨0x02, 0, 7, 0, 1⟩, ⟨0x04, 0, 6, 0, 0⟩], []⟩
      ∧ callregGraph.blockMap 0x02 = none
      ∧ (callregGraph.fnGraph 0x00).map (fun calls => calls 0x06) = some true :=
  ⟨rfl, by decide, by decide, by decide, by decide⟩

theorem callreg_is_plain_witness :
    (codeOf callregTable).keyed
      ∧ buildGraph (codeOf callregTable) 10 [0x00] = .ok callregGraph
      ∧ codeOf callregTable 0x00 = some ⟨0x00, 0, 1, 0, 0⟩
      ∧ line.isCALLREG ⟨0x00, 0, 1, 0, 0⟩ = true
      ∧ walk1 (codeOf callregTable) 5 0x00 branchPass1
          = walk1 (codeOf callregTable) 4 ((0x00 + 2) % 65536) branchPass1 :=
  ⟨codeOf_keyed _, rfl, by decide, by decide,
    (callreg_is_plain (codeOf callregTable) 10 [0x00] callregGraph (codeOf_keyed _) rfl 0x00
      ⟨0x00, 0, 1, 0, 0⟩ (by decide) (by decide)).1 4 branchPass1⟩

theorem idempotent_reprocessing_witness :
    buildGraph (codeOf branchTable) 10 [0x00] = .ok branchGraph
      ∧ 0x00 ∈ [0x00]
      ∧ ∃ g1, buildGraph (codeOf branchTable) 10 ([0x00] ++ [0x00]) = .ok g1
          ∧ (∀ k, g1.blockMap k = branchGraph.blockMap k)
          ∧ (∀ k, g1.fnGraph k = branchGraph.fnGraph k) :=
  ⟨rfl, by decide,
    idempotent_reprocessing (codeOf branchTable) 10 [0x00] branchGraph 0x00 rfl (by decide)⟩

theorem callgraph_complete_witness :
    buildGraph (codeOf callregTable) 10 [0x00] = .ok callregGraph
      ∧ 0x00 ∈ [0x00]
      ∧ ∃ calls, callregGraph.fnGraph 0x00 = some calls ∧
          ∀ d, calls d = true ↔
            ∃ x l, Reach (codeOf callregTable) 0x00 x ∧ codeOf callregTable x = some l ∧
              ((l.isRCALL = true ∧ l.relativeJumpLoc = d)
                ∨ (l.isCALL = true ∧ l.jumpLoc = d)) :=
  ⟨rfl, by decide,
    callgraph_complete (codeOf callregTable) 10 [0x00] callregGraph rfl 0x00 (by decide)⟩

/-! ## Properties: the shape of a block -/

theorem BlockFrom_first {code : Code} {bs : Nat → Bool} {f : Nat} {ls : List line}
    {br : List Nat} (h : BlockFrom code bs f ls br) : ls[0]? = code f := by
  cases h with
  | ret hc _ => simp [hc]
  | braCond hc _ _ _ => simp [hc]
  | braUncond hc _ _ _ => simp [hc]
  | goto hc _ _ _ => simp [hc]
  | gotoReg hc _ _ _ _ => simp [hc]
  | join hc _ _ => simp [hc]
  | step hc _ _ _ => simp [hc]

theorem BlockFrom_ne_nil {code : Code} {bs : Nat → Bool} {f : Nat} {ls : List line}
    {br : List Nat} (h : BlockFrom code bs f ls br) : ls ≠ [] := by
  cases h <;> simp

/-- Every line of a block but the last is plain. -/
theorem BlockFrom_init_plain {code : Code} {bs : Nat → Bool} {f : Nat} {ls : List line}
    {br : List Nat} (h : BlockFrom code bs f ls br) :
    ∀ i l, ls[i]? = some l → i + 1 < ls.length → l.isPlain = true := by
  induction h with
  | ret _ _ => intro i l _ hi; simp at hi
  | braCond _ _ _ _ => intro i l _ hi; simp at hi
  | braUncond _ _ _ _ => intro i l _ hi; simp at hi
  | goto _ _ _ _ => intro i l _ hi; simp at hi
  | gotoReg _ _ _ _ _ => intro i l _ hi; simp at hi
  | join _ _ _ => intro i l _ hi; simp at hi
  | step hc hp _ _ ih =>
    intro i l hl hi
    cases i with
    | zero =>
      simp only [List.getElem?_cons_zero, Option.some.injEq] at hl
      exact hl ▸ hp
    | succ i =>
      simp only [List.getElem?_cons_succ] at hl
      exact ih i l hl (by simpa using hi)

/-- No line of a block but the first sits at a block start. -/
theorem BlockFrom_tail_unmarked {code : Code} {bs : Nat → Bool} {f : Nat} {ls : List line}
    {br : List Nat} (h : BlockFrom code bs f ls br) :
    ∀ i l, ls[i]? = some l → 0 < i → ∃ x, code x = some l ∧ bs x = false := by
  induction h with
  | ret _ _ => intro i l hl hi; cases i <;> simp at hl hi
  | braCond _ _ _ _ => intro i l hl hi; cases i <;> simp at hl hi
  | braUncond _ _ _ _ => intro i l hl hi; cases i <;> simp at hl hi
  | goto _ _ _ _ => intro i l hl hi; cases i <;> simp at hl hi
  | gotoReg _ _ _ _ _ => intro i l hl hi; cases i <;> simp at hl hi
  | join _ _ _ => intro i l hl hi; cases i <;> simp at hl hi
  | @step f l0 ls br hc hp hj hbf ih =>
    intro i l hl hi
    cases i with
    | zero => cases hi
    | succ i =>
      simp only [List.getElem?_cons_succ] at hl
      cases i with
      | zero =>
        rw [BlockFrom_first hbf] at hl
        exact ⟨_, hl, hj⟩
      | succ i => exact ih (i + 1) l hl (Nat.succ_pos _)

/-- A plain line whose next address is a block start closes its block. -/
theorem BlockFrom_join_last {code : Code} {bs : Nat → Bool} {f : Nat} {ls : List line}
    {br : List Nat} (h : BlockFrom code bs f ls br) (hkey : code.keyed) :
    ∀ l ∈ ls, l.isPlain = true → bs ((l.addr + 2) % 65536) = true →
      ls.getLast? = some l ∧ br = [(l.addr + 2) % 65536] := by
  have single : ∀ (l0 l : line), l0.isPlain = false → l ∈ [l0] → l.isPlain = true → False := by
    intro l0 l h0 hl hp
    rw [List.mem_singleton.1 hl, h0] at hp
    cases hp
  induction h with
  | ret _ hr => intro l hl hp _; exact (single _ l (by simp [line.isPlain, hr]) hl hp).elim
  | braCond _ _ hb _ =>
    intro l hl hp _; exact (single _ l (by simp [line.isPlain, hb]) hl hp).elim
  | braUncond _ _ hb _ =>
    intro l hl hp _; exact (single _ l (by simp [line.isPlain, hb]) hl hp).elim
  | goto _ _ _ hg =>
    intro l hl hp _; exact (single _ l (by simp [line.isPlain, hg]) hl hp).elim
  | gotoReg _ _ _ _ hgr =>
    intro l hl hp _; exact (single _ l (by simp [line.isPlain, hgr]) hl hp).elim
  | @join f l0 hc _ hj =>
    intro l hl _ _
    rw [List.mem_singleton.1 hl, hkey f l0 hc]
    exact ⟨rfl, rfl⟩
  | @step f l0 ls br hc _ hj hbf ih =>
    intro l hl hp hm
    rcases List.mem_cons.1 hl with rfl | hl
    · rw [hkey f l hc, hj] at hm; cases hm
    · obtain ⟨h1, h2⟩ := ih l hl hp hm
      refine ⟨?_, h2⟩
      cases ls with
      | nil => cases hl
      | cons x xs => rw [List.getLast?_cons_cons]; exact h1

/-- C20: after `buildGraph` finishes, every successor of every block of the
final table that has an instruction has a block starting there; a successor
without a block is an address without an instruction. -/
theorem edges_closed (code : Code) (fuel : Nat) (fs : List Nat) (g : Graph)
    (hkey : code.keyed) (hrun : buildGraph code fuel fs = .ok g)
    (k : Nat) (b : block) (hb : g.blockMap k = some b) (s : Nat) (hs : s ∈ b.branches) :
    (∀ l, code s = some l → ∃ b1, g.blockMap s = some b1 ∧ b1.addr = s)
      ∧ (g.blockMap s = none → code s = none) := by
  obtain ⟨hS, hC⟩ := buildGraph_tables hrun
  have key : ∀ l, code s = some l → ∃ b1, g.blockMap s = some b1 ∧ b1.addr = s := by
    intro l hl
    rcases hC k b hb s hs (by rw [hl]; rfl) with h | h
    · obtain ⟨b1, hb1⟩ := Option.isSome_iff_exists.1 h
      obtain ⟨l1, _, _, hc1, ha, _⟩ := hS s b1 hb1
      exact ⟨b1, hb1, by rw [ha, hkey s l1 hc1]⟩
    · cases h
  refine ⟨key, ?_⟩
  intro hn
  cases hc : code s with
  | none => rfl
  | some l =>
    obtain ⟨b1, hb1, _⟩ := key l hc
    rw [hn] at hb1
    cases hb1

/-- C18: with a table keyed by each instruction's own `uint16` address, every
block of the final table is stored under its own `addr`, has at least one
instruction, its first instruction is at `addr`, its `i`-th instruction is at
`addr + 2*i` modulo `2^16`, the last included, and only its last instruction
can be a BRA, GOTO, GOTO-indirect or RETURN. -/
theorem block_shape (code : Code) (fuel : Nat) (fs : List Nat) (g : Graph)
    (hkey : code.keyed) (hdom : code.inRange) (hrun : buildGraph code fuel fs = .ok g)
    (k : Nat) (b : block) (hb : g.blockMap k = some b) :
    b.addr = k ∧ b.lines ≠ [] ∧ b.lines.head?.map line.addr = some b.addr
      ∧ ∀ i l, b.lines[i]? = some l →
          l.addr = (b.addr + 2 * i) % 65536
            ∧ (i + 1 < b.lines.length →
                l.isBRA = false ∧ l.isGOTO = false ∧ l.isGOTOREG = false
                  ∧ l.isRETURN = false) := by
  obtain ⟨l0, bs, _, hc0, ha, hbf⟩ := (buildGraph_tables hrun).1 k b hb
  have hak : b.addr = k := by rw [ha, hkey k l0 hc0]
  refine ⟨hak, BlockFrom_ne_nil hbf, ?_, ?_⟩
  · rw [List.head?_eq_getElem?, BlockFrom_first hbf, hc0, ha]
    rfl
  · intro i l hl
    constructor
    · rw [hak, hkey _ _ (BlockFrom_get hbf (hdom k l0 hc0) i l hl).1]
    · intro hi
      obtain ⟨h1, h2, h3, h4⟩ := isPlain_iff.1 (BlockFrom_init_plain hbf i l hl hi)
      exact ⟨h2, h3, h4, h1⟩

/-- C11: for `buildGraph` on a single function entry, no block holds at a
position other than its first an instruction whose address pass 1 marked as a
block start; a plain instruction at `a` with `a+2` marked is the last of its
block, whose successor list is `[a+2]`; in the scenario of the late join
(conditional BRA at `0x00` to `0x10`, straight-line code from `0x02` into
`0x10`) the result is the three blocks starting at `0x00`, `0x02`, `0x10`. -/
theorem forced_join_boundary (code : Code) (fuel e : Nat) (g : Graph) (p1 : Pass1)
    (hkey : code.keyed) (hrun : buildGraph code fuel [e] = .ok g)
    (hp : pass1 code fuel e = .ok p1) :
    (∀ k b i l, g.blockMap k = some b → b.lines[i]? = some l → 0 < i →
        p1.bStart l.addr = false)
      ∧ (∀ k b l, g.blockMap k = some b → l ∈ b.lines → l.isPlain = true →
          p1.bStart ((l.addr + 2) % 65536) = true →
          b.lines.getLast? = some l ∧ b.branches = [(l.addr + 2) % 65536])
      ∧ (buildGraph (codeOf joinTable) 12 [0x00] = .ok joinGraph
          ∧ joinGraph.blockMap 0x00 = some ⟨0x00, [⟨0x00, 0, 0x32, 0, 7⟩], [0x10, 0x02]⟩
          ∧ joinGraph.blockMap 0x02
              = some ⟨0x02, [⟨0x02, 0, 0, 0, 0⟩, ⟨0x04, 0, 0, 0, 0⟩, ⟨0x06, 0, 0, 0, 0⟩,
                  ⟨0x08, 0, 0, 0, 0⟩, ⟨0x0A, 0, 0, 0, 0⟩, ⟨0x0C, 0, 0, 0, 0⟩,
                  ⟨0x0E, 0, 0, 0, 0⟩], [0x10]⟩
          ∧ joinGraph.blockMap 0x10 = some ⟨0x10, [⟨0x10, 0, 6, 0, 0⟩], []⟩
          ∧ ∀ k, (joinGraph.blockMap k).isSome = true → k = 0x00 ∨ k = 0x02 ∨ k = 0x10) := by
  have hS := buildGraph_single_shaped hrun hp
  refine ⟨?_, ?_, rfl, by decide, by decide, by decide, ?_⟩
  · intro k b i l hb hl hi
    obtain ⟨_, bs, rfl, _, _, hbf⟩ := hS k b hb
    obtain ⟨x, hx, hbx⟩ := BlockFrom_tail_unmarked hbf i l hl hi
    rw [hkey x l hx]
    exact hbx
  · intro k b l hb hl hpl hm
    obtain ⟨_, bs, rfl, _, _, hbf⟩ := hS k b hb
    exact BlockFrom_join_last hbf hkey l hl hpl hm
  · intro k hk
    have hbs : joinPass1.bStart = setTrue (setTrue (fun _ => false) 0x10) 0x02 := rfl
    rcases @buildGraph_single_keys (codeOf joinTable) 12 0x00 joinGraph joinPass1 rfl rfl
        k hk with h | h
    · exact Or.inl h
    · rw [hbs] at h
      rcases setTrue_true h with h | h
      · exact Or.inr (Or.inl h)
      · rcases setTrue_true h with h | h
        · exact Or.inr (Or.inr h)
        · cases h

theorem BlockFrom_at_return {code : Code} {bs : Nat → Bool} {f : Nat} {ls : List line}
    {br : List Nat} (h : BlockFrom code bs f ls br) {r : line} (hc : code f = some r)
    (hr : r.isRETURN = true) : ls = [r] ∧ br = [] := by
  cases h with
  | ret h1 _ => rw [hc] at h1; cases h1; exact ⟨rfl, rfl⟩
  | braCond h1 h2 _ _ => rw [hc] at h1; cases h1; rw [hr] at h2; cases h2
  | braUncond h1 h2 _ _ => rw [hc] at h1; cases h1; rw [hr] at h2; cases h2
  | goto h1 h2 _ _ => rw [hc] at h1; cases h1; rw [hr] at h2; cases h2
  | gotoReg h1 h2 _ _ _ => rw [hc] at h1; cases h1; rw [hr] at h2; cases h2
  | join h1 h2 _ =>
    rw [hc] at h1; cases h1
    have := (isPlain_iff.1 h2).1
    rw [hr] at this; cases this
  | step h1 h2 _ _ =>
    rw [hc] at h1; cases h1
    have := (isPlain_iff.1 h2).1
    rw [hr] at this; cases this

/-- C15, as amended: a block that pass 2 closes at a forced join ends with the
plain instruction at `a`; nothing is appended after it, also when the
instruction at `a+2` is a RETURN.  The inner loop stops with `f` still at
`a`, so the statement after the loop appends nothing; in the final table a
block whose last instruction is plain has the successor list `[a+2]` and holds
no RETURN, and a RETURN in a block is its last instruction, with no
successor.  A RETURN at `a+2` is not in the block closed at `a`; it is held by
the block that starts at `a+2`, which is that RETURN alone.  In a run on a
single function entry `a+2` is marked by pass 1 of that entry and the
instruction at `a+2` is in no block but the one that starts at `a+2`. -/
theorem forced_join_appends_nothing (code : Code) (fuel : Nat) (fs : List Nat) (g : Graph)
    (hkey : code.keyed) (hrun : buildGraph code fuel fs = .ok g) :
    (∀ bs bm n f b s l, code f = some l → l.isPlain = true →
        bs ((f + 2) % 65536) = true →
        walk2 code bs bm (n + 1) f b s
            = .ok ((b.addLine (some l)).addBranch ((f + 2) % 65536),
                (if (bm ((f + 2) % 65536)).isSome = true then s else (f + 2) % 65536 :: s), f)
          ∧ ∀ b1, closeBlock code f b1 = .ok b1)
      ∧ (∀ k b l, g.blockMap k = some b → b.lines.getLast? = some l → l.isPlain = true →
          b.branches = [(l.addr + 2) % 65536] ∧ ∀ r ∈ b.lines, r.isRETURN = false)
      ∧ (∀ k b r, g.blockMap k = some b → r ∈ b.lines → r.isRETURN = true →
          b.lines.getLast? = some r ∧ b.branches = [])
      ∧ (∀ k b l r, g.blockMap k = some b → b.lines.getLast? = some l → l.isPlain = true →
          code ((l.addr + 2) % 65536) = some r → r.isRETURN = true →
          r ∉ b.lines ∧ g.blockMap ((l.addr + 2) % 65536) = some ⟨r.addr, [r], []⟩)
      ∧ (∀ e p1, fs = [e] → pass1 code fuel e = .ok p1 →
          ∀ k b l r, g.blockMap k = some b → b.lines.getLast? = some l → l.isPlain = true →
            code ((l.addr + 2) % 65536) = some r →
            p1.bStart ((l.addr + 2) % 65536) = true
              ∧ ∀ k2 b2, g.blockMap k2 = some b2 → r ∈ b2.lines →
                  k2 = (l.addr + 2) % 65536) := by
  have hS := (buildGraph_tables hrun).1
  have hC := (buildGraph_tables hrun).2
  have last_of : ∀ (ls : List line) (i : Nat) (r : line), ls[i]? = some r →
      ¬ (i + 1 < ls.length) → ls.getLast? = some r := by
    intro ls i r hr hi
    have hlt : i < ls.length := (List.getElem?_eq_some.1 hr).1
    have : ls.length - 1 = i := by omega
    rw [List.getLast?_eq_getElem?, this, hr]
  have hjoin : ∀ k b l, g.blockMap k = some b → b.lines.getLast? = some l →
      l.isPlain = true →
      b.branches = [(l.addr + 2) % 65536] ∧ ∀ r ∈ b.lines, r.isRETURN = false := by
    intro k b l hb hl hp
    obtain ⟨_, bs, _, _, _, hbf⟩ := hS k b hb
    obtain ⟨a, l1, hc1, hl1, _, _, _, _, h7⟩ := BlockFrom_last hbf
    rw [hl] at hl1
    cases hl1
    refine ⟨by rw [hkey a _ hc1]; exact (h7 hp).1, ?_⟩
    intro r hr
    obtain ⟨i, hi⟩ := List.getElem?_of_mem hr
    by_cases hlt : i + 1 < b.lines.length
    · exact (isPlain_iff.1 (BlockFrom_init_plain hbf i r hi hlt)).1
    · have := last_of _ _ _ hi hlt
      rw [hl] at this
      cases this
      exact (isPlain_iff.1 hp).1
  refine ⟨?_, hjoin, ?_, ?_, ?_⟩
  · intro bs bm n f b s l hc hp hb
    obtain ⟨h1, h2, h3, h4⟩ := isPlain_iff.1 hp
    constructor
    · simp only [walk2, hc, h1, h2, h3, h4, hb, branchTo]
      rfl
    · intro b1
      simp [closeBlock, hc, h1]
  · intro k b r hb hr hret
    obtain ⟨_, bs, _, _, _, hbf⟩ := hS k b hb
    obtain ⟨i, hi⟩ := List.getElem?_of_mem hr
    have hlast : b.lines.getLast? = some r := by
      apply last_of _ _ _ hi
      intro hlt
      have := (isPlain_iff.1 (BlockFrom_init_plain hbf i r hi hlt)).1
      rw [hret] at this
      cases this
    obtain ⟨a, l1, _, hl1, _, _, _, h6, _⟩ := BlockFrom_last hbf
    rw [hlast] at hl1
    cases hl1
    exact ⟨hlast, h6 (Or.inl hret)⟩
  · intro k b l r hb hl hp hcr hret
    obtain ⟨hbr, hno⟩ := hjoin k b l hb hl hp
    refine ⟨?_, ?_⟩
    · intro hmem
      have := hno r hmem
      rw [hret] at this
      cases this
    · have hsome := hC k b hb ((l.addr + 2) % 65536) (by rw [hbr]; exact List.mem_singleton.2 rfl)
        (by rw [hcr]; rfl)
      rcases hsome with hsome | hsome
      · obtain ⟨b2, hb2⟩ := Option.isSome_iff_exists.1 hsome
        obtain ⟨l2, bs2, _, hc2, ha2, hbf2⟩ := hS _ b2 hb2
        rw [hcr] at hc2
        cases hc2
        obtain ⟨hls, hbrs⟩ := BlockFrom_at_return hbf2 hcr hret
        rw [hb2]
        rcases b2 with ⟨a2, ls2, br2⟩
        simp only at ha2 hls hbrs
        rw [ha2, hls, hbrs]
      · cases hsome
  · intro e p1 hfs hp1 k b l r hb hl hp hcr
    subst hfs
    have hS1 := buildGraph_single_shaped hrun hp1
    obtain ⟨_, bs, hbs, _, _, hbf⟩ := hS1 k b hb
    subst hbs
    obtain ⟨a, l1, hc1, hl1, _, _, _, _, h7⟩ := BlockFrom_last hbf
    rw [hl] at hl1
    cases hl1
    have hmark : p1.bStart ((l.addr + 2) % 65536) = true := by
      rw [hkey a _ hc1]; exact (h7 hp).2
    refine ⟨hmark, ?_⟩
    intro k2 b2 hb2 hr2
    obtain ⟨_, bs2, hbs2, _, _, hbf2⟩ := hS1 k2 b2 hb2
    subst hbs2
    obtain ⟨i, hi⟩ := List.getElem?_of_mem hr2
    rcases Nat.eq_zero_or_pos i with h0 | hpos
    · subst h0
      rw [BlockFrom_first hbf2] at hi
      rw [← hkey _ _ hi, hkey _ _ hcr]
    · obtain ⟨x, hx, hbx⟩ := BlockFrom_tail_unmarked hbf2 i r hi hpos
      rw [← hkey _ _ hx, hkey _ _ hcr, hmark] at hbx
      cases hbx

/-! ## Properties: targets without an instruction -/

theorem pass1_closed {code : Code} {fuel e : Nat} {p1 : Pass1}
    (h : pass1 code fuel e = .ok p1) :
    p1.s = [] ∧ Complete1 code p1 ∧ p1.visited e = true := by
  obtain ⟨hl, hs⟩ := pass1_ok h
  obtain ⟨hC, hve, _⟩ := loop1_complete (e := e) hl
    (by intro v hv; simp at hv) (Or.inr (List.mem_singleton.2 rfl))
  exact ⟨hs, hC, hve⟩

/-- Every branch target of the walk is visited when pass 1 is over. -/
theorem pass1_target_visited {code : Code} {fuel e : Nat} {p1 : Pass1}
    (h : pass1 code fuel e = .ok p1) {d : Nat} (hd : BranchTarget code e d) :
    p1.visited d = true := by
  obtain ⟨hs, hC, hve⟩ := pass1_closed h
  have seen : ∀ d, Seen p1 d → p1.visited d = true := by
    intro d hd
    rcases hd.2 with h2 | h2
    · exact h2
    · rw [hs] at h2; cases h2
  have cover : ∀ x, Reach code e x → ∃ v, p1.visited v = true ∧ Straight code v x := by
    intro x hx
    induction hx with
    | entry => exact ⟨e, hve, Straight.here⟩
    | next _ hc hp ih =>
      obtain ⟨v, hv, hst⟩ := ih
      exact ⟨v, hv, hst.snoc hc hp⟩
    | taken _ hc hb ih =>
      obtain ⟨v, hv, hst⟩ := ih
      exact ⟨_, seen _ ((hC v hv _ _ hst hc).1 hb), Straight.here⟩
    | fallthrough _ hc hb hu ih =>
      obtain ⟨v, hv, hst⟩ := ih
      exact ⟨_, seen _ ((hC v hv _ _ hst hc).2.1 hb hu), Straight.here⟩
    | jump _ hc hg ih =>
      obtain ⟨v, hv, hst⟩ := ih
      exact ⟨_, seen _ ((hC v hv _ _ hst hc).2.2.1 hg), Straight.here⟩
  obtain ⟨x, l, hr, hc, (⟨hb, rfl⟩ | ⟨hb, hu, rfl⟩ | ⟨hg, rfl⟩)⟩ := hd
  · obtain ⟨v, hv, hst⟩ := cover x hr
    exact seen _ ((hC v hv _ _ hst hc).1 hb)
  · obtain ⟨v, hv, hst⟩ := cover x hr
    exact seen _ ((hC v hv _ _ hst hc).2.1 hb hu)
  · obtain ⟨v, hv, hst⟩ := cover x hr
    exact seen _ ((hC v hv _ _ hst hc).2.2.1 hg)

/-- C16, as amended: when a BRA or GOTO that the walk of pass 1 reaches has a
target without an instruction, the target is still recorded as a block start
(`bStart` is set before anything is looked up) and pushed; popping it only
marks it visited, so the path ends there, and the address gets no block. -/
theorem missing_target_marked (code : Code) (fuel : Nat) (fs : List Nat) (g : Graph)
    (e : Nat) (p1 : Pass1) (hrun : buildGraph code fuel fs = .ok g)
    (hp : pass1 code fuel e = .ok p1) (x : Nat) (l : line) (d : Nat)
    (hr : Reach code e x) (hc : code x = some l)
    (ht : (l.isBRA = true ∧ d = l.relativeJumpLoc) ∨ (l.isGOTO = true ∧ d = l.jumpLoc))
    (hmiss : code d = none) :
    p1.bStart d = true ∧ p1.visited d = true ∧ g.blockMap d = none
      ∧ (∀ n (st : Pass1) rest, st.s = d :: rest →
          loop1 code fuel (n + 1) st
            = loop1 code fuel n { st with s := rest, visited := setTrue st.visited d }) := by
  have hd : BranchTarget code e d := by
    rcases ht with ⟨hb, hd⟩ | ⟨hg, hd⟩
    · exact ⟨x, l, hr, hc, Or.inl ⟨hb, hd⟩⟩
    · exact ⟨x, l, hr, hc, Or.inr (Or.inr ⟨hg, hd⟩)⟩
  refine ⟨((pass1_spec hp).1 d).2 hd, pass1_target_visited hp hd, ?_, ?_⟩
  · cases hb : g.blockMap d with
    | none => rfl
    | some b =>
      obtain ⟨l1, _, _, hc1, _⟩ := (buildGraph_tables hrun).1 d b hb
      rw [hmiss] at hc1
      cases hc1
  · intro n st rest hs
    simp [loop1, hs, hmiss]

/-! ## Properties: sign extension -/

theorem relativeJumpLoc_mul (l : line) (h2 : l.op2 < 256) (h3 : l.op3 < 256) :
    l.relativeJumpLoc = (l.addr + ((l.op2 * 256 + l.op3) * 2) % 65536 + 2) % 65536 := by
  unfold line.relativeJumpLoc
  simp only [Nat.shiftLeft_eq]
  have a1 : l.op2 % 65536 = l.op2 := Nat.mod_eq_of_lt (by omega)
  have a2 : l.op3 % 65536 = l.op3 := Nat.mod_eq_of_lt (by omega)
  have a3 : l.op2 * 2 ^ 8 % 65536 = l.op2 * 256 := by omega
  have a4 : (l.op2 * 256 + l.op3) % 65536 = l.op2 * 256 + l.op3 := by omega
  rw [a1, a2, a3, a4]

/-- C17, as amended: the missing sign extension changes no target.  For every
address and every offset field, also with its top bit set, `relativeJumpLoc`
equals the target computed with the field sign-extended as a signed 16-bit
word offset, `(addr + 2*signed(field) + 2) mod 2^16`: the wrap-around of the
`uint16` shift and addition does what the sign extension would do. -/
theorem relativeJumpLoc_sign_extended (l : line) (h2 : l.op2 < 256) (h3 : l.op3 < 256) :
    (l.relativeJumpLoc : Int) = l.signExtendedJumpLoc := by
  rw [relativeJumpLoc_mul l h2 h3]
  unfold line.signExtendedJumpLoc signed16
  rw [or_eq_add_byte _ _ h3, Nat.shiftLeft_eq]
  split
  · push_cast
    omega
  · push_cast
    omega

/-- C17 fails as stated.  At address `0x0100` the offset field `0xFFFF` has
its top bit set (a branch back by one word), and `relativeJumpLoc` returns
`0x0100`, which is the sign-extended target `0x0100 + 2*(-1) + 2`. -/
theorem sign_extension_counterexample :
    32768 ≤ ((0xFF <<< 8) ||| 0xFF : Nat)
      ∧ signed16 ((0xFF <<< 8) ||| 0xFF) = -1
      ∧ line.relativeJumpLoc ⟨0x0100, 0x00, 0x37, 0xFF, 0xFF⟩ = 0x0100
      ∧ line.signExtendedJumpLoc ⟨0x0100, 0x00, 0x37, 0xFF, 0xFF⟩ = 0x0100 :=
  ⟨by decide, by decide, by decide, by decide⟩

theorem relativeJumpLoc_sign_extended_witness :
    (0x80 : Nat) < 256 ∧ (0x01 : Nat) < 256
      ∧ (line.relativeJumpLoc ⟨0x4000, 0x00, 0x32, 0x80, 0x01⟩ : Int)
          = line.signExtendedJumpLoc ⟨0x4000, 0x00, 0x32, 0x80, 0x01⟩ :=
  ⟨by decide, by decide,
    relativeJumpLoc_sign_extended ⟨0x4000, 0x00, 0x32, 0x80, 0x01⟩ (by decide) (by decide)⟩

/-! ## Properties: memory image -/

theorem foldl_storeLine_mem (post : List line) (st : Listing) (c : Nat)
    (h : ∀ q ∈ post, ¬ writesCell q c) :
    (post.foldl storeLine st).mem c = st.mem c := by
  induction post generalizing st with
  | nil => rfl
  | cons q rest ih =>
    rw [List.foldl_cons, ih _ (fun q1 hq1 => h q1 (List.mem_cons_of_mem _ hq1))]
    have hq := h q (List.mem_cons_self _ _)
    unfold writesCell at hq
    have h1 : c ≠ q.addr % 65536 := fun e => hq (Or.inl e.symm)
    have h2 : c ≠ (q.addr % 65536 + 1) % 65536 := fun e => hq (Or.inr e.symm)
    simp only [storeLine]
    rw [setKey_other _ _ h2, setKey_other _ _ h1]

theorem derefVector_cells (mem : Nat → Option Nat) (a lo hi : Nat) (h1 : mem a = some lo)
    (h2 : mem ((a + 1) % 65536) = some hi) (hlo : lo < 256) (hhi : hi < 256) :
    derefVector mem a = hi * 256 + lo := by
  unfold derefVector
  simp only [h1, h2, Option.getD_some]
  have a1 : hi % 65536 = hi := Nat.mod_eq_of_lt (by omega)
  have a2 : lo % 65536 = lo := Nat.mod_eq_of_lt (by omega)
  have a3 : hi <<< 8 % 65536 = hi <<< 8 := by
    rw [Nat.shiftLeft_eq]
    exact Nat.mod_eq_of_lt (by omega)
  rw [a1, a2, a3, or_eq_add_byte _ _ hlo, Nat.shiftLeft_eq]

/-- C19: after the listing is loaded, an instruction at `a` with opcode
`[b0,b1,b2,b3]` whose two cells no later line overwrites has `b3` at `a` and
`b2` at `a+1` in the memory image; dereferencing a vector row with address `a`
gives `b2*256 + b3`, which is `jumpLoc` of that instruction; a row whose two
cells are missing gives 0. -/
theorem memory_image (pre post : List line) (r : line)
    (h2 : r.op2 < 256) (h3 : r.op3 < 256)
    (hpost : ∀ q ∈ post, ¬ writesCell q (r.addr % 65536)
      ∧ ¬ writesCell q ((r.addr % 65536 + 1) % 65536)) :
    (parseInput (pre ++ r :: post)).mem (r.addr % 65536) = some r.op3
      ∧ (parseInput (pre ++ r :: post)).mem ((r.addr % 65536 + 1) % 65536) = some r.op2
      ∧ derefVector (parseInput (pre ++ r :: post)).mem (r.addr % 65536)
          = r.op2 * 256 + r.op3
      ∧ derefVector (parseInput (pre ++ r :: post)).mem (r.addr % 65536)
          = line.jumpLoc { r with addr := r.addr % 65536 }
      ∧ (∀ a, (parseInput (pre ++ r :: post)).mem a = none →
          (parseInput (pre ++ r :: post)).mem ((a + 1) % 65536) = none →
          derefVector (parseInput (pre ++ r :: post)).mem a = 0) := by
  have hm1 : (parseInput (pre ++ r :: post)).mem (r.addr % 65536) = some r.op3 := by
    unfold parseInput
    rw [List.foldl_append, List.foldl_cons, foldl_storeLine_mem _ _ _ (fun q hq => (hpost q hq).1)]
    simp only [storeLine]
    rw [setKey_other _ _ (by omega), setKey_same]
  have hm2 : (parseInput (pre ++ r :: post)).mem ((r.addr % 65536 + 1) % 65536)
      = some r.op2 := by
    unfold parseInput
    rw [List.foldl_append, List.foldl_cons, foldl_storeLine_mem _ _ _ (fun q hq => (hpost q hq).2)]
    simp only [storeLine]
    rw [setKey_same]
  have hd := derefVector_cells _ _ _ _ hm1 hm2 h3 h2
  refine ⟨hm1, hm2, hd, ?_, ?_⟩
  · rw [hd]
    unfold line.jumpLoc
    simp only [Nat.shiftLeft_eq]
    omega
  · intro a ha1 ha2
    simp [derefVector, ha1, ha2]

theorem memory_image_witness :
    (0xAB : Nat) < 256 ∧ (0xCD : Nat) < 256
      ∧ (∀ q ∈ [(⟨0x0004, 0, 4, 0x56, 0x78⟩ : line)],
          ¬ writesCell q (0x0100 % 65536) ∧ ¬ writesCell q ((0x0100 % 65536 + 1) % 65536))
      ∧ parseInput vectorListing = parseInput
          ([⟨0x0004, 0, 4, 0x12, 0x34⟩] ++ ⟨0x0100, 0, 0, 0xAB, 0xCD⟩
            :: [⟨0x0004, 0, 4, 0x56, 0x78⟩])
      ∧ (parseInput vectorListing).mem 0x0100 = some 0xCD
      ∧ (parseInput vectorListing).mem 0x0101 = some 0xAB
      ∧ derefVector (parseInput vectorListing).mem 0x0100 = 0xABCD
      ∧ derefVector (parseInput vectorListing).mem 0x0004 = 0x5678
      ∧ derefVector (parseInput vectorListing).mem 0x0200 = 0 :=
  ⟨by decide, by decide, by decide, rfl,
    (memory_image [⟨0x0004, 0, 4, 0x12, 0x34⟩] [⟨0x0004, 0, 4, 0x56, 0x78⟩]
      ⟨0x0100, 0, 0, 0xAB, 0xCD⟩ (by decide) (by decide) (by decide)).1,
    (memory_image [⟨0x0004, 0, 4, 0x12, 0x34⟩] [⟨0x0004, 0, 4, 0x56, 0x78⟩]
      ⟨0x0100, 0, 0, 0xAB, 0xCD⟩ (by decide) (by decide) (by decide)).2.1,
    by decide, by decide, by decide⟩

/-! ## Counterexamples and instances: blocks -/

theorem edges_closed_witness :
    (codeOf branchTable).keyed
      ∧ buildGraph (codeOf branchTable) 10 [0x00] = .ok branchGraph
      ∧ branchGraph.blockMap 0x00 = some ⟨0x00, [⟨0x00, 0, 0x32, 0, 1⟩], [0x04, 0x02]⟩
      ∧ 0x04 ∈ [0x04, 0x02]
      ∧ codeOf branchTable 0x04 = some ⟨0x04, 0, 6, 0, 0⟩
      ∧ ∃ b1, branchGraph.blockMap 0x04 = some b1 ∧ b1.addr = 0x04 :=
  ⟨codeOf_keyed _, rfl, by decide, by decide, by decide,
    (edges_closed (codeOf branchTable) 10 [0x00] branchGraph (codeOf_keyed _) rfl 0x00
      ⟨0x00, [⟨0x00, 0, 0x32, 0, 1⟩], [0x04, 0x02]⟩ (by decide) 0x04 (by decide)).1
      ⟨0x04, 0, 6, 0, 0⟩ (by decide)⟩

theorem codeOf_inRange (ls : List line) (h : ∀ l ∈ ls, l.addr < 65536) :
    (codeOf ls).inRange := by
  intro a l hl
  obtain ⟨hm, ha⟩ := codeOf_some hl
  rw [← ha]
  exact h l hm

theorem block_shape_witness :
    (codeOf joinTable).keyed ∧ (codeOf joinTable).inRange
      ∧ buildGraph (codeOf joinTable) 12 [0x00] = .ok joinGraph
      ∧ joinGraph.blockMap 0x02 = some joinBlock
      ∧ joinBlock.lines[6]? = some ⟨0x0E, 0, 0, 0, 0⟩
      ∧ (⟨0x0E, 0, 0, 0, 0⟩ : line).addr = (joinBlock.addr + 2 * 6) % 65536 :=
  ⟨codeOf_keyed _, codeOf_inRange _ (by decide), rfl, by decide, by decide,
    ((block_shape (codeOf joinTable) 12 [0x00] joinGraph (codeOf_keyed _)
      (codeOf_inRange _ (by decide)) rfl 0x02 joinBlock (by decide)).2.2.2 6
        ⟨0x0E, 0, 0, 0, 0⟩ (by decide)).1⟩

theorem forced_join_boundary_witness :
    (codeOf joinTable).keyed
      ∧ buildGraph (codeOf joinTable) 12 [0x00] = .ok joinGraph
      ∧ pass1 (codeOf joinTable) 12 0x00 = .ok joinPass1
      ∧ joinGraph.blockMap 0x02 = some joinBlock
      ∧ (⟨0x0E, 0, 0, 0, 0⟩ : line) ∈ joinBlock.lines
      ∧ line.isPlain ⟨0x0E, 0, 0, 0, 0⟩ = true
      ∧ joinPass1.bStart ((0x0E + 2) % 65536) = true
      ∧ (joinBlock.lines.getLast? = some ⟨0x0E, 0, 0, 0, 0⟩
          ∧ joinBlock.branches = [(0x0E + 2) % 65536]) :=
  ⟨codeOf_keyed _, rfl, rfl, by decide, by decide, by decide, by decide,
    (forced_join_boundary (codeOf joinTable) 12 0x00 joinGraph joinPass1 (codeOf_keyed _)
      rfl rfl).2.1 0x02 joinBlock ⟨0x0E, 0, 0, 0, 0⟩ (by decide) (by decide) (by decide)
      (by decide)⟩

/-- C15 fails as stated.  Pass 1 marks `0x04`, where a RETURN stands; pass 2
closes the block at `0x02` after the NOP at `0x02` because `0x04` is marked,
and that block holds the NOP alone: the RETURN is not appended to it. -/
theorem forced_join_return_counterexample :
    buildGraph (codeOf branchTable) 10 [0x00] = .ok branchGraph
      ∧ pass1 (codeOf branchTable) 10 0x00 = .ok branchPass1
      ∧ line.isPlain ⟨0x02, 0, 0, 0, 0⟩ = true
      ∧ branchPass1.bStart (0x02 + 2) = true
      ∧ codeOf branchTable (0x02 + 2) = some ⟨0x04, 0, 6, 0, 0⟩
      ∧ line.isRETURN ⟨0x04, 0, 6, 0, 0⟩ = true
      ∧ branchGraph.blockMap 0x02 = some ⟨0x02, [⟨0x02, 0, 0, 0, 0⟩], [0x04]⟩
      ∧ branchGraph.blockMap 0x04 = some ⟨0x04, [⟨0x04, 0, 6, 0, 0⟩], []⟩ :=
  ⟨rfl, rfl, by decide, by decide, by decide, by decide, by decide, by decide⟩

theorem forced_join_appends_nothing_witness :
    (codeOf branchTable).keyed
      ∧ buildGraph (codeOf branchTable) 10 [0x00] = .ok branchGraph
      ∧ pass1 (codeOf branchTable) 10 0x00 = .ok branchPass1
      ∧ branchGraph.blockMap 0x02 = some ⟨0x02, [⟨0x02, 0, 0, 0, 0⟩], [0x04]⟩
      ∧ [(⟨0x02, 0, 0, 0, 0⟩ : line)].getLast? = some ⟨0x02, 0, 0, 0, 0⟩
      ∧ line.isPlain ⟨0x02, 0, 0, 0, 0⟩ = true
      ∧ [0x04] = [((⟨0x02, 0, 0, 0, 0⟩ : line).addr + 2) % 65536]
      ∧ codeOf branchTable (((⟨0x02, 0, 0, 0, 0⟩ : line).addr + 2) % 65536)
          = some ⟨0x04, 0, 6, 0, 0⟩
      ∧ line.isRETURN ⟨0x04, 0, 6, 0, 0⟩ = true
      ∧ branchGraph.blockMap (((⟨0x02, 0, 0, 0, 0⟩ : line).addr + 2) % 65536)
          = some ⟨(⟨0x04, 0, 6, 0, 0⟩ : line).addr, [⟨0x04, 0, 6, 0, 0⟩], []⟩
      ∧ branchPass1.bStart (((⟨0x02, 0, 0, 0, 0⟩ : line).addr + 2) % 65536) = true :=
  ⟨codeOf_keyed _, rfl, rfl, by decide, by decide, by decide,
    ((forced_join_appends_nothing (codeOf branchTable) 10 [0x00] branchGraph (codeOf_keyed _)
      rfl).2.1 0x02 ⟨0x02, [⟨0x02, 0, 0, 0, 0⟩], [0x04]⟩ ⟨0x02, 0, 0, 0, 0⟩ (by decide)
      (by decide) (by decide)).1,
    by decide, by decide,
    ((forced_join_appends_nothing (codeOf branchTable) 10 [0x00] branchGraph (codeOf_keyed _)
      rfl).2.2.2.1 0x02 ⟨0x02, [⟨0x02, 0, 0, 0, 0⟩], [0x04]⟩ ⟨0x02, 0, 0, 0, 0⟩
      ⟨0x04, 0, 6, 0, 0⟩ (by decide) (by decide) (by decide) (by decide) (by decide)).2,
    ((forced_join_appends_nothing (codeOf branchTable) 10 [0x00] branchGraph (codeOf_keyed _)
      rfl).2.2.2.2 0x00 branchPass1 rfl rfl 0x02 ⟨0x02, [⟨0x02, 0, 0, 0, 0⟩], [0x04]⟩
      ⟨0x02, 0, 0, 0, 0⟩ ⟨0x04, 0, 6, 0, 0⟩ (by decide) (by decide) (by decide)
      (by decide)).1⟩

/-- C16 fails as stated.  The GOTO at `0x00` has the target `0x0100`, where
the table holds no instruction, and pass 1 ends with `bStart[0x0100]` set. -/
theorem missing_target_counterexample :
    pass1 (codeOf missingTable) 10 0x00 = .ok missingPass1
      ∧ codeOf missingTable 0x00 = some ⟨0x00, 0, 4, 0x01, 0x00⟩
      ∧ line.isGOTO ⟨0x00, 0, 4, 0x01, 0x00⟩ = true
      ∧ line.jumpLoc ⟨0x00, 0, 4, 0x01, 0x00⟩ = 0x0100
      ∧ codeOf missingTable 0x0100 = none
      ∧ missingPass1.bStart 0x0100 = true :=
  ⟨rfl, by decide, by decide, by decide, by decide, by decide⟩

theorem missing_target_marked_witness :
    buildGraph (codeOf missingTable) 10 [0x00] = .ok missingGraph
      ∧ pass1 (codeOf missingTable) 10 0x00 = .ok missingPass1
      ∧ Reach (codeOf missingTable) 0x00 0x00
      ∧ codeOf missingTable 0x00 = some ⟨0x00, 0, 4, 0x01, 0x00⟩
      ∧ codeOf missingTable 0x0100 = none
      ∧ (missingPass1.bStart 0x0100 = true ∧ missingPass1.visited 0x0100 = true
          ∧ missingGraph.blockMap 0x0100 = none) :=
  ⟨rfl, rfl, Reach.entry, by decide, by decide,
    have h := missing_target_marked (codeOf missingTable) 10 [0x00] missingGraph 0x00
      missingPass1 rfl rfl 0x00 ⟨0x00, 0, 4, 0x01, 0x00⟩ 0x0100 Reach.entry (by decide)
      (Or.inr ⟨by decide, by decide⟩) (by decide)
    ⟨h.1, h.2.1, h.2.2.1⟩⟩

/-! ## Properties: a straight-line function -/

theorem plainAt_some {code : Code} {a : Nat} (h : plainAt code a = true) :
    ∃ l, code a = some l ∧ l.isPlain = true := by
  unfold plainAt at h
  cases hc : code a with
  | none => simp [hc] at h
  | some l => exact ⟨l, rfl, by simpa [hc] using h⟩

theorem returnAt_some {code : Code} {a : Nat} (h : returnAt code a = true) :
    ∃ l, code a = some l ∧ l.isRETURN = true := by
  unfold returnAt at h
  cases hc : code a with
  | none => simp [hc] at h
  | some l => exact ⟨l, rfl, by simpa [hc] using h⟩

theorem next_key (f i : Nat) :
    ((f + 2) % 65536 + 2 * i) % 65536 = (f + 2 * (i + 1)) % 65536 := by
  omega

/-- The inner loop of pass 1 over plain instructions up to a RETURN leaves the
stack, the block starts and the visited map as they were. -/
theorem walk1_straight {code : Code} :
    ∀ (n f m : Nat) (st : Pass1), f < 65536 → n < m →
      (∀ i, i < n → plainAt code ((f + 2 * i) % 65536) = true) →
      returnAt code ((f + 2 * n) % 65536) = true →
      ∃ st1, walk1 code m f st = .ok st1 ∧ st1.s = st.s ∧ st1.bStart = st.bStart
        ∧ st1.visited = st.visited := by
  intro n
  induction n with
  | zero =>
    intro f m st hf hm _ hret
    obtain ⟨k, rfl⟩ : ∃ k, m = k + 1 := ⟨m - 1, by omega⟩
    rw [Nat.mul_zero, Nat.add_zero, Nat.mod_eq_of_lt hf] at hret
    obtain ⟨l, hc, hr⟩ := returnAt_some hret
    exact ⟨st, by simp [walk1, hc, hr], rfl, rfl, rfl⟩
  | succ n ih =>
    intro f m st hf hm hpl hret
    obtain ⟨k, rfl⟩ : ∃ k, m = k + 1 := ⟨m - 1, by omega⟩
    have h0 := hpl 0 (Nat.succ_pos _)
    rw [Nat.mul_zero, Nat.add_zero, Nat.mod_eq_of_lt hf] at h0
    obtain ⟨l, hc, hp⟩ := plainAt_some h0
    obtain ⟨h1, h2, h3, h4⟩ := isPlain_iff.1 hp
    have key : ∀ st0 : Pass1, ∃ st1, walk1 code k ((f + 2) % 65536) st0 = .ok st1
        ∧ st1.s = st0.s ∧ st1.bStart = st0.bStart ∧ st1.visited = st0.visited := by
      intro st0
      apply ih ((f + 2) % 65536) k st0 (Nat.mod_lt _ (by decide)) (by omega)
      · intro i hi
        rw [next_key]
        exact hpl (i + 1) (by omega)
      · rw [next_key]
        exact hret
    simp only [walk1, hc, h1, h2, h3, h4, Bool.false_eq_true, if_false]
    obtain ⟨st1, hw, e1, e2, e3⟩ := key
      (if l.isRCALL = true then
        (if l.isCALL = true then st.call l.jumpLoc else st).call l.relativeJumpLoc
       else (if l.isCALL = true then st.call l.jumpLoc else st))
    refine ⟨st1, hw, ?_, ?_, ?_⟩
    · rw [e1]; cases l.isRCALL <;> cases l.isCALL <;> rfl
    · rw [e2]; cases l.isRCALL <;> cases l.isCALL <;> rfl
    · rw [e3]; cases l.isRCALL <;> cases l.isCALL <;> rfl

/-- With no block start at all, the block from `f` over plain instructions up
to a RETURN holds exactly these instructions and has no successor. -/
theorem BlockFrom_straight {code : Code} {bs : Nat → Bool} (hbs : ∀ d, bs d = false) :
    ∀ (n f : Nat), f < 65536 →
      (∀ i, i < n → plainAt code ((f + 2 * i) % 65536) = true) →
      returnAt code ((f + 2 * n) % 65536) = true →
      BlockFrom code bs f
        ((List.range (n + 1)).filterMap (fun i => code ((f + 2 * i) % 65536))) [] := by
  intro n
  induction n with
  | zero =>
    intro f hf _ hret
    rw [Nat.mul_zero, Nat.add_zero, Nat.mod_eq_of_lt hf] at hret
    obtain ⟨l, hc, hr⟩ := returnAt_some hret
    have : (List.range (0 + 1)).filterMap (fun i => code ((f + 2 * i) % 65536)) = [l] := by
      rw [List.range_succ_eq_map, List.filterMap_cons]
      simp [Nat.mod_eq_of_lt hf, hc]
    rw [this]
    exact BlockFrom.ret hc hr
  | succ n ih =>
    intro f hf hpl hret
    have h0 := hpl 0 (Nat.succ_pos _)
    rw [Nat.mul_zero, Nat.add_zero, Nat.mod_eq_of_lt hf] at h0
    obtain ⟨l, hc, hp⟩ := plainAt_some h0
    have hrec := ih ((f + 2) % 65536) (Nat.mod_lt _ (by decide))
      (fun i hi => by rw [next_key]; exact hpl (i + 1) (by omega))
      (by rw [next_key]; exact hret)
    have : (List.range (n + 1 + 1)).filterMap (fun i => code ((f + 2 * i) % 65536))
        = l :: (List.range (n + 1)).filterMap
            (fun i => code (((f + 2) % 65536 + 2 * i) % 65536)) := by
      rw [List.range_succ_eq_map, List.filterMap_cons]
      simp only [Nat.mul_zero, Nat.add_zero, Nat.mod_eq_of_lt hf, hc, List.filterMap_map]
      congr 1
      apply List.filterMap_congr
      intro i _
      simp only [Function.comp, next_key]
    rw [this]
    exact BlockFrom.step hc hp (hbs _) hrec

theorem pass1_straight {code : Code} {e n fuel : Nat} (he : e < 65536)
    (hpl : ∀ i, i < n → plainAt code ((e + 2 * i) % 65536) = true)
    (hret : returnAt code ((e + 2 * n) % 65536) = true) (hfuel : n + 2 ≤ fuel) :
    ∃ p1, pass1 code fuel e = .ok p1 ∧ p1.bStart = fun _ => false := by
  obtain ⟨k, rfl⟩ : ∃ k, fuel = k + 2 := ⟨fuel - 2, by omega⟩
  have hcode : ∃ l0, code e = some l0 := by
    cases n with
    | zero =>
      rw [Nat.mul_zero, Nat.add_zero, Nat.mod_eq_of_lt he] at hret
      obtain ⟨l, hc, _⟩ := returnAt_some hret
      exact ⟨l, hc⟩
    | succ n =>
      have h0 := hpl 0 (Nat.succ_pos _)
      rw [Nat.mul_zero, Nat.add_zero, Nat.mod_eq_of_lt he] at h0
      obtain ⟨l, hc, _⟩ := plainAt_some h0
      exact ⟨l, hc⟩
  obtain ⟨l0, hc⟩ := hcode
  obtain ⟨st1, hw, e1, e2, _⟩ := walk1_straight n e (k + 2)
    { s := [], bStart := fun _ => false, visited := setTrue (fun _ => false) e,
      calls := fun _ => false } he (by omega) hpl hret
  have hl : loop1 code (k + 2) (k + 2)
      { s := [e], bStart := fun _ => false, visited := fun _ => false,
        calls := fun _ => false } = .ok st1 := by
    simp only [loop1, hc, hw]
    rw [e1]
  refine ⟨st1, ?_, e2⟩
  simp [pass1, hl, e1]

theorem filterMap_length_of_isSome {α β : Type} (f : α → Option β) (xs : List α)
    (h : ∀ x ∈ xs, (f x).isSome = true) : (xs.filterMap f).length = xs.length := by
  induction xs with
  | nil => rfl
  | cons x xs ih =>
    obtain ⟨y, hy⟩ := Option.isSome_iff_exists.1 (h x (List.mem_cons_self _ _))
    rw [List.filterMap_cons, hy]
    simp only [List.length_cons]
    rw [ih (fun z hz => h z (List.mem_cons_of_mem _ hz))]

theorem filterMap_range_getLast? {β : Type} (f : Nat → Option β) (n : Nat) {y : β}
    (h : f n = some y) : ((List.range (n + 1)).filterMap f).getLast? = some y := by
  rw [List.range_succ, List.filterMap_append]
  simp [h]

/-- C12: if the table holds plain instructions at `e, e+2, ..., e+2(n-1)` and a
RETURN at `e+2n`, then `buildGraph` on the list `[e]` finishes (with fuel
`n+2` or more) and the block table holds exactly one block: it starts at `e`,
its instructions are those at `e, e+2, ..., e+2n` in order, the RETURN once
and last, and it has no successor. -/
theorem straight_line_function (code : Code) (e n fuel : Nat) (hkey : code.keyed)
    (he : e < 65536)
    (hpl : ∀ i, i < n → plainAt code ((e + 2 * i) % 65536) = true)
    (hret : returnAt code ((e + 2 * n) % 65536) = true) (hfuel : n + 2 ≤ fuel) :
    ∃ g b, buildGraph code fuel [e] = .ok g
      ∧ g.blockMap e = some b ∧ (∀ k, k ≠ e → g.blockMap k = none)
      ∧ b.addr = e
      ∧ b.lines = (List.range (n + 1)).filterMap (fun i => code ((e + 2 * i) % 65536))
      ∧ b.lines.length = n + 1
      ∧ b.lines.getLast? = code ((e + 2 * n) % 65536)
      ∧ b.branches = [] := by
  obtain ⟨p1, hp, hbs⟩ := pass1_straight he hpl hret hfuel
  have hbf := @BlockFrom_straight code p1.bStart (fun d => by rw [hbs]) n e he hpl hret
  have hall : ∀ i ∈ List.range (n + 1), (code ((e + 2 * i) % 65536)).isSome = true := by
    intro i hi
    have hi2 : i < n + 1 := List.mem_range.1 hi
    by_cases hin : i < n
    · obtain ⟨l, hl, _⟩ := plainAt_some (hpl i hin)
      rw [hl]; rfl
    · have : i = n := by omega
      obtain ⟨l, hl, _⟩ := returnAt_some hret
      rw [this, hl]; rfl
  have hlen : ((List.range (n + 1)).filterMap
      (fun i => code ((e + 2 * i) % 65536))).length = n + 1 := by
    rw [filterMap_length_of_isSome _ _ hall, List.length_range]
  obtain ⟨l0, hc0⟩ : ∃ l0, code e = some l0 := by
    have := hall 0 (List.mem_range.2 (Nat.succ_pos _))
    rw [Nat.mul_zero, Nat.add_zero, Nat.mod_eq_of_lt he] at this
    exact Option.isSome_iff_exists.1 this
  obtain ⟨lr, hcr, _⟩ := returnAt_some hret
  obtain ⟨k, rfl⟩ : ∃ k, fuel = k + 2 := ⟨fuel - 2, by omega⟩
  have hl2 : loop2 code p1.bStart (k + 2) (k + 2) [e] (fun _ => none)
      = .ok ([], setKey (fun _ => none) e
          ⟨l0.addr, (List.range (n + 1)).filterMap (fun i => code ((e + 2 * i) % 65536)),
            []⟩) := by
    rw [loop2_build hc0 hbf (by rw [hlen]; omega)]
    simp only [pushed, List.filter_nil, List.reverse_nil, List.nil_append]
    exact loop2_nil
  refine ⟨⟨setKey (fun _ => none) e
      ⟨l0.addr, (List.range (n + 1)).filterMap (fun i => code ((e + 2 * i) % 65536)), []⟩,
      setKey (fun _ => none) e p1.calls⟩,
    ⟨l0.addr, (List.range (n + 1)).filterMap (fun i => code ((e + 2 * i) % 65536)), []⟩,
    ?_, ?_, ?_, hkey e l0 hc0, rfl, hlen, ?_, rfl⟩
  · simp only [buildGraph, buildGraphFrom, buildFunction, hp, hl2]
  · exact setKey_same (fun _ => none) e _
  · intro k1 hk1
    exact setKey_other (fun _ => none) _ hk1
  · rw [hcr]
    exact filterMap_range_getLast? _ n hcr

theorem straight_line_function_witness :
    (codeOf overlapTable).keyed ∧ 0x10 < 65536
      ∧ (∀ i, i < 2 → plainAt (codeOf overlapTable) ((0x10 + 2 * i) % 65536) = true)
      ∧ returnAt (codeOf overlapTable) ((0x10 + 2 * 2) % 65536) = true
      ∧ 2 + 2 ≤ 4
      ∧ ∃ g b, buildGraph (codeOf overlapTable) 4 [0x10] = .ok g
          ∧ g.blockMap 0x10 = some b ∧ (∀ k, k ≠ 0x10 → g.blockMap k = none)
          ∧ b.addr = 0x10
          ∧ b.lines = (List.range (2 + 1)).filterMap
              (fun i => codeOf overlapTable ((0x10 + 2 * i) % 65536))
          ∧ b.lines.length = 2 + 1
          ∧ b.lines.getLast? = codeOf overlapTable ((0x10 + 2 * 2) % 65536)
          ∧ b.branches = [] :=
  ⟨codeOf_keyed _, by decide, by decide, by decide, by decide,
    straight_line_function (codeOf overlapTable) 0x10 2 4 (codeOf_keyed _) (by decide)
      (by decide) (by decide) (by decide)⟩

/-! ## Properties: errors of the walks -/

/-- The inner loop of pass 1 fails only by lack of fuel or by reaching a plain
instruction with nothing at its address + 2. -/
theorem walk1_error {code : Code} {e : Nat} :
    ∀ (n f : Nat) (st : Pass1) (err : Err), walk1 code n f st = .error err →
      Reach code e f → (code f).isSome = true →
      err = .outOfFuel ∨ (err = .nilDeref ∧ Dangling code e) := by
  intro n
  induction n with
  | zero =>
    intro f st err h _ _
    simp only [walk1, Except.error.injEq] at h
    exact Or.inl h.symm
  | succ n ih =>
    intro f st err h hr hcs
    unfold walk1 at h
    cases hc : code f with
    | none => rw [hc] at hcs; cases hcs
    | some l =>
      simp only [hc] at h
      by_cases hret : l.isRETURN = true
      · simp [hret] at h
      have hret : l.isRETURN = false := by simpa using hret
      simp only [hret, Bool.false_eq_true, if_false] at h
      by_cases hbra : l.isBRA = true
      · simp only [hbra, if_true] at h
        split at h <;> cases h
      have hbra : l.isBRA = false := by simpa using hbra
      simp only [hbra, Bool.false_eq_true, if_false] at h
      by_cases hg : l.isGOTO = true
      · simp [hg] at h
      have hg : l.isGOTO = false := by simpa using hg
      simp only [hg, Bool.false_eq_true, if_false] at h
      by_cases hgr : l.isGOTOREG = true
      · simp [hgr] at h
      have hgr : l.isGOTOREG = false := by simpa using hgr
      simp only [hgr, Bool.false_eq_true, if_false] at h
      have hpl : l.isPlain = true := isPlain_iff.2 ⟨hret, hbra, hg, hgr⟩
      cases hc2 : code ((f + 2) % 65536) with
      | none =>
        cases n with
        | zero =>
          simp only [walk1, Except.error.injEq] at h
          exact Or.inl h.symm
        | succ n =>
          simp only [walk1, hc2, Except.error.injEq] at h
          exact Or.inr ⟨h.symm, f, l, hr, hc, hpl, hc2⟩
      | some l2 => exact ih _ _ _ h (Reach.next hr hc hpl) (by rw [hc2]; rfl)

/-- The inner loop of pass 2 fails only in the same two ways. -/
theorem walk2_error {code : Code} {bs : Nat → Bool} {bm : Nat → Option block} {e : Nat} :
    ∀ (n f : Nat) (b : block) (s : List Nat) (err : Err),
      walk2 code bs bm n f b s = .error err →
      Reach code e f → (code f).isSome = true →
      err = .outOfFuel ∨ (err = .nilDeref ∧ Dangling code e) := by
  intro n
  induction n with
  | zero =>
    intro f b s err h _ _
    simp only [walk2, Except.error.injEq] at h
    exact Or.inl h.symm
  | succ n ih =>
    intro f b s err h hr hcs
    unfold walk2 at h
    cases hc : code f with
    | none => rw [hc] at hcs; cases hcs
    | some l =>
      simp only [hc] at h
      by_cases hret : l.isRETURN = true
      · simp [hret] at h
      have hret : l.isRETURN = false := by simpa using hret
      simp only [hret, Bool.false_eq_true, if_false] at h
      by_cases hbra : l.isBRA = true
      · simp only [hbra, if_true] at h
        split at h <;> cases h
      have hbra : l.isBRA = false := by simpa using hbra
      simp only [hbra, Bool.false_eq_true, if_false] at h
      by_cases hg : l.isGOTO = true
      · simp [hg] at h
      have hg : l.isGOTO = false := by simpa using hg
      simp only [hg, Bool.false_eq_true, if_false] at h
      by_cases hgr : l.isGOTOREG = true
      · simp [hgr] at h
      have hgr : l.isGOTOREG = false := by simpa using hgr
      simp only [hgr, Bool.false_eq_true, if_false] at h
      by_cases hj : bs ((f + 2) % 65536) = true
      · simp [hj] at h
      have hj : bs ((f + 2) % 65536) = false := by simpa using hj
      simp only [hj, Bool.false_eq_true, if_false] at h
      have hpl : l.isPlain = true := isPlain_iff.2 ⟨hret, hbra, hg, hgr⟩
      cases hc2 : code ((f + 2) % 65536) with
      | none =>
        cases n with
        | zero =>
          simp only [walk2, Except.error.injEq] at h
          exact Or.inl h.symm
        | succ n =>
          simp only [walk2, hc2, Except.error.injEq] at h
          exact Or.inr ⟨h.symm, f, l, hr, hc, hpl, hc2⟩
      | some l2 => exact ih _ _ _ _ h (Reach.next hr hc hpl) (by rw [hc2]; rfl)

theorem loop1_error {code : Code} {fuel e : Nat} :
    ∀ (n : Nat) (st : Pass1) (err : Err), loop1 code fuel n st = .error err →
      Sound1 code e st → err = .outOfFuel ∨ (err = .nilDeref ∧ Dangling code e) := by
  intro n
  induction n with
  | zero =>
    intro st err h _
    simp only [loop1, Except.error.injEq] at h
    exact Or.inl h.symm
  | succ n ih =>
    intro st err h hS
    unfold loop1 at h
    cases hs : st.s with
    | nil => simp [hs] at h
    | cons f rest =>
      simp only [hs] at h
      have hS0 : Sound1 code e { st with s := rest, visited := setTrue st.visited f } :=
        ⟨fun a ha => hS.1 a (hs ▸ List.mem_cons_of_mem _ ha), hS.2.1, hS.2.2⟩
      have hrf : Reach code e f := hS.1 f (hs ▸ List.mem_cons_self _ _)
      cases hc : code f with
      | none =>
        simp only [hc] at h
        exact ih _ _ h hS0
      | some l =>
        simp only [hc] at h
        cases hw : walk1 code fuel f { st with s := rest, visited := setTrue st.visited f } with
        | error e1 =>
          simp only [hw, Except.error.injEq] at h
          subst h
          exact walk1_error _ _ _ _ hw hrf (by rw [hc]; rfl)
        | ok st2 =>
          simp only [hw] at h
          exact ih _ _ h (walk1_sound _ _ _ _ hw hrf hS0)

theorem pass1_error {code : Code} {fuel e : Nat} {err : Err}
    (h : pass1 code fuel e = .error err) :
    err = .outOfFuel ∨ (err = .nilDeref ∧ Dangling code e) := by
  have hS : Sound1 code e ⟨[e], fun _ => false, fun _ => false, fun _ => false⟩ := by
    refine ⟨?_, ?_, ?_⟩
    · intro a ha
      rcases List.mem_singleton.1 ha with rfl
      exact Reach.entry
    · intro d hd; simp at hd
    · intro d hd; simp at hd
  unfold pass1 at h
  cases hl : loop1 code fuel fuel ⟨[e], fun _ => false, fun _ => false, fun _ => false⟩ with
  | error e1 =>
    simp only [hl, Except.error.injEq] at h
    subst h
    exact loop1_error _ _ _ hl hS
  | ok st =>
    have hnil := (loop1_induct (fun _ => True) (fun _ _ _ _ _ _ => trivial)
      (fun _ _ _ _ _ _ _ _ _ => trivial) _ _ _ hl trivial).2
    simp [hl, hnil] at h

theorem loop2_error {code : Code} {bs : Nat → Bool} {fuel e : Nat} :
    ∀ (n : Nat) (s : List Nat) (bm : Nat → Option block) (err : Err),
      loop2 code bs fuel n s bm = .error err → (∀ a ∈ s, Reach code e a) →
      err = .outOfFuel ∨ (err = .nilDeref ∧ Dangling code e) := by
  intro n
  induction n with
  | zero =>
    intro s bm err h _
    simp only [loop2, Except.error.injEq] at h
    exact Or.inl h.symm
  | succ n ih =>
    intro s bm err h hR
    cases s with
    | nil => rw [loop2_nil] at h; cases h
    | cons f s =>
      have hrf := hR f (List.mem_cons_self _ _)
      cases hc : code f with
      | none =>
        rw [loop2_skip hc] at h
        exact ih _ _ _ h (fun a ha => hR a (List.mem_cons_of_mem _ ha))
      | some l =>
        cases hw : walk2 code bs (setKey bm f ⟨l.addr, [], []⟩) fuel f ⟨l.addr, [], []⟩ s with
        | error e1 =>
          simp only [loop2, hc, NewBlock, hw, Except.error.injEq] at h
          subst h
          exact walk2_error _ _ _ _ _ hw hrf (by rw [hc]; rfl)
        | ok res =>
          obtain ⟨b1, s1, f1⟩ := res
          obtain ⟨ls, br, hbf, _, _, hlen⟩ :=
            walk2_shape _ _ _ _ _ _ _ (by simp [block.isReturned]) hw
          rw [loop2_build hc hbf hlen] at h
          refine ih _ _ _ h ?_
          intro a ha
          rcases List.mem_append.1 ha with ha | ha
          · exact (BlockFrom_branches hbf hrf a (mem_pushed.1 ha).1).1
          · exact hR a (List.mem_cons_of_mem _ ha)

theorem buildFunction_error {code : Code} {fuel e : Nat} {g : Graph} {err : Err}
    (h : buildFunction code fuel g e = .error err) :
    err = .outOfFuel ∨ (err = .nilDeref ∧ Dangling code e) := by
  unfold buildFunction at h
  cases hp : pass1 code fuel e with
  | error e1 =>
    simp only [hp, Except.error.injEq] at h
    subst h
    exact pass1_error hp
  | ok p1 =>
    simp only [hp] at h
    cases hl : loop2 code p1.bStart fuel fuel [e] g.blockMap with
    | error e1 =>
      simp only [hl, Except.error.injEq] at h
      subst h
      refine loop2_error _ _ _ _ hl ?_
      intro a ha
      rcases List.mem_singleton.1 ha with rfl
      exact Reach.entry
    | ok r => simp [hl] at h

theorem buildGraphFrom_error {code : Code} {fuel : Nat} :
    ∀ (fs : List Nat) (g : Graph) (err : Err), buildGraphFrom code fuel fs g = .error err →
      err = .outOfFuel ∨ (err = .nilDeref ∧ ∃ e ∈ fs, Dangling code e) := by
  intro fs
  induction fs with
  | nil => intro g err h; simp [buildGraphFrom] at h
  | cons a rest ih =>
    intro g err h
    unfold buildGraphFrom at h
    cases hb : buildFunction code fuel g a with
    | error e1 =>
      simp only [hb, Except.error.injEq] at h
      subst h
      rcases buildFunction_error hb with h1 | ⟨h1, h2⟩
      · exact Or.inl h1
      · exact Or.inr ⟨h1, a, List.mem_cons_self _ _, h2⟩
    | ok g2 =>
      simp only [hb] at h
      rcases ih g2 err h with h1 | ⟨h1, e, he, h2⟩
      · exact Or.inl h1
      · exact Or.inr ⟨h1, e, List.mem_cons_of_mem _ he, h2⟩

/-! ## Properties: fuel of the inner loops -/

/-- At an instruction that is not plain the inner loop of pass 1 stops,
whatever its fuel. -/
theorem walk1_at_stop {code : Code} {f : Nat} {l : line} (st : Pass1)
    (hc : code f = some l) (hp : l.isPlain = false) (m : Nat) :
    walk1 code (m + 1) f st = walk1 code 1 f st
      ∧ walk1 code (m + 1) f st ≠ .error .outOfFuel := by
  by_cases hret : l.isRETURN = true
  · simp [walk1, hc, hret]
  have hret : l.isRETURN = false := by simpa using hret
  by_cases hbra : l.isBRA = true
  · by_cases hu : l.isBRAUnconditional = true <;> simp [walk1, hc, hret, hbra, hu]
  have hbra : l.isBRA = false := by simpa using hbra
  by_cases hg : l.isGOTO = true
  · simp [walk1, hc, hret, hbra, hg]
  have hg : l.isGOTO = false := by simpa using hg
  by_cases hgr : l.isGOTOREG = true
  · simp [walk1, hc, hret, hbra, hg, hgr]
  have hgr : l.isGOTOREG = false := by simpa using hgr
  rw [isPlain_iff.2 ⟨hret, hbra, hg, hgr⟩] at hp
  cases hp

theorem walk1_at_plain {code : Code} {f : Nat} {l : line} (st : Pass1)
    (hc : code f = some l) (hp : l.isPlain = true) (m : Nat) :
    walk1 code (m + 1) f st
      = walk1 code m ((f + 2) % 65536)
          (if l.isRCALL = true then
            (if l.isCALL = true then st.call l.jumpLoc else st).call l.relativeJumpLoc
           else (if l.isCALL = true then st.call l.jumpLoc else st)) := by
  obtain ⟨h1, h2, h3, h4⟩ := isPlain_iff.1 hp
  simp only [walk1, hc, h1, h2, h3, h4, Bool.false_eq_true, if_false]

/-- With the fuel of a run that stops, the inner loop of pass 1 does not run
out of fuel, and more fuel changes nothing. -/
theorem walk1_stops {code : Code} :
    ∀ (n f : Nat) (st : Pass1), Stops code n f = true →
      walk1 code n f st ≠ .error .outOfFuel
        ∧ ∀ m, n ≤ m → walk1 code m f st = walk1 code n f st := by
  intro n
  induction n with
  | zero => intro f st h; simp [Stops] at h
  | succ n ih =>
    intro f st h
    unfold Stops at h
    cases hc : code f with
    | none =>
      refine ⟨by simp [walk1, hc], ?_⟩
      intro m hm
      obtain ⟨k, rfl⟩ : ∃ k, m = k + 1 := ⟨m - 1, by omega⟩
      simp [walk1, hc]
    | some l =>
      simp only [hc] at h
      by_cases hp : l.isPlain = true
      · simp only [hp, if_true] at h
        rw [walk1_at_plain st hc hp]
        refine ⟨(ih _ _ h).1, ?_⟩
        intro m hm
        obtain ⟨k, rfl⟩ : ∃ k, m = k + 1 := ⟨m - 1, by omega⟩
        rw [walk1_at_plain st hc hp]
        exact (ih _ _ h).2 k (by omega)
      · have hp : l.isPlain = false := by simpa using hp
        refine ⟨(walk1_at_stop st hc hp n).2, ?_⟩
        intro m hm
        obtain ⟨k, rfl⟩ : ∃ k, m = k + 1 := ⟨m - 1, by omega⟩
        rw [(walk1_at_stop st hc hp k).1, (walk1_at_stop st hc hp n).1]

/-- At an instruction that closes the block the inner loop of pass 2 stops,
whatever its fuel. -/
theorem walk2_at_stop {code : Code} {bs : Nat → Bool} {bm : Nat → Option block} {f : Nat}
    {l : line} (b : block) (s : List Nat) (hc : code f = some l)
    (hp : l.isPlain = false ∨ bs ((f + 2) % 65536) = true) (m : Nat) :
    walk2 code bs bm (m + 1) f b s = walk2 code bs bm 1 f b s
      ∧ walk2 code bs bm (m + 1) f b s ≠ .error .outOfFuel := by
  by_cases hret : l.isRETURN = true
  · simp [walk2, hc, hret]
  have hret : l.isRETURN = false := by simpa using hret
  by_cases hbra : l.isBRA = true
  · by_cases hu : l.isBRAUnconditional = true <;> simp [walk2, hc, hret, hbra, hu]
  have hbra : l.isBRA = false := by simpa using hbra
  by_cases hg : l.isGOTO = true
  · simp [walk2, hc, hret, hbra, hg]
  have hg : l.isGOTO = false := by simpa using hg
  by_cases hgr : l.isGOTOREG = true
  · simp [walk2, hc, hret, hbra, hg, hgr]
  have hgr : l.isGOTOREG = false := by simpa using hgr
  rcases hp with hp | hp
  · rw [isPlain_iff.2 ⟨hret, hbra, hg, hgr⟩] at hp
    cases hp
  · simp [walk2, hc, hret, hbra, hg, hgr, hp]

theorem walk2_at_plain {code : Code} {bs : Nat → Bool} {bm : Nat → Option block} {f : Nat}
    {l : line} (b : block) (s : List Nat) (hc : code f = some l) (hp : l.isPlain = true)
    (hj : bs ((f + 2) % 65536) = false) (m : Nat) :
    walk2 code bs bm (m + 1) f b s
      = walk2 code bs bm m ((f + 2) % 65536) (b.addLine (some l)) s := by
  obtain ⟨h1, h2, h3, h4⟩ := isPlain_iff.1 hp
  simp only [walk2, hc, h1, h2, h3, h4, hj, Bool.false_eq_true, if_false]

theorem walk2_stops {code : Code} {bs : Nat → Bool} {bm : Nat → Option block} :
    ∀ (n f : Nat) (b : block) (s : List Nat), Stops code n f = true →
      walk2 code bs bm n f b s ≠ .error .outOfFuel
        ∧ ∀ m, n ≤ m → walk2 code bs bm m f b s = walk2 code bs bm n f b s := by
  intro n
  induction n with
  | zero => intro f b s h; simp [Stops] at h
  | succ n ih =>
    intro f b s h
    unfold Stops at h
    cases hc : code f with
    | none =>
      refine ⟨by simp [walk2, hc], ?_⟩
      intro m hm
      obtain ⟨k, rfl⟩ : ∃ k, m = k + 1 := ⟨m - 1, by omega⟩
      simp [walk2, hc]
    | some l =>
      simp only [hc] at h
      by_cases hp : l.isPlain = true ∧ bs ((f + 2) % 65536) = false
      · simp only [hp.1, if_true] at h
        rw [walk2_at_plain b s hc hp.1 hp.2]
        refine ⟨(ih _ _ _ h).1, ?_⟩
        intro m hm
        obtain ⟨k, rfl⟩ : ∃ k, m = k + 1 := ⟨m - 1, by omega⟩
        rw [walk2_at_plain b s hc hp.1 hp.2]
        exact (ih _ _ _ h).2 k (by omega)
      · have hp2 : l.isPlain = false ∨ bs ((f + 2) % 65536) = true := by
          by_cases h1 : l.isPlain = true
          · right
            by_cases h2 : bs ((f + 2) % 65536) = true
            · exact h2
            · exact absurd ⟨h1, by simpa using h2⟩ hp
          · left; simpa using h1
        refine ⟨(walk2_at_stop b s hc hp2 n).2, ?_⟩
        intro m hm
        obtain ⟨k, rfl⟩ : ∃ k, m = k + 1 := ⟨m - 1, by omega⟩
        rw [(walk2_at_stop b s hc hp2 k).1, (walk2_at_stop b s hc hp2 n).1]

/-! ## Properties: fuel of the worklists -/

theorem loop1_inner_fuel {code : Code} {B F : Nat} (hstop : ∀ f, Stops code B f = true)
    (hB : B ≤ F) : ∀ n st, loop1 code F n st = loop1 code B n st := by
  intro n
  induction n with
  | zero => intro st; rfl
  | succ n ih =>
    intro st
    unfold loop1
    cases hs : st.s with
    | nil => rfl
    | cons f rest =>
      simp only
      cases hc : code f with
      | none => exact ih _
      | some l =>
        simp only
        rw [(walk1_stops B f _ (hstop f)).2 F hB]
        cases walk1 code B f { st with s := rest, visited := setTrue st.visited f } with
        | error e => rfl
        | ok st2 => exact ih _

theorem loop1_outer_mono {code : Code} {F : Nat} :
    ∀ n st, loop1 code F n st ≠ .error .outOfFuel →
      ∀ k, loop1 code F (n + k) st = loop1 code F n st := by
  intro n
  induction n with
  | zero => intro st h; simp [loop1] at h
  | succ n ih =>
    intro st h k
    rw [Nat.add_right_comm]
    unfold loop1 at h ⊢
    cases hs : st.s with
    | nil => rfl
    | cons f rest =>
      simp only [hs] at h ⊢
      cases hc : code f with
      | none =>
        simp only [hc] at h ⊢
        exact ih _ h k
      | some l =>
        simp only [hc] at h ⊢
        cases hw : walk1 code F f { st with s := rest, visited := setTrue st.visited f } with
        | error e => rfl
        | ok st2 =>
          simp only [hw] at h ⊢
          exact ih _ h k

theorem loop2_inner_fuel {code : Code} {bs : Nat → Bool} {B F : Nat}
    (hstop : ∀ f, Stops code B f = true) (hB : B ≤ F) :
    ∀ n s bm, loop2 code bs F n s bm = loop2 code bs B n s bm := by
  intro n
  induction n with
  | zero => intro s bm; rfl
  | succ n ih =>
    intro s bm
    cases s with
    | nil => rfl
    | cons f s =>
      unfold loop2
      cases hc : code f with
      | none => exact ih _ _
      | some l =>
        simp only [NewBlock]
        rw [(walk2_stops B f _ _ (hstop f)).2 F hB]
        cases walk2 code bs (setKey bm f ⟨l.addr, [], []⟩) B f ⟨l.addr, [], []⟩ s with
        | error e => rfl
        | ok res =>
          obtain ⟨b1, s1, f1⟩ := res
          simp only
          cases closeBlock code f1 b1 with
          | error e => rfl
          | ok b2 => exact ih _ _

theorem loop2_outer_mono {code : Code} {bs : Nat → Bool} {F : Nat} :
    ∀ n s bm, loop2 code bs F n s bm ≠ .error .outOfFuel →
      ∀ k, loop2 code bs F (n + k) s bm = loop2 code bs F n s bm := by
  intro n
  induction n with
  | zero => intro s bm h; simp [loop2] at h
  | succ n ih =>
    intro s bm h k
    rw [Nat.add_right_comm]
    cases s with
    | nil => rfl
    | cons f s =>
      unfold loop2 at h ⊢
      cases hc : code f with
      | none =>
        simp only [hc] at h ⊢
        exact ih _ _ h k
      | some l =>
        simp only [hc, NewBlock] at h ⊢
        cases hw : walk2 code bs (setKey bm f ⟨l.addr, [], []⟩) F f ⟨l.addr, [], []⟩ s with
        | error e => rfl
        | ok res =>
          obtain ⟨b1, s1, f1⟩ := res
          simp only [hw] at h ⊢
          cases hcl : closeBlock code f1 b1 with
          | error e => rfl
          | ok b2 =>
            simp only [hcl] at h ⊢
            exact ih _ _ h k

/-! ## Properties: termination of the worklist of pass 1 -/

theorem countP_lt_of_mem (xs : List Nat) (p q : Nat → Bool)
    (hle : ∀ a, q a = true → p a = true) {x : Nat} (hx : x ∈ xs) (hp : p x = true)
    (hq : q x = false) : xs.countP q < xs.countP p := by
  induction xs with
  | nil => cases hx
  | cons y ys ih =>
    have hmono : ys.countP q ≤ ys.countP p := List.countP_mono_left (fun a _ h => hle a h)
    rcases List.mem_cons.1 hx with rfl | hx
    · rw [List.countP_cons_of_pos _ _ hp, List.countP_cons_of_neg _ _ (by simp [hq])]
      omega
    · have := ih hx
      by_cases hqy : q y = true
      · rw [List.countP_cons_of_pos _ _ hqy, List.countP_cons_of_pos _ _ (hle y hqy)]
        omega
      · rw [List.countP_cons_of_neg _ _ hqy]
        by_cases hpy : p y = true
        · rw [List.countP_cons_of_pos _ _ hpy]; omega
        · rw [List.countP_cons_of_neg _ _ hpy]; omega

theorem countAddr_lt (p q : Nat → Bool) (hle : ∀ a, q a = true → p a = true) {x : Nat}
    (hx : x < 65536) (hp : p x = true) (hq : q x = false) : countAddr q < countAddr p :=
  countP_lt_of_mem _ p q hle (List.mem_range.2 hx) hp hq

theorem countAddr_congr (p q : Nat → Bool) (h : ∀ a, p a = q a) : countAddr p = countAddr q := by
  have : p = q := funext h
  rw [this]

theorem mark_pushes (st : Pass1) (d : Nat) (hd : d < 65536) :
    (st.mark d).visited = st.visited
      ∧ ∃ ps, (st.mark d).s = ps ++ st.s ∧ ps.length ≤ 1
          ∧ ∀ a ∈ ps, st.visited a = false ∧ a < 65536 := by
  refine ⟨rfl, ?_⟩
  by_cases hv : st.visited d = true
  · exact ⟨[], by simp [Pass1.mark, hv], by simp, by simp⟩
  · refine ⟨[d], by simp [Pass1.mark, hv], by simp, ?_⟩
    intro a ha
    rw [List.mem_singleton.1 ha]
    exact ⟨by simpa using hv, hd⟩

/-- One inner loop of pass 1 pushes at most two addresses, none visited. -/
theorem walk1_pushes {code : Code} :
    ∀ (n f : Nat) (st st1 : Pass1), walk1 code n f st = .ok st1 →
      st1.visited = st.visited
        ∧ ∃ ps, st1.s = ps ++ st.s ∧ ps.length ≤ 2
            ∧ ∀ a ∈ ps, st.visited a = false ∧ a < 65536 := by
  intro n
  induction n with
  | zero => intro f st st1 h; simp [walk1] at h
  | succ n ih =>
    intro f st st1 h
    cases hc : code f with
    | none => simp [walk1, hc] at h
    | some l =>
      by_cases hp : l.isPlain = true
      · rw [walk1_at_plain st hc hp] at h
        obtain ⟨h1, ps, h2, h3, h4⟩ := ih _ _ _ h
        have e1 : ∀ (c1 c2 : Bool) (x y : Nat),
            (if c1 = true then (if c2 = true then st.call x else st).call y
              else (if c2 = true then st.call x else st)).visited = st.visited
            ∧ (if c1 = true then (if c2 = true then st.call x else st).call y
              else (if c2 = true then st.call x else st)).s = st.s := by
          intro c1 c2 x y
          cases c1 <;> cases c2 <;> exact ⟨rfl, rfl⟩
        rw [(e1 _ _ _ _).1] at h1 h4
        rw [(e1 _ _ _ _).2] at h2
        exact ⟨h1, ps, h2, h3, h4⟩
      · have hp : l.isPlain = false := by simpa using hp
        unfold walk1 at h
        simp only [hc] at h
        by_cases hret : l.isRETURN = true
        · simp only [hret, if_true, Except.ok.injEq] at h
          subst h
          exact ⟨rfl, [], rfl, by simp, by simp⟩
        have hret : l.isRETURN = false := by simpa using hret
        simp only [hret, Bool.false_eq_true, if_false] at h
        by_cases hbra : l.isBRA = true
        · obtain ⟨m1, ps1, m2, m3, m4⟩ := mark_pushes st l.relativeJumpLoc (relativeJumpLoc_lt l)
          by_cases hu : l.isBRAUnconditional = true
          · simp only [hbra, hu, if_true, Bool.not_true, Bool.false_eq_true, if_false,
              Except.ok.injEq] at h
            subst h
            exact ⟨m1, ps1, m2, by omega, m4⟩
          · have hu : l.isBRAUnconditional = false := by simpa using hu
            simp only [hbra, hu, if_true, Bool.not_false, Except.ok.injEq] at h
            subst h
            obtain ⟨k1, ps2, k2, k3, k4⟩ := mark_pushes (st.mark l.relativeJumpLoc)
              ((f + 2) % 65536) (Nat.mod_lt _ (by decide))
            refine ⟨k1.trans m1, ps2 ++ ps1, ?_, ?_, ?_⟩
            · rw [k2, m2, List.append_assoc]
            · rw [List.length_append]; omega
            · intro a ha
              rcases List.mem_append.1 ha with ha | ha
              · have := k4 a ha
                rw [m1] at this
                exact this
              · exact m4 a ha
        have hbra : l.isBRA = false := by simpa using hbra
        simp only [hbra, Bool.false_eq_true, if_false] at h
        by_cases hg : l.isGOTO = true
        · simp only [hg, if_true, Except.ok.injEq] at h
          subst h
          obtain ⟨m1, ps1, m2, m3, m4⟩ := mark_pushes st l.jumpLoc (jumpLoc_lt l)
          exact ⟨m1, ps1, m2, by omega, m4⟩
        have hg : l.isGOTO = false := by simpa using hg
        simp only [hg, Bool.false_eq_true, if_false] at h
        by_cases hgr : l.isGOTOREG = true
        · simp only [hgr, if_true, Except.ok.injEq] at h
          subst h
          exact ⟨rfl, [], rfl, by simp, by simp⟩
        have hgr : l.isGOTOREG = false := by simpa using hgr
        rw [isPlain_iff.2 ⟨hret, hbra, hg, hgr⟩] at hp
        cases hp

/-- The worklist of pass 1 terminates when every straight-line run stops: a
round that pops an address not visited before lowers the number of unvisited
addresses, any other round lowers `weight1`. -/
theorem loop1_terminates {code : Code} {B : Nat} (hstop : ∀ f, Stops code B f = true) :
    ∀ (u w : Nat) (st : Pass1), countAddr (fun a => !st.visited a) = u → weight1 st = w →
      (∀ a ∈ st.s, a < 65536) → ∃ n, loop1 code B n st ≠ .error .outOfFuel := by
  intro u
  induction u using Nat.strong_induction_on with
  | _ u ihu =>
    intro w
    induction w using Nat.strong_induction_on with
    | _ w ihw =>
      intro st hu hw hinv
      cases hs : st.s with
      | nil => exact ⟨1, by simp [loop1, hs]⟩
      | cons f rest =>
        have hf : f < 65536 := hinv f (hs ▸ List.mem_cons_self _ _)
        have key : ∀ st1 : Pass1, st1.visited = setTrue st.visited f →
            ∀ ps, st1.s = ps ++ rest → ps.length ≤ 2 →
            (∀ a ∈ ps, setTrue st.visited f a = false ∧ a < 65536) →
            ∃ n, loop1 code B n st1 ≠ .error .outOfFuel := by
          intro st1 hv1 ps hs1 hlen hps
          have hinv1 : ∀ a ∈ st1.s, a < 65536 := by
            intro a ha
            rw [hs1] at ha
            rcases List.mem_append.1 ha with ha | ha
            · exact (hps a ha).2
            · exact hinv a (hs ▸ List.mem_cons_of_mem _ ha)
          by_cases hvf : st.visited f = true
          · have hsame : ∀ a, setTrue st.visited f a = st.visited a := by
              intro a
              by_cases ha : a = f
              · rw [ha, setTrue_same, hvf]
              · simp [setTrue, ha]
            refine ihw (weight1 st1) ?_ st1 ?_ rfl hinv1
            · rw [← hw]
              unfold weight1
              rw [hs1, hv1, hs, List.countP_append, List.length_append, List.length_cons,
                List.countP_cons_of_pos _ _ hvf]
              have h0 : ps.countP (setTrue st.visited f) = 0 := by
                rw [List.countP_eq_zero]
                intro a ha
                rw [(hps a ha).1]
                exact Bool.false_ne_true
              have h1 : rest.countP (setTrue st.visited f) = rest.countP st.visited :=
                List.countP_congr (fun a _ => by rw [hsame a])
              rw [h0, h1]
              omega
            · rw [← hu, hv1]
              exact countAddr_congr _ _ (fun a => by rw [hsame a])
          · have hvf : st.visited f = false := by simpa using hvf
            refine ihu (countAddr (fun a => !st1.visited a)) ?_ (weight1 st1) st1 rfl rfl hinv1
            rw [← hu, hv1]
            apply countAddr_lt _ _ _ hf
            · simp [hvf]
            · simp [setTrue_same]
            · intro a ha
              cases hva : st.visited a with
              | false => rfl
              | true =>
                rw [setTrue_mono _ _ hva] at ha
                simp at ha
        cases hc : code f with
        | none =>
          obtain ⟨n, hn⟩ := key { st with s := rest, visited := setTrue st.visited f } rfl []
            rfl (by simp) (by simp)
          refine ⟨n + 1, ?_⟩
          simp only [loop1, hs, hc]
          exact hn
        | some l =>
          cases hw1 : walk1 code B f { st with s := rest, visited := setTrue st.visited f } with
          | error e =>
            refine ⟨1, ?_⟩
            simp only [loop1, hs, hc, hw1]
            intro he
            cases he
            exact (walk1_stops B f _ (hstop f)).1 hw1
          | ok st1 =>
            obtain ⟨h1, ps, h2, h3, h4⟩ := walk1_pushes _ _ _ _ hw1
            obtain ⟨n, hn⟩ := key st1 h1 ps h2 h3 h4
            refine ⟨n + 1, ?_⟩
            simp only [loop1, hs, hc, hw1]
            exact hn

/-! ## Properties: termination of the worklist of pass 2 -/

theorem BlockFrom_branches_small {code : Code} {bs : Nat → Bool} {f : Nat} {ls : List line}
    {br : List Nat} (h : BlockFrom code bs f ls br) :
    br.length ≤ 2 ∧ ∀ d ∈ br, d < 65536 := by
  induction h with
  | ret _ _ => exact ⟨by simp, by simp⟩
  | @braCond f l _ _ _ _ =>
    refine ⟨by simp, ?_⟩
    intro d hd
    rcases List.mem_cons.1 hd with rfl | hd
    · exact relativeJumpLoc_lt l
    · rw [List.mem_singleton.1 hd]; exact Nat.mod_lt _ (by decide)
  | @braUncond f l _ _ _ _ =>
    refine ⟨by simp, ?_⟩
    intro d hd
    rw [List.mem_singleton.1 hd]; exact relativeJumpLoc_lt l
  | @goto f l _ _ _ _ =>
    refine ⟨by simp, ?_⟩
    intro d hd
    rw [List.mem_singleton.1 hd]; exact jumpLoc_lt l
  | gotoReg _ _ _ _ _ => exact ⟨by simp, by simp⟩
  | join _ _ _ =>
    refine ⟨by simp, ?_⟩
    intro d hd
    rw [List.mem_singleton.1 hd]; exact Nat.mod_lt _ (by decide)
  | step _ _ _ _ ih => exact ih

theorem pushed_length_le (bm : Nat → Option block) (f : Nat) (br : List Nat) :
    (pushed bm f br).length ≤ br.length := by
  unfold pushed
  rw [List.length_reverse]
  exact List.length_filter_le _ _

/-- The worklist of pass 2 terminates when every straight-line run stops: a
round that builds a block where there was none lowers the number of addresses
without a block, any other round lowers `weight2`. -/
theorem loop2_terminates {code : Code} {bs : Nat → Bool} {B : Nat}
    (hstop : ∀ f, Stops code B f = true) :
    ∀ (u w : Nat) (s : List Nat) (bm : Nat → Option block),
      countAddr (fun a => (bm a).isNone) = u → weight2 s bm = w →
      (∀ a ∈ s, a < 65536) → ∃ n, loop2 code bs B n s bm ≠ .error .outOfFuel := by
  intro u
  induction u using Nat.strong_induction_on with
  | _ u ihu =>
    intro w
    induction w using Nat.strong_induction_on with
    | _ w ihw =>
      intro s bm hu hw hinv
      cases s with
      | nil => exact ⟨1, by simp [loop2]⟩
      | cons f s =>
        have hf : f < 65536 := hinv f (List.mem_cons_self _ _)
        have hinv0 : ∀ a ∈ s, a < 65536 := fun a ha => hinv a (List.mem_cons_of_mem _ ha)
        cases hc : code f with
        | none =>
          obtain ⟨n, hn⟩ := ihw (weight2 s bm) (by
            rw [← hw]
            unfold weight2
            rw [List.countP_cons, List.length_cons]
            omega) s bm hu rfl hinv0
          exact ⟨n + 1, by rw [loop2_skip hc]; exact hn⟩
        | some l =>
          cases hw2 : walk2 code bs (setKey bm f ⟨l.addr, [], []⟩) B f ⟨l.addr, [], []⟩ s with
          | error e =>
            refine ⟨1, ?_⟩
            simp only [loop2, hc, NewBlock, hw2]
            intro he
            cases he
            exact (walk2_stops B f _ _ (hstop f)).1 hw2
          | ok res =>
            obtain ⟨b1, s1, f1⟩ := res
            obtain ⟨ls, br, hbf, _, _, hlen⟩ :=
              walk2_shape _ _ _ _ _ _ _ (by simp [block.isReturned]) hw2
            obtain ⟨hbr2, hbrlt⟩ := BlockFrom_branches_small hbf
            have hplen := pushed_length_le bm f br
            have hinv1 : ∀ a ∈ pushed bm f br ++ s, a < 65536 := by
              intro a ha
              rcases List.mem_append.1 ha with ha | ha
              · exact hbrlt a (mem_pushed.1 ha).1
              · exact hinv0 a ha
            have hzero : (pushed bm f br).countP
                (fun a => (setKey bm f ⟨l.addr, ls, br⟩ a).isSome) = 0 := by
              rw [List.countP_eq_zero]
              intro a ha
              obtain ⟨_, h2, h3⟩ := mem_pushed.1 ha
              rw [setKey_other _ _ h2, h3]
              simp
            have hnext : ∃ n, loop2 code bs B n (pushed bm f br ++ s)
                (setKey bm f ⟨l.addr, ls, br⟩) ≠ .error .outOfFuel := by
              cases hbf0 : bm f with
              | some b0 =>
                have hsame : ∀ a, (setKey bm f ⟨l.addr, ls, br⟩ a).isSome = (bm a).isSome := by
                  intro a
                  by_cases ha : a = f
                  · rw [ha, setKey_same, hbf0]; rfl
                  · rw [setKey_other _ _ ha]
                refine ihw (weight2 (pushed bm f br ++ s) (setKey bm f ⟨l.addr, ls, br⟩)) ?_
                  _ _ ?_ rfl hinv1
                · rw [← hw]
                  unfold weight2
                  rw [List.countP_append, hzero, List.length_append, List.length_cons,
                    List.countP_cons_of_pos _ _ (by rw [hbf0]; rfl)]
                  have h1 : s.countP (fun a => (setKey bm f ⟨l.addr, ls, br⟩ a).isSome)
                      = s.countP (fun a => (bm a).isSome) :=
                    List.countP_congr (fun a _ => by rw [hsame a])
                  rw [h1]
                  omega
                · rw [← hu]
                  apply countAddr_congr
                  intro a
                  have := hsame a
                  cases h1 : setKey bm f ⟨l.addr, ls, br⟩ a <;> cases h2 : bm a <;>
                    simp [h1, h2] at this ⊢
              | none =>
                refine ihu (countAddr (fun a => (setKey bm f ⟨l.addr, ls, br⟩ a).isNone)) ?_
                  _ _ _ rfl rfl hinv1
                rw [← hu]
                apply countAddr_lt _ _ _ hf
                · simp [hbf0]
                · rw [setKey_same]; rfl
                · intro a ha
                  by_cases haf : a = f
                  · rw [haf, hbf0]; rfl
                  · rw [setKey_other _ _ haf] at ha
                    exact ha
            obtain ⟨n, hn⟩ := hnext
            refine ⟨n + 1, ?_⟩
            rw [loop2_build hc hbf hlen]
            exact hn

/-! ## Properties: termination of `buildGraph` -/

/-- Pass 1 from one entry: from some fuel on the result is the same and the
run has not run out of fuel. -/
theorem pass1_stable {code : Code} {B : Nat} (hstop : ∀ f, Stops code B f = true)
    (e : Nat) (he : e < 65536) :
    ∃ F r, r ≠ .error .outOfFuel ∧ ∀ fuel, F ≤ fuel → pass1 code fuel e = r := by
  obtain ⟨n, hn⟩ := loop1_terminates hstop _ _
    ⟨[e], fun _ => false, fun _ => false, fun _ => false⟩ rfl rfl
    (by intro a ha; rw [List.mem_singleton.1 ha]; exact he)
  have key : ∀ fuel, max B n ≤ fuel →
      loop1 code fuel fuel ⟨[e], fun _ => false, fun _ => false, fun _ => false⟩
        = loop1 code B n ⟨[e], fun _ => false, fun _ => false, fun _ => false⟩ := by
    intro fuel hfuel
    rw [loop1_inner_fuel hstop (le_trans (le_max_left _ _) hfuel)]
    have h := loop1_outer_mono n _ hn (fuel - n)
    rw [show n + (fuel - n) = fuel from by
      have := le_trans (le_max_right B n) hfuel
      omega] at h
    exact h
  cases hr : loop1 code B n ⟨[e], fun _ => false, fun _ => false, fun _ => false⟩ with
  | error err =>
    refine ⟨max B n, .error err, ?_, ?_⟩
    · intro h; cases h; exact hn hr
    · intro fuel hfuel
      unfold pass1
      have := key fuel hfuel
      simp only [] at this ⊢
      rw [this, hr]
  | ok st =>
    refine ⟨max B n, if !st.s.isEmpty then .error .fatal else .ok st, ?_, ?_⟩
    · split <;> simp
    · intro fuel hfuel
      unfold pass1
      have := key fuel hfuel
      simp only [] at this ⊢
      rw [this, hr]

/-- One round of the loop over the entries: from some fuel on the result is
the same and the run has not run out of fuel. -/
theorem buildFunction_stable {code : Code} {B : Nat} (hstop : ∀ f, Stops code B f = true)
    (g : Graph) (e : Nat) (he : e < 65536) :
    ∃ F r, r ≠ .error .outOfFuel ∧ ∀ fuel, F ≤ fuel → buildFunction code fuel g e = r := by
  obtain ⟨F1, r1, hr1, h1⟩ := pass1_stable hstop e he
  cases r1 with
  | error err =>
    refine ⟨F1, .error err, ?_, ?_⟩
    · intro h; cases h; exact hr1 rfl
    · intro fuel hfuel
      unfold buildFunction
      rw [h1 fuel hfuel]
  | ok p1 =>
    obtain ⟨n, hn⟩ := @loop2_terminates code p1.bStart B hstop _ _ [e] g.blockMap rfl rfl
      (by intro a ha; rw [List.mem_singleton.1 ha]; exact he)
    have key : ∀ fuel, max B n ≤ fuel →
        loop2 code p1.bStart fuel fuel [e] g.blockMap
          = loop2 code p1.bStart B n [e] g.blockMap := by
      intro fuel hfuel
      rw [loop2_inner_fuel hstop (le_trans (le_max_left _ _) hfuel)]
      have h := loop2_outer_mono n _ _ hn (fuel - n)
      rw [show n + (fuel - n) = fuel from by
        have := le_trans (le_max_right B n) hfuel
        omega] at h
      exact h
    cases hr : loop2 code p1.bStart B n [e] g.blockMap with
    | error err =>
      refine ⟨max F1 (max B n), .error err, ?_, ?_⟩
      · intro h; cases h; exact hn hr
      · intro fuel hfuel
        unfold buildFunction
        rw [h1 fuel (le_trans (le_max_left _ _) hfuel)]
        simp only []
        rw [key fuel (le_trans (le_max_right _ _) hfuel), hr]
    | ok res =>
      refine ⟨max F1 (max B n),
        .ok ⟨res.2, setKey g.fnGraph e p1.calls⟩, by simp, ?_⟩
      intro fuel hfuel
      unfold buildFunction
      rw [h1 fuel (le_trans (le_max_left _ _) hfuel)]
      simp only []
      rw [key fuel (le_trans (le_max_right _ _) hfuel), hr]

/-- The loop over the entries: from some fuel on the result is the same and
the run has not run out of fuel. -/
theorem buildGraphFrom_stable {code : Code} {B : Nat} (hstop : ∀ f, Stops code B f = true) :
    ∀ (fs : List Nat) (g : Graph), (∀ e ∈ fs, e < 65536) →
      ∃ F r, r ≠ .error .outOfFuel ∧ ∀ fuel, F ≤ fuel → buildGraphFrom code fuel fs g = r := by
  intro fs
  induction fs with
  | nil =>
    intro g _
    exact ⟨0, .ok g, by simp, fun fuel _ => rfl⟩
  | cons e rest ih =>
    intro g hfs
    obtain ⟨F1, r1, hr1, h1⟩ :=
      buildFunction_stable hstop g e (hfs e (List.mem_cons_self _ _))
    cases r1 with
    | error err =>
      refine ⟨F1, .error err, hr1, ?_⟩
      intro fuel hfuel
      simp only [buildGraphFrom]
      rw [h1 fuel hfuel]
    | ok g1 =>
      obtain ⟨F2, r2, hr2, h2⟩ := ih g1 (fun a ha => hfs a (List.mem_cons_of_mem _ ha))
      refine ⟨max F1 F2, r2, hr2, ?_⟩
      intro fuel hfuel
      simp only [buildGraphFrom]
      rw [h1 fuel (le_trans (le_max_left _ _) hfuel)]
      exact h2 fuel (le_trans (le_max_right _ _) hfuel)

/-- C13, as amended: termination when every straight-line run stops.  If from
every address a run of plain instructions followed by `addr+2` (in `uint16`
arithmetic) reaches, within `B` steps, a BRA, GOTO, GOTO-indirect, RETURN or
an address without instruction, then for every list of `uint16` function
entries both worklist passes of `buildGraph` terminate, cycles of branches
included: there is a fuel `F` at which the run does not run out of fuel, and
every larger fuel gives the same result. -/
theorem buildGraph_terminates (code : Code) (B : Nat) (fs : List Nat)
    (hstop : ∀ f, Stops code B f = true) (hfs : ∀ e ∈ fs, e < 65536) :
    ∃ F, buildGraph code F fs ≠ .error .outOfFuel
      ∧ ∀ fuel, F ≤ fuel → buildGraph code fuel fs = buildGraph code F fs := by
  obtain ⟨F, r, hr, h⟩ := buildGraphFrom_stable hstop fs ⟨fun _ => none, fun _ => none⟩ hfs
  refine ⟨F, ?_, ?_⟩
  · unfold buildGraph
    rw [h F (le_refl _)]
    exact hr
  · intro fuel hfuel
    unfold buildGraph
    rw [h fuel hfuel, h F (le_refl _)]

theorem stops_selfLoop : ∀ f, Stops (codeOf selfLoopTable) 1 f = true := by
  intro f
  unfold Stops
  cases hc : codeOf selfLoopTable f with
  | none => rfl
  | some l =>
    obtain ⟨hl, _⟩ := codeOf_some hc
    simp only [selfLoopTable, List.mem_cons, List.mem_singleton, List.not_mem_nil,
      or_false] at hl
    rcases hl with rfl | rfl <;> rfl

/-- Instance of C13 (amended): the self-branch at `0x00` of `selfLoopTable`. -/
theorem buildGraph_terminates_witness :
    (∀ f, Stops (codeOf selfLoopTable) 1 f = true) ∧ (∀ e ∈ [0x00], e < 65536)
      ∧ ∃ F, buildGraph (codeOf selfLoopTable) F [0x00] ≠ .error .outOfFuel
          ∧ ∀ fuel, F ≤ fuel →
              buildGraph (codeOf selfLoopTable) fuel [0x00]
                = buildGraph (codeOf selfLoopTable) F [0x00] :=
  ⟨stops_selfLoop, by decide,
    buildGraph_terminates (codeOf selfLoopTable) 1 [0x00] stops_selfLoop (by decide)⟩

theorem nopTable_at (n f : Nat) (hf : f < 2 * n) (hev : f % 2 = 0) :
    codeOf ((List.range n).map (fun i => (⟨2 * i, 0, 0, 0, 0⟩ : line))) f
      = some ⟨f, 0, 0, 0, 0⟩ := by
  have hnd : (((List.range n).map (fun i => (⟨2 * i, 0, 0, 0, 0⟩ : line))).map
      line.addr).Nodup := by
    rw [List.map_map]
    refine List.Nodup.map ?_ (List.nodup_range _)
    intro a b hab
    simp only [Function.comp] at hab
    omega
  have hmem : (⟨f, 0, 0, 0, 0⟩ : line)
      ∈ (List.range n).map (fun i => (⟨2 * i, 0, 0, 0, 0⟩ : line)) := by
    refine List.mem_map.2 ⟨f / 2, List.mem_range.2 (by omega), ?_⟩
    have h2 : 2 * (f / 2) = f := by omega
    exact congrArg (fun a => (⟨a, 0, 0, 0, 0⟩ : line)) h2
  exact codeOf_of_mem hnd hmem

theorem fullTable_at (f : Nat) (hf : f < 65536) (hev : f % 2 = 0) :
    codeOf fullTable f = some ⟨f, 0, 0, 0, 0⟩ :=
  nopTable_at 32768 f (by omega) hev

theorem walk1_fullTable : ∀ (n f : Nat) (st : Pass1), f < 65536 → f % 2 = 0 →
    walk1 (codeOf fullTable) n f st = .error .outOfFuel := by
  intro n
  induction n with
  | zero => intro f st _ _; simp [walk1]
  | succ n ih =>
    intro f st hf hev
    rw [walk1_at_plain st (fullTable_at f hf hev)
      (by simp [line.isPlain, line.isRETURN, line.isBRA, line.isGOTO, line.isGOTOREG]) n]
    exact ih _ _ (Nat.mod_lt _ (by decide)) (by omega)

/-- C13 fails as stated.  The table with a NOP at every even address is
finite, and from the entry `0` the inner loop of pass 1 never meets a RETURN,
a branch or a missing instruction (`f + 2` wraps around at `2^16`): no amount
of fuel lets `buildGraph` finish. -/
theorem termination_counterexample :
    fullTable.length = 32768
      ∧ ∀ fuel, buildGraph (codeOf fullTable) fuel [0] = .error .outOfFuel := by
  refine ⟨by simp [fullTable], ?_⟩
  intro fuel
  have h1 : pass1 (codeOf fullTable) fuel 0 = .error .outOfFuel := by
    unfold pass1
    cases fuel with
    | zero => simp [loop1]
    | succ n =>
      simp only [loop1, fullTable_at 0 (by decide) rfl]
      rw [walk1_fullTable _ _ _ (by decide) rfl]
  simp only [buildGraph, buildGraphFrom, buildFunction, h1]
/-- C14: if every plain instruction that the walks reach has an instruction at
its address + 2, `buildGraph` never stops at a fatal condition or at a
missing-instruction dereference, whatever entries and targets are missing
from the table; when it finishes, an address without an instruction has no
block, and the entries and the branch and jump targets that do have an
instruction have their blocks.  When moreover every straight-line run stops
within `B` steps and the entries are `uint16` values, every large enough fuel
lets the run finish with a result. -/
theorem missing_target_recoverable (code : Code) (fuel : Nat) (fs : List Nat)
    (hnext : ∀ e ∈ fs, ∀ x l, Reach code e x → code x = some l → l.isPlain = true →
      (code ((x + 2) % 65536)).isSome = true) :
    (∀ err, buildGraph code fuel fs = .error err → err = .outOfFuel)
      ∧ (∀ g, buildGraph code fuel fs = .ok g →
          (∀ k, code k = none → g.blockMap k = none)
            ∧ (∀ e ∈ fs, (code e).isSome = true → (g.blockMap e).isSome = true)
            ∧ (∀ e ∈ fs, ∀ d, BranchTarget code e d → (code d).isSome = true →
                (g.blockMap d).isSome = true))
      ∧ (∀ B, (∀ f, Stops code B f = true) → (∀ e ∈ fs, e < 65536) →
          ∃ F, ∀ n, F ≤ n → ∃ g, buildGraph code n fs = .ok g) := by
  have herr : ∀ n err, buildGraph code n fs = .error err → err = .outOfFuel := by
    intro n err h
    rcases buildGraphFrom_error fs _ err h with h1 | ⟨_, e, he, y, l, hr, hc, hp, hn⟩
    · exact h1
    · have := hnext e he y l hr hc hp
      rw [hn] at this
      cases this
  refine ⟨herr fuel, ?_, ?_⟩
  swap
  · intro B hstop hfs
    obtain ⟨F, r, hr, h⟩ := buildGraphFrom_stable hstop fs ⟨fun _ => none, fun _ => none⟩ hfs
    refine ⟨F, fun n hn => ?_⟩
    have hrun : buildGraph code n fs = r := h n hn
    cases r with
    | error err => exact absurd (congrArg Except.error (herr n err hrun)) hr
    | ok g => exact ⟨g, hrun⟩
  · intro g h
    refine ⟨?_, ?_, ?_⟩
    · intro k hk
      cases hb : g.blockMap k with
      | none => rfl
      | some b =>
        obtain ⟨l1, _, _, hc1, _⟩ := (buildGraph_tables h).1 k b hb
        rw [hk] at hc1
        cases hc1
    · intro e he hce
      obtain ⟨p1, _, _, _, _, hblk⟩ := buildGraph_processed h he
      obtain ⟨l, hl⟩ := Option.isSome_iff_exists.1 hce
      obtain ⟨ls, br, _, _, hb, _⟩ := hblk l hl
      rw [hb]; rfl
    · intro e he d hd hcd
      obtain ⟨p1, hp, _, _, hcov, _⟩ := buildGraph_processed h he
      exact hcov d (((pass1_spec hp).1 d).2 hd) hcd


theorem missingTable_no_plain : ∀ e ∈ [0x00], ∀ x l, Reach (codeOf missingTable) e x →
    codeOf missingTable x = some l → l.isPlain = true →
    (codeOf missingTable ((x + 2) % 65536)).isSome = true := by
  intro e _ x l _ hc hp
  obtain ⟨hl, _⟩ := codeOf_some hc
  simp only [missingTable, List.mem_singleton] at hl
  subst hl
  exact absurd hp (by decide)

/-- Instance of C14: the GOTO at `0x00` of `missingTable` has the missing
target `0x0100`; the run finishes, `0x0100` has no block and the entry has
one. -/
theorem missing_target_recoverable_witness :
    (∀ e ∈ [0x00], ∀ x l, Reach (codeOf missingTable) e x →
        codeOf missingTable x = some l → l.isPlain = true →
        (codeOf missingTable ((x + 2) % 65536)).isSome = true)
      ∧ buildGraph (codeOf missingTable) 10 [0x00] = .ok missingGraph
      ∧ missingGraph.blockMap 0x0100 = none
      ∧ (missingGraph.blockMap 0x00).isSome = true :=
  ⟨missingTable_no_plain, rfl,
    ((missing_target_recoverable (codeOf missingTable) 10 [0x00] missingTable_no_plain).2.1
      missingGraph rfl).1 0x0100 rfl,
    ((missing_target_recoverable (codeOf missingTable) 10 [0x00] missingTable_no_plain).2.1
      missingGraph rfl).2.1 0x00 (by decide) rfl⟩

end NakenCfg
